import Mathlib

/-!
Field extraction (fex): a verification development

A shallow embedding of `internal/fex/fex.go` (the extractor compiler
`CompileExtractor`, the field-range parser `ParseFieldRange`/`ParseGroup`, and
the selection engine `FieldRange.Select`, `Group.Select`, `Selector.Extract`,
`Extractor.Extract`), followed by theorems about it.

Modelling conventions.

* A Go `string` is modelled as the list of its code points (`Str`).  The model
  therefore covers arguments and input lines that are valid UTF-8; on those the
  byte-offset table `offs` of `CompileExtractor` makes `slice(i, j)` the
  code points `i .. j-1`, and the byte-level operations of the source
  (`sub[0] == '?'`, `strings.IndexByte(s, ':')`, `strings.Split`) act on
  ASCII bytes and agree with the code-point-level operations used here.
* Go `int` is modelled as `Int`.  The only arithmetic performed on field
  indices is `length + 1 + rel` for `rel < 0` and `Start - 1` for `Start > 0`,
  neither of which can leave the range of a machine `int` when its operands are
  in it; `strconv.Atoi` is modelled with its 64-bit range checks.
* A Go `error` value is modelled by its message.  A run-time panic (index out
  of range) and the exhaustion of an iteration bound are separate outcomes of
  type `Failure`, so that a theorem stating `= .ok _` or `= .error (.error _)`
  also states that the code neither panics nor fails to terminate.
* Tables of the Go standard library that are not part of the repository
  (`unicode.Digit`, the printable-rune table of `strconv`, the `regexp`
  engine) are parameters, collected in `GoLib`.
-/

namespace Fex

/-- Go strings, as lists of code points. -/
abbrev Str := List Char

/-- Ways in which a call does not produce its ordinary result. -/
inductive Failure where
  /-- a non-nil Go `error`, with its message -/
  | error (msg : Str)
  /-- a run-time panic: index or slice bound out of range -/
  | outOfRange
  /-- the iteration bound of a modelled loop was exhausted -/
  | outOfFuel
  deriving DecidableEq, Repr

/-- Parts of the Go standard library taken as parameters. -/
structure GoLib where
  /-- membership in `unicode.Digit`, consulted for code points above U+00FF -/
  digitTable : Char → Bool
  /-- printability according to `strconv.IsPrint`, for code points above U+00FF -/
  printTable : Char → Bool
  /-- Result of `regexp.Compile`: `none` when the pattern is accepted, otherwise the error message -/
  regexpCompile : Str → Option Str
  /-- Value of `(*Regexp).MatchString pattern s` for an accepted pattern -/
  regexpMatch : Str → Str → Bool

/-! ## Standard library: `unicode`, `strconv`, `fmt`, `strings` -/

/-- Model of `unicode.IsDigit`: Latin-1 is decided by range, the rest by table lookup. -/
def IsDigit (lib : GoLib) (r : Char) : Bool :=
  if r.toNat ≤ 0xFF then decide (0x30 ≤ r.toNat ∧ r.toNat ≤ 0x39) else lib.digitTable r

/-- Model of `strconv.IsPrint`. -/
def IsPrint (lib : GoLib) (r : Char) : Bool :=
  if r.toNat ≤ 0xFF then
    if 0x20 ≤ r.toNat ∧ r.toNat ≤ 0x7E then true
    else if 0xA1 ≤ r.toNat ∧ r.toNat ≤ 0xFF then decide (r.toNat ≠ 0xAD)
    else false
  else lib.printTable r

/-- One lower-case hexadecimal digit. -/
def lowerhex (n : Nat) : Char :=
  if n % 16 < 10 then Char.ofNat (0x30 + n % 16) else Char.ofNat (0x61 + (n % 16 - 10))

/-- Escape of one rune inside a quoted literal delimited by `quote`
(`strconv.appendEscapedRune`, not ASCII-only). -/
def appendEscapedRune (lib : GoLib) (r : Char) (quote : Char) : Str :=
  if r = quote ∨ r = '\\' then ['\\', r]
  else if IsPrint lib r then [r]
  else if r.toNat = 0x07 then ['\\', 'a']
  else if r.toNat = 0x08 then ['\\', 'b']
  else if r.toNat = 0x0C then ['\\', 'f']
  else if r.toNat = 0x0A then ['\\', 'n']
  else if r.toNat = 0x0D then ['\\', 'r']
  else if r.toNat = 0x09 then ['\\', 't']
  else if r.toNat = 0x0B then ['\\', 'v']
  else if r.toNat < 0x20 ∨ r.toNat = 0x7F then
    ['\\', 'x', lowerhex (r.toNat / 16), lowerhex r.toNat]
  else if r.toNat < 0x10000 then
    ['\\', 'u', lowerhex (r.toNat / 4096), lowerhex (r.toNat / 256),
      lowerhex (r.toNat / 16), lowerhex r.toNat]
  else
    ['\\', 'U', lowerhex (r.toNat / 268435456), lowerhex (r.toNat / 16777216),
      lowerhex (r.toNat / 1048576), lowerhex (r.toNat / 65536),
      lowerhex (r.toNat / 4096), lowerhex (r.toNat / 256),
      lowerhex (r.toNat / 16), lowerhex r.toNat]

/-- Model of `strconv.Quote`, which is what the verb `%q` applies to a string. -/
def Quote (lib : GoLib) (s : Str) : Str :=
  ['"'] ++ (s.map (fun r => appendEscapedRune lib r '"')).flatten ++ ['"']

/-- Model of `strconv.QuoteRune`, which is what the verb `%q` applies to a rune. -/
def QuoteRune (lib : GoLib) (r : Char) : Str :=
  ['\''] ++ appendEscapedRune lib r '\'' ++ ['\'']

/-- Decimal digits of a natural number, most significant first; the first
argument bounds the number of digits produced. -/
def fmtUintAux : Nat → Nat → Str → Str
  | 0, _, acc => acc
  | fuel + 1, n, acc =>
    if n < 10 then Char.ofNat (0x30 + n) :: acc
    else fmtUintAux fuel (n / 10) (Char.ofNat (0x30 + n % 10) :: acc)

/-- Decimal rendering of a natural number. -/
def fmtUint (n : Nat) : Str := fmtUintAux (n + 1) n []

/-- The verb `%d` applied to an `int`. -/
def fmtInt (v : Int) : Str :=
  if v < 0 then '-' :: fmtUint v.natAbs else fmtUint v.natAbs

/-- The two causes carried by a `*strconv.NumError`. -/
inductive NumErr where
  | ErrSyntax
  | ErrRange
  deriving DecidableEq, Repr

/-- Digit loop of `strconv.ParseUint` for base 10 and 64 bits: `n` is the value
accumulated so far, as a `uint64`. -/
def parseUintLoop : List Char → Nat → Except NumErr Nat
  | [], n => .ok n
  | c :: cs, n =>
    if 0x30 ≤ c.toNat ∧ c.toNat ≤ 0x39 then
      let d := c.toNat - 0x30
      -- cutoff = maxUint64/10 + 1: n*10 would overflow
      if n ≥ (2 ^ 64 - 1) / 10 + 1 then .error .ErrRange
      else
        let n10 := (n * 10) % 2 ^ 64
        let n1 := (n10 + d) % 2 ^ 64
        if n1 < n10 ∨ n1 > 2 ^ 64 - 1 then .error .ErrRange
        else parseUintLoop cs n1
    else .error .ErrSyntax

/-- Model of `strconv.ParseUint(s, 10, 64)`. -/
def ParseUint (s : Str) : Except NumErr Nat :=
  if s = [] then .error .ErrSyntax else parseUintLoop s 0

/-- Model of `strconv.ParseInt(s, 10, 0)` on a platform whose `int` has 64 bits. -/
def ParseInt (s : Str) : Except NumErr Int :=
  match s with
  | [] => .error .ErrSyntax
  | c :: cs =>
    let neg := decide (c = '-')
    let digits := if c = '+' ∨ c = '-' then cs else c :: cs
    match ParseUint digits with
    | .error .ErrSyntax => .error .ErrSyntax
    | .error .ErrRange => .error .ErrRange
    | .ok un =>
      if ¬ neg ∧ un ≥ 2 ^ 63 then .error .ErrRange
      else if neg ∧ un > 2 ^ 63 then .error .ErrRange
      else .ok (if neg then -(un : Int) else (un : Int))

/-- Message of a `*strconv.NumError` raised by `Atoi`. -/
def numErrorMsg (lib : GoLib) (s : Str) (e : NumErr) : Str :=
  "strconv.Atoi: parsing ".toList ++ Quote lib s ++ ": ".toList ++
    (match e with
     | .ErrSyntax => "invalid syntax".toList
     | .ErrRange => "value out of range".toList)

/-- Model of `strconv.Atoi`. -/
def Atoi (lib : GoLib) (s : Str) : Except Failure Int :=
  match ParseInt s with
  | .ok v => .ok v
  | .error e => .error (.error (numErrorMsg lib s e))

/-- Model of `strings.Join`. -/
def Join (elems : List Str) (sep : Str) : Str :=
  match elems with
  | [] => []
  | [a] => a
  | a :: rest => a ++ sep ++ Join rest sep

/-- Model of `strings.Index(s, sep)`: position of the first occurrence of `sep` in `s`. -/
def Index (s sep : Str) : Option Nat :=
  if sep.isPrefixOf s then some 0
  else match s with
    | [] => none
    | _ :: cs => (Index cs sep).map (· + 1)

/-- Loop of `strings.genSplit` for a non-empty separator; the first argument
bounds the number of iterations. -/
def genSplitLoop : Nat → Str → Str → List Str
  | 0, s, _ => [s]
  | fuel + 1, s, sep =>
    match Index s sep with
    | none => [s]
    | some m => s.take m :: genSplitLoop fuel (s.drop (m + sep.length)) sep

/-- Model of `strings.Split(s, sep)`; an empty separator splits after every code point. -/
def Split (s sep : Str) : List Str :=
  if sep = [] then s.map (fun c => [c])
  else genSplitLoop (s.length + 1) s sep

/-- Field loop of `strings.FieldsFunc`: `cur` is the field being read, reversed. -/
def fieldsFuncAux (f : Char → Bool) : List Char → List Char → List Str
  | [], cur => if cur = [] then [] else [cur.reverse]
  | c :: cs, cur =>
    if f c then
      (if cur = [] then fieldsFuncAux f cs [] else cur.reverse :: fieldsFuncAux f cs [])
    else fieldsFuncAux f cs (c :: cur)

/-- Model of `strings.FieldsFunc`. -/
def FieldsFunc (s : Str) (f : Char → Bool) : List Str := fieldsFuncAux f s []

/-! ## Split functions -/

/-- The function `GreedySplit` splits `s` at every rune of `delim`, omitting empty splits. -/
def GreedySplit (delim s : Str) : List Str :=
  FieldsFunc s (fun r => delim.any (fun dr => r == dr))

/-- The function `NonGreedySplit` splits `s` along `delim`, retaining empty splits. -/
def NonGreedySplit (delim s : Str) : List Str :=
  Split s delim

/-! ## Field ranges -/

/-- The function `abs` returns an offset relative to the range `[1, length]`; the result is
not bounds-checked. -/
def abs (rel length : Int) : Int :=
  if rel < 0 then length + 1 + rel else rel

/-- The type `FieldRange` is the inclusive range `[Start, End]` of 1-based indices. -/
structure FieldRange where
  Start : Int
  End : Int
  deriving DecidableEq, Repr

/-- Model of `FieldRange.abs`: both ends made absolute, and `End` raised to `Start`. -/
def FieldRange.abs (r : FieldRange) (fields : List Str) : FieldRange :=
  let n : Int := fields.length
  let r1 : FieldRange := { r with Start := Fex.abs r.Start n }
  let r2 : FieldRange := { r1 with End := Fex.abs r1.End n }
  if r2.End < r2.Start then { r2 with End := r2.Start } else r2

/-- Model of `FieldRange.isValid`. -/
def FieldRange.isValid (r : FieldRange) : Bool :=
  decide (r.Start > 0) && decide (r.End > 0) && decide (r.Start ≤ r.End)

/-- The builtin `make([]string, k)`: `k` empty strings; panics for `k < 0`. -/
def makeStrings (k : Int) : Except Failure (List Str) :=
  if k < 0 then .error .outOfRange else .ok (List.replicate k.toNat [])

/-- The slice expression `fields[start:]`; panics outside `0 ≤ start ≤ len`. -/
def sliceFrom (fields : List Str) (start : Int) : Except Failure (List Str) :=
  if start < 0 ∨ start > fields.length then .error .outOfRange
  else .ok (fields.drop start.toNat)

/-- The builtin `copy(dst, src)`: overwrites the first `min (len dst) (len src)`
elements of `dst`. -/
def copy (dst src : List Str) : List Str :=
  src.take (min dst.length src.length) ++ dst.drop (min dst.length src.length)

/-- Model of `FieldRange.Select`. -/
def FieldRange.Select (r : FieldRange) (fields : List Str) (zero : Str) :
    Except Failure (List Str) :=
  if r.Start = 0 ∧ r.End = 0 then .ok [zero]
  else
    let r := r.abs fields
    if !r.isValid then .ok []
    else
      let start := r.Start - 1
      let end_ := r.End
      let n : Int := fields.length
      if start > n then .ok []
      else
        let end_ := if end_ > n then n else end_
        match makeStrings (end_ - start), sliceFrom fields start with
        | .ok fs, .ok src => .ok (copy fs src)
        | .error e, _ => .error e
        | _, .error e => .error e

/-- Model of `strings.IndexByte`: index of the first `c` in `s`, or `-1`. -/
def IndexByte : Str → Char → Int
  | [], _ => -1
  | x :: xs, c =>
    if x = c then 0
    else if IndexByte xs c = -1 then -1 else IndexByte xs c + 1

/-- The function `ParseFieldRange` parses `N`, `N:M`, `:M`, `N:` and `:`. -/
def ParseFieldRange (lib : GoLib) (s : Str) : Except Failure FieldRange :=
  let n := IndexByte s ':'
  if n = -1 then
    match Atoi lib s with
    | .error e => .error e
    | .ok i => .ok { Start := i, End := i }
  else
    let start := s.take n.toNat
    let end_ := s.drop (n.toNat + 1)
    if start = [] ∧ end_ = [] then .ok { Start := 0, End := 0 }
    else
      match (if start = [] then .ok 1 else Atoi lib start) with
      | .error e => .error e
      | .ok fStart =>
        match (if end_ = [] then .ok (-1) else Atoi lib end_) with
        | .error e => .error e
        | .ok fEnd =>
          if fStart > fEnd ∧ ((fStart < 0 ∧ fEnd < 0) ∨ (fStart > 0 ∧ fEnd > 0)) then
            .error (.error ("start > end is invalid: ".toList ++ fmtInt fStart ++
              " > ".toList ++ fmtInt fEnd))
          else if (fStart = 0 ∨ fEnd = 0) ∧ fStart ≠ fEnd then
            .error (.error ("start or end cannot be 0 when the other is not 0: ".toList ++
              fmtInt fStart ++ " and ".toList ++ fmtInt fEnd))
          else .ok { Start := fStart, End := fEnd }

/-- The type `Group` is a collection of field ranges. -/
abbrev Group := List FieldRange

/-- Loop of `ParseGroup` over the comma-separated specs. -/
def parseGroupLoop (lib : GoLib) : List Str → Except Failure Group
  | [] => .ok []
  | spec :: rest =>
    match ParseFieldRange lib spec with
    | .error (.error msg) =>
      .error (.error ("cannot parse ".toList ++ Quote lib spec ++ ": ".toList ++ msg))
    | .error e => .error e
    | .ok fr =>
      match parseGroupLoop lib rest with
      | .error e => .error e
      | .ok g => .ok (fr :: g)

/-- Model of `ParseGroup`. -/
def ParseGroup (lib : GoLib) (s : Str) : Except Failure Group :=
  parseGroupLoop lib (Split s [','])

/-- Loop of `Group.Select`: `fs` collects what the ranges seen so far selected. -/
def groupSelectLoop (fields : List Str) (zero : Str) :
    List FieldRange → List Str → Except Failure (List Str)
  | [], fs => .ok fs
  | fr :: rest, fs =>
    match fr.Select fields zero with
    | .error e => .error e
    | .ok selected => groupSelectLoop fields zero rest (fs ++ selected)

/-- Model of `Group.Select`. -/
def Group.Select (g : Group) (fields : List Str) (zero : Str) : Except Failure (List Str) :=
  groupSelectLoop fields zero g []

/-- Model of `RegexpFilter`: a compiled regular expression, identified by its source text. -/
structure RegexpFilter where
  expr : Str
  deriving DecidableEq, Repr

/-- Model of `NewRegexpFilter`. -/
def NewRegexpFilter (lib : GoLib) (s : Str) : Except Failure RegexpFilter :=
  match lib.regexpCompile s with
  | some msg => .error (.error msg)
  | none => .ok { expr := s }

/-- Model of `RegexpFilter.Select`: the fields the expression matches, in order. -/
def RegexpFilter.Select (lib : GoLib) (r : RegexpFilter) (fields : List Str) (_zero : Str) :
    Except Failure (List Str) :=
  .ok (fields.filter (fun f => lib.regexpMatch r.expr f))

/-- Model of `Filter`: the three implementations of the interface. -/
inductive Filter where
  | fieldRange (r : FieldRange)
  | group (g : Group)
  | regexp (r : RegexpFilter)
  deriving DecidableEq, Repr

/-- Model of `Filter.Select`, by dynamic dispatch. -/
def Filter.Select (lib : GoLib) (f : Filter) (fields : List Str) (zero : Str) :
    Except Failure (List Str) :=
  match f with
  | .fieldRange r => r.Select fields zero
  | .group g => Group.Select g fields zero
  | .regexp r => r.Select lib fields zero

/-- The two functions a selector's `tokenize` field can hold. -/
inductive splitFunc where
  | greedy
  | nonGreedy
  deriving DecidableEq, Repr

/-- Call of the function held in a `tokenize` field. -/
def splitFunc.call (t : splitFunc) (delim s : Str) : List Str :=
  match t with
  | .greedy => GreedySplit delim s
  | .nonGreedy => NonGreedySplit delim s

/-- The type `Selector` is an individual part of an extraction string. -/
structure Selector where
  delim : Str
  tokenize : splitFunc
  filter : Filter
  deriving DecidableEq, Repr

/-- The type `Extractor` is a sequence of selectors. -/
abbrev Extractor := List Selector

/-- Model of `Selector.Extract`. -/
def Selector.Extract (lib : GoLib) (sel : Selector) (s : Str) : Except Failure Str :=
  let fields := sel.tokenize.call sel.delim s
  match sel.filter.Select lib fields s with
  | .error e => .error e
  | .ok fields => .ok (Join fields sel.delim)

/-- Loop of `Extractor.Extract`. -/
def extractLoop (lib : GoLib) : List Selector → Str → Except Failure Str
  | [], result => .ok result
  | ex :: rest, result =>
    match ex.Extract lib result with
    | .error e => .error e
    | .ok result => extractLoop lib rest result

/-- Model of `Extractor.Extract`. -/
def Extractor.Extract (lib : GoLib) (e : Extractor) (s : Str) : Except Failure Str :=
  extractLoop lib e s

/-! ## The extractor compiler -/

/-- The index expression `sr[k]`; panics when `k` is not an index of `sr`. -/
def runeAt (sr : List Char) (k : Int) : Except Failure Char :=
  if k < 0 then .error .outOfRange
  else match sr[k.toNat]? with
    | some c => .ok c
    | none => .error .outOfRange

/-- The closure `slice(i, j)` of `CompileExtractor`, `arg[offs[i]:offs[j]]`: the
code points `i .. j-1`.  `offs` has one entry per code point and a last one for
the end of the argument, and is strictly increasing, so the expression panics
exactly when `i` or `j` is outside `0 .. len(sr)` or `i > j`. -/
def slice (sr : List Char) (i j : Int) : Except Failure Str :=
  if i < 0 ∨ j < 0 ∨ i > sr.length ∨ j > sr.length ∨ i > j then .error .outOfRange
  else .ok ((sr.drop i.toNat).take (j.toNat - i.toNat))

/-- Loop `for q := i - 1; q >= 0; q--` shared by the closures `find` and
`findf`; the argument is `q + 1`. -/
def findfLoop (sr : List Char) (f : Char → Bool) : Nat → Except Failure Int
  | 0 => .ok (-1)
  | q + 1 =>
    match runeAt sr q with
    | .error e => .error e
    | .ok c => if f c then .ok q else findfLoop sr f q

/-- The closure `findf(f)` of `CompileExtractor`, reading the cursor `i`. -/
def findf (sr : List Char) (i : Int) (f : Char → Bool) : Except Failure Int :=
  findfLoop sr f i.toNat

/-- The closure `find(r)` of `CompileExtractor`, reading the cursor `i`. -/
def find (sr : List Char) (i : Int) (r : Char) : Except Failure Int :=
  findfLoop sr (fun c => c == r) i.toNat

/-- Exchange of the elements at `j` and `opp`. -/
def swapAt {α : Type} (xs : List α) (j opp : Nat) : List α :=
  match xs[j]?, xs[opp]? with
  | some a, some b => (xs.set j b).set opp a
  | _, _ => xs

/-- Loop `for j := len(xs)/2 - 1; j >= 0; j--` exchanging `xs[j]` with
`xs[len(xs)-1-j]`; the argument is `j + 1`. -/
def reverseLoop {α : Type} : Nat → List α → List α
  | 0, xs => xs
  | j + 1, xs => reverseLoop j (swapAt xs j (xs.length - 1 - j))

/-- The in-place reversal applied to `chunks` and to `ex`. -/
def reverseInPlace {α : Type} (xs : List α) : List α :=
  reverseLoop (xs.length / 2) xs

/-- Loop `for ; start != -1; start = find('/')` of the regexp selector.  The
state is the cursor `i`, the position `start` of the candidate slash and the
chunks found so far; the result is the cursor and the chunks on leaving the
loop.  The first argument bounds the number of iterations. -/
def regexpLoop (sr : List Char) : Nat → Int → Int → List Str → Except Failure (Int × List Str)
  | 0, _, _, _ => .error .outOfFuel
  | fuel + 1, i, start, chunks =>
    if start = -1 then .ok (i, chunks)
    else
      match slice sr (start + 1) i with
      | .error e => .error e
      | .ok chunk =>
        let chunks := if chunk ≠ [] then chunks ++ [chunk] else chunks
        let i := start
        match (if start > 1 then (runeAt sr (start - 1)).map (fun c => c == '\\')
               else .ok false) with
        | .error e => .error e
        | .ok escaped =>
          if !escaped then .ok (i - 1, chunks)
          else
            match findf sr i (fun r => r != '\\') with
            | .error e => .error e
            | .ok q =>
              let i := q + 1
              let escapes := start - i
              if Int.tmod escapes 2 = 0 then .ok (i, chunks)
              else
                match slice sr (start - Int.tdiv (escapes - 1) 2) (start + 1) with
                | .error e => .error e
                | .ok esc =>
                  match find sr i '/' with
                  | .error e => .error e
                  | .ok start => regexpLoop sr fuel i start (chunks ++ [esc])

/-- The `switch` of the loop body of `CompileExtractor`: the selector ending at
the cursor `i`.  The result is the tokenizer, the filter and the cursor. -/
def selectorAt (lib : GoLib) (sr : List Char) (i : Int) :
    Except Failure (splitFunc × Filter × Int) :=
  match runeAt sr i with
  | .error e => .error e
  | .ok r =>
    if r = '}' then
      match find sr i '{' with
      | .error e => .error e
      | .ok start =>
        if start = -1 then
          .error (.error ("extractor has unmatched '\x7d' at character ".toList ++ fmtInt (i + 1)))
        else
          match slice sr (start + 1) i with
          | .error e => .error e
          | .ok sub =>
            let tokenizer := if sub.head? = some '?' then splitFunc.nonGreedy else splitFunc.greedy
            let sub := if sub.head? = some '?' then sub.drop 1 else sub
            match ParseGroup lib sub with
            | .error e => .error e
            | .ok group => .ok (tokenizer, .group group, start - 1)
    else if r = '/' then
      match find sr i '/' with
      | .error e => .error e
      | .ok start =>
        match regexpLoop sr (sr.length + 1) i start [] with
        | .error e => .error e
        | .ok (i, chunks) =>
          let rx := Join (reverseInPlace chunks) []
          match NewRegexpFilter lib rx with
          | .error e => .error e
          | .ok filter => .ok (.greedy, .regexp filter, i)
    else if IsDigit lib r then
      match findf sr i (fun r => !IsDigit lib r) with
      | .error e => .error e
      | .ok start =>
        match (if start > -1 then (runeAt sr start).map (fun c => c == '-')
               else .ok false) with
        | .error e => .error e
        | .ok minus =>
          let start := if minus then start - 1 else start
          match slice sr (start + 1) (i + 1) with
          | .error e => .error e
          | .ok digits =>
            match ParseFieldRange lib digits with
            | .error e => .error e
            | .ok fr => .ok (.greedy, .fieldRange fr, start)
    else
      .error (.error ("unexpected ".toList ++ QuoteRune lib r ++ " in selector".toList))

/-- The escape table applied to the rune after a backslash; `none` stands for
the `default` branch. -/
def escapeSep (c : Char) : Option Str :=
  if c = '\\' then some ['\\']
  else if c = 'a' then some [Char.ofNat 0x07]
  else if c = 'b' then some [Char.ofNat 0x08]
  else if c = 'f' then some [Char.ofNat 0x0C]
  else if c = 'n' then some [Char.ofNat 0x0A]
  else if c = 'r' then some [Char.ofNat 0x0D]
  else if c = 't' then some [Char.ofNat 0x09]
  else if c = 'v' then some [Char.ofNat 0x0B]
  else if c = 'z' then some [Char.ofNat 0x00]
  else if c = 'e' then some [Char.ofNat 0x1B]
  else none

/-- The second half of the loop body of `CompileExtractor`: the separator of the
selector just read, and the cursor. -/
def delimAt (sr : List Char) (i : Int) : Except Failure (Str × Int) :=
  match (if i > 0 then (runeAt sr (i - 1)).map (fun c => c == '\\') else .ok false) with
  | .error e => .error e
  | .ok true =>
    match runeAt sr i with
    | .error e => .error e
    | .ok c =>
      match escapeSep c with
      | some sep => .ok (sep, i - 1)
      | none =>
        match slice sr i (i + 1) with
        | .error e => .error e
        | .ok sep => .ok (sep, i - 1)
  | .ok false =>
    if i ≥ 0 then
      match slice sr i (i + 1) with
      | .error e => .error e
      | .ok sep => .ok (sep, i)
    else .ok ([' '], i)

/-- Loop `for ; i >= 0; i--` of `CompileExtractor`, appending one selector per
iteration; the first argument bounds the number of iterations. -/
def compileLoop (lib : GoLib) (sr : List Char) : Nat → Int → List Selector →
    Except Failure (List Selector)
  | 0, _, _ => .error .outOfFuel
  | fuel + 1, i, ex =>
    if i < 0 then .ok ex
    else
      match selectorAt lib sr i with
      | .error e => .error e
      | .ok (tokenizer, filter, i) =>
        match delimAt sr i with
        | .error e => .error e
        | .ok (sep, i) =>
          compileLoop lib sr fuel (i - 1)
            (ex ++ [{ delim := sep, tokenize := tokenizer, filter := filter }])

/-- Model of `CompileExtractor`.  The cursor strictly decreases on every iteration, so
`len(sr) + 1` bounds the number of iterations of either loop. -/
def CompileExtractor (lib : GoLib) (arg : Str) : Except Failure Extractor :=
  let sr := arg
  let n : Int := sr.length
  match compileLoop lib sr (sr.length + 1) (n - 1) [] with
  | .error e => .error e
  | .ok ex => .ok (reverseInPlace ex)

/-! ## The program: `Fex.Run` -/

/-- The constant `usageFormat`, with the program name substituted for its one
verb `%s`. -/
def usageFormat (name : Str) : Str :=
  "Usage: ".toList ++ name ++
   (" <extract1> [extract...]\n" ++
    "\n" ++
    "Extract syntax is one or more selectors, formatted as:\n" ++
    "\n" ++
    "    <delimiter><field number(s)>\n" ++
    "\n" ++
    "Fields start at 1, same as AWK. A field number of 0 selects the whole\n" ++
    "string, unchanged.\n" ++
    "\n" ++
    "You can specify multiple fields with curly braces and numbers split by\n" ++
    "commas. Also valid in curly braces \x7b\x7d are number ranges. Number ranges\n" ++
    "are similar to python array slices, split by colon.\n" ++
    "\n" ++
    "The first separator is implied as space (' '), but can be overridden.\n" ++
    "For example, to select the last dash-separated field, you can use --1.\n" ++
    "\n" ++
    "You can match fields by a regexp (regular expression) by following the\n" ++
    "separator with a /regexp/. If the separator is a backslash, it must be\n" ++
    "escaped by writing two backslashes. Forward slashes and backslashes in\n" ++
    "the regexp can also be escaped.\n" ++
    "\n" ++
    "Regular expressions are RE2. To use a backslash separator with a regexp\n" ++
    "RE2 syntax: <https://github.com/google/re2/wiki/Syntax>.\n" ++
    "\n" ++
    "Some examples:\n" ++
    "\n" ++
    "    1.1        First split by ' ', then first by '.'.\n" ++
    "               'foo.bar baz' by '1.1' outputs 'foo'.\n" ++
    "\n" ++
    "    0:\x7b1,-1\x7d   Output the first and last split by ':'.\n" ++
    "               'foo:bar:baz:fizz' by '0:\x7b1,-1\x7d' outputs 'foo:fizz'.\n" ++
    "\n" ++
    "    \x7b1:3\x7d      Output tokens 1 through 3.\n" ++
    "               'foo bar baz fizz' by '\x7b1:3\x7d' outputs 'foo bar baz'.\n" ++
    "\n" ++
    "    :/home/    First split by ':' and yield only fields matching the\n" ++
    "               regexp /home/.\n" ++
    "\n" ++
    "    \\\\/addr/   First split by '\\' ('\\\\' to escape it) and yield only\n" ++
    "               fields matching the regexp /addr/.\n" ++
    "\n" ++
    "Make sure you quote your extractions, or your shell may perform\n" ++
    "some unintended expansion.").toList

/-- The type `Fex` holds the program state: the program name and version, and
the three streams.  `Stdin` is modelled by the input not yet read, `Stdout` and
`Stderr` by what has been written to them; reads fail only at the end of the
input and writes never fail, as with the in-memory streams of the tests. -/
structure Fex where
  Name : Str
  Version : Str
  Stdin : Str
  Stdout : Str
  Stderr : Str
  deriving DecidableEq, Repr

/-- Length in bytes of a string, the `len` of Go. -/
def byteLen (s : Str) : Int :=
  ((s.map (fun c => c.utf8Size)).sum : Nat)

/-- Method `Fex.write`: writes a non-empty `s` to stdout; the result is the
state and the number of bytes written. -/
def Fex.write (f : Fex) (s : Str) : Fex × Int :=
  if s ≠ [] then ({ f with Stdout := f.Stdout ++ s }, byteLen s) else (f, 0)

/-- Method `Fex.errorf`, applied to the message `fmt.Sprintf` has formatted:
`fmt.Fprintln` writes it to stderr, followed by a newline. -/
def Fex.errorf (f : Fex) (msg : Str) : Fex :=
  { f with Stderr := f.Stderr ++ msg ++ ['\n'] }

/-- Method `Fex.Usage` writes the formatted usage text to stderr. -/
def Fex.Usage (f : Fex) : Fex :=
  f.errorf (usageFormat f.Name)

/-- Model of `strings.TrimSuffix`. -/
def TrimSuffix (s suffix : Str) : Str :=
  if suffix.isSuffixOf s then s.take (s.length - suffix.length) else s

/-- Loop `for i, op := range ops` of `processLine`: `i` is the index of the
next extractor and `written` the number of bytes written so far.  The state is
returned also when an extractor fails. -/
def processLoop (lib : GoLib) (line : Str) :
    List Extractor → Int → Fex → Int → Fex × Except Failure Int
  | [], _, f, written => (f, .ok written)
  | op :: rest, i, f, written =>
    match Extractor.Extract lib op line with
    | .error e => (f, .error e)
    | .ok field =>
      let w1 := if i > 0 then f.write [' '] else (f, 0)
      let w2 := w1.1.write field
      processLoop lib line rest (i + 1) w2.1 (written + w1.2 + w2.2)

/-- Method `Fex.processLine`: the state after the call, and the error returned. -/
def Fex.processLine (lib : GoLib) (f : Fex) (line : Str) (ops : List Extractor) :
    Fex × Except Failure Unit :=
  let line := TrimSuffix line ['\n']
  let line := TrimSuffix line ['\r']
  match processLoop lib line ops 0 f 0 with
  | (f, .error e) => (f, .error e)
  | (f, .ok written) =>
    if written > 0 then ((f.write ['\n']).1, .ok ()) else (f, .ok ())

/-- Loop `for i, arg := range argv` of `Run`: the compiled extractors, or the
state after the first compile error has been reported. -/
def compileArgs (lib : GoLib) (f : Fex) :
    List Str → Int → List Extractor → Except Failure (Fex ⊕ List Extractor)
  | [], _, ops => .ok (.inr ops)
  | arg :: rest, i, ops =>
    match CompileExtractor lib arg with
    | .error (.error msg) =>
      .ok (.inl (f.errorf ("Error parsing extract ".toList ++ fmtInt (i + 1) ++ ": ".toList ++
        Quote lib arg ++ ": ".toList ++ msg)))
    | .error e => .error e
    | .ok op => compileArgs lib f rest (i + 1) (ops ++ [op])

/-- Model of `(*bufio.Reader).ReadString`: the text up to and including the
first `delim`, the input left, and whether the end of the input was hit first
(`io.EOF`). -/
def ReadString (input : Str) (delim : Char) : Str × Str × Bool :=
  if IndexByte input delim = -1 then (input, [], true)
  else (input.take ((IndexByte input delim).toNat + 1),
        input.drop ((IndexByte input delim).toNat + 1), false)

/-- Loop `for` of `Run` over the input lines; the first argument bounds the
number of iterations. -/
def runLines (lib : GoLib) (ops : List Extractor) : Nat → Fex → Except Failure Fex
  | 0, _ => .error .outOfFuel
  | fuel + 1, f =>
    let r := ReadString f.Stdin '\n'
    let f := { f with Stdin := r.2.1 }
    if r.1 = [] ∧ r.2.2 = true then .ok f
    else
      match f.processLine lib r.1 ops with
      | (_, .error .outOfRange) => .error .outOfRange
      | (_, .error .outOfFuel) => .error .outOfFuel
      | (f, .error (.error msg)) =>
        if r.2.2 = true then .ok (f.errorf msg) else runLines lib ops fuel (f.errorf msg)
      | (f, .ok ()) =>
        if r.2.2 = true then .ok f else runLines lib ops fuel f

/-- Method `Fex.Run`: the exit status and the final state.  Every iteration over
the input consumes at least one rune of it or is the last, so the length of the
input plus one bounds their number. -/
def Fex.Run (lib : GoLib) (f : Fex) (argv : List Str) : Except Failure (Int × Fex) :=
  match argv with
  | [] => .ok (2, f.Usage)
  | arg0 :: _ =>
    if arg0 = "-h".toList ∨ arg0 = "--help".toList then .ok (2, f.Usage)
    else if arg0 = "-v".toList ∨ arg0 = "--version".toList then
      .ok (0, (f.write (f.Version ++ ['\n'])).1)
    else
      match compileArgs lib f argv 0 [] with
      | .error e => .error e
      | .ok (.inl f) => .ok (1, f)
      | .ok (.inr ops) =>
        match runLines lib ops (f.Stdin.length + 1) f with
        | .error e => .error e
        | .ok f => .ok (0, f)

/-! ## Reference definitions used in the statements -/

/-- Token at the 1-based position `p`, if there is one. -/
def tokenAt (fields : List Str) (p : Int) : Option Str :=
  if 1 ≤ p then fields[(p - 1).toNat]? else none

/-- The consecutive positions `s, s+1, ..., t`. -/
def positions (s t : Int) : List Int :=
  (List.range (t + 1 - s).toNat).map (fun (k : Nat) => s + (k : Int))

/-- Reference for `FieldRange.Select`, following the written contract. -/
def selectRef (r : FieldRange) (fields : List Str) (zero : Str) : List (Option Str) :=
  if r.Start = 0 ∧ r.End = 0 then [some zero]
  else
    let n : Int := fields.length
    let s := if r.Start ≥ 0 then r.Start else n + 1 + r.Start
    let e0 := if r.End ≥ 0 then r.End else n + 1 + r.End
    let e := max e0 s
    if s ≤ 0 ∨ s > n then [] else (positions s (min e n)).map (tokenAt fields)

/-- ASCII decimal digit. -/
def isAsciiDigit (c : Char) : Bool :=
  decide (0x30 ≤ c.toNat ∧ c.toNat ≤ 0x39)

/-- Value denoted by a string of ASCII decimal digits. -/
def decimalValue (k : Str) : Nat :=
  k.foldl (fun n c => n * 10 + (c.toNat - 0x30)) 0

/-- The validity invariant of a field range: `Start` and `End` are both zero or
both nonzero, and when they have the same sign `Start ≤ End`. -/
def FieldRange.wellFormed (r : FieldRange) : Prop :=
  ((r.Start = 0 ∧ r.End = 0) ∨ (r.Start ≠ 0 ∧ r.End ≠ 0)) ∧
  ((0 < r.Start ∧ 0 < r.End) ∨ (r.Start < 0 ∧ r.End < 0) → r.Start ≤ r.End)

/-- A standard library instance used to run the model on concrete inputs: no
digits or printable runes beyond Latin-1, every pattern accepted, and a
pattern matching the strings that contain it literally. -/
def demoLib : GoLib where
  digitTable := fun _ => false
  printTable := fun _ => false
  regexpCompile := fun _ => none
  regexpMatch := fun p s => (Index s p).isSome

/-- The escape table as documented: the separator written `\c`. -/
def escapeTable (c : Char) : Char :=
  if c = '\\' then '\\'
  else if c = 'a' then Char.ofNat 0x07
  else if c = 'b' then Char.ofNat 0x08
  else if c = 'f' then Char.ofNat 0x0C
  else if c = 'n' then Char.ofNat 0x0A
  else if c = 'r' then Char.ofNat 0x0D
  else if c = 't' then Char.ofNat 0x09
  else if c = 'v' then Char.ofNat 0x0B
  else if c = 'z' then Char.ofNat 0x00
  else if c = 'e' then Char.ofNat 0x1B
  else c

/-- The one-selector extractor with a group filter, or the failure of the group parser. -/
def groupExtractor (delim : Str) (tokenize : splitFunc) (parsed : Except Failure Group) :
    Except Failure Extractor :=
  match parsed with
  | .error e => .error e
  | .ok g => .ok [{ delim := delim, tokenize := tokenize, filter := .group g }]

/-- A non-empty ASCII decimal literal whose value fits in an `int`. -/
def isLiteral (k : Str) : Prop :=
  k ≠ [] ∧ (∀ c ∈ k, isAsciiDigit c = true) ∧ decimalValue k < 2 ^ 63

/-- The text `d2 k2 ... dm km` of a sequence of delimited literals. -/
def selectorText (rest : List (Char × Str)) : Str :=
  (rest.map (fun p => p.1 :: p.2)).flatten

/-- The greedy selector with delimiter `delim` that selects the field numbered by the literal `k`. -/
def simpleSelector (delim : Str) (k : Str) : Selector :=
  { delim := delim, tokenize := .greedy,
    filter := .fieldRange { Start := decimalValue k, End := decimalValue k } }

/-- Tokens a field range selects, read off the reference `selectRef`. -/
def rangeSelected (r : FieldRange) (fields : List Str) (zero : Str) : List Str :=
  (selectRef r fields zero).reduceOption

/-- Tokens a filter selects: a range by `selectRef`, a group by concatenating
its ranges in order, a regexp by keeping the tokens it matches. -/
def filterSelected (lib : GoLib) (f : Filter) (fields : List Str) (zero : Str) : List Str :=
  match f with
  | .fieldRange r => rangeSelected r fields zero
  | .group g => (g.map (fun r => rangeSelected r fields zero)).flatten
  | .regexp rx => fields.filter (fun t => lib.regexpMatch rx.expr t)

/-- One stage of an extraction: tokenize the current string with the selector's
tokenizer and delimiter, select with its filter, given the current string as
zero value, and join the selected tokens with the selector's delimiter. -/
def stageRef (lib : GoLib) (cur : Str) (sel : Selector) : Str :=
  Join (filterSelected lib sel.filter (sel.tokenize.call sel.delim cur) cur) sel.delim

/-- Reference for `Extractor.Extract`: the left fold of the stages. -/
def extractRef (lib : GoLib) (ex : Extractor) (s : Str) : Str :=
  ex.foldl (stageRef lib) s

/-- Splitting at every occurrence of the rune `d`, keeping empty pieces. -/
def splitChar (d : Char) : Str → List Str
  | [] => [[]]
  | c :: cs =>
    if c = d then [] :: splitChar d cs
    else match splitChar d cs with
      | [] => [[c]]
      | t :: ts => (c :: t) :: ts

/-- The line with a trailing newline, and then a trailing carriage return, removed. -/
def trimLine (line : Str) : Str :=
  TrimSuffix (TrimSuffix line ['\n']) ['\r']

/-- The results of the extractors on a line, joined by single spaces. -/
def lineText (lib : GoLib) (line : Str) (ops : List Extractor) : Str :=
  Join (ops.map (fun op => extractRef lib op (trimLine line))) [' ']

/-- The selector an unterminated regexp compiles to: the lone slash is its
delimiter and its pattern is empty. -/
def slashSelector : Selector :=
  { delim := ['/'], tokenize := .greedy, filter := .regexp { expr := [] } }

/-- The string without its last rune, when that rune is `c`. -/
def stripTrailing (c : Char) (s : Str) : Str :=
  if s.getLast? = some c then s.dropLast else s

/-- The line that is extracted from: a trailing newline is dropped, and then a
trailing carriage return. -/
def strippedLine (line : Str) : Str :=
  stripTrailing '\r' (stripTrailing '\n' line)

/-- A standard library instance like `demoLib`, except that `regexp.Compile`
rejects the pattern made of an opening parenthesis and a newline, with the
message of Go's `regexp/syntax`, which quotes the pattern as it is. -/
def parenLib : GoLib where
  digitTable := fun _ => false
  printTable := fun _ => false
  regexpCompile := fun p =>
    if p = ['(', '\n'] then some "error parsing regexp: missing closing ): `(\n`".toList
    else none
  regexpMatch := fun p s => (Index s p).isSome

/-! ## Theorems -/

/-! ### Field selection -/

theorem copy_replicate (k : Nat) (src : List Str) (h : k ≤ src.length) :
    copy (List.replicate k []) src = src.take k := by
  simp [copy, Nat.min_eq_left h]

theorem map_some_take_drop (fields : List Str) (s : Int) (c : Nat) (hs : 1 ≤ s)
    (hc : (s - 1).toNat + c ≤ fields.length) :
    ((fields.drop (s - 1).toNat).take c).map some
      = (List.range c).map (fun (k : Nat) => tokenAt fields (s + (k : Int))) := by
  apply List.ext_getElem?
  intro k
  rw [List.getElem?_map, List.getElem?_map]
  by_cases hk : k < c
  · have h1 : (s - 1).toNat + k < fields.length := by omega
    have h2 : (s + (k : Int) - 1).toNat = (s - 1).toNat + k := by omega
    have h3 : 1 ≤ s + (k : Int) := by omega
    rw [List.getElem?_take_of_lt hk, List.getElem?_drop, List.getElem?_range hk,
      List.getElem?_eq_getElem h1]
    simp only [Option.map_some', tokenAt, h3, if_true, h2, List.getElem?_eq_getElem h1]
  · have hk2 : c ≤ k := by omega
    rw [List.getElem?_take_eq_none hk2, List.getElem?_eq_none (l := List.range c) (by simpa using hk2)]
    rfl

theorem select_core (fields : List Str) (a e : Int) (ha : a > 0) (he : a ≤ e) :
    (match makeStrings ((if e > (fields.length : Int) then (fields.length : Int) else e) - (a - 1)),
          sliceFrom fields (a - 1) with
        | Except.ok fs, Except.ok src => Except.ok (copy fs src)
        | Except.error e, _ => Except.error e
        | _, Except.error e => Except.error e)
      = if a - 1 > (fields.length : Int) then (.error .outOfRange : Except Failure (List Str))
        else .ok ((fields.drop (a - 1).toNat).take (min e fields.length + 1 - a).toNat) := by
  have hmin : min e (fields.length : Int) = if e > (fields.length : Int) then (fields.length : Int) else e := by
    split_ifs <;> omega
  rw [hmin]
  by_cases h1 : a - 1 > (fields.length : Int)
  · have h2 : (if e > (fields.length : Int) then (fields.length : Int) else e) - (a - 1) < 0 := by
      split_ifs <;> omega
    simp [makeStrings, h2, h1]
  · have h2 : ¬ ((if e > (fields.length : Int) then (fields.length : Int) else e) - (a - 1) < 0) := by
      split_ifs <;> omega
    have h3 : ¬ (a - 1 < 0) := by omega
    simp only [makeStrings, h2, sliceFrom, h3, if_false, h1, or_self]
    rw [copy_replicate]
    · congr 2
      split_ifs <;> omega
    · rw [List.length_drop]
      split_ifs <;> omega

theorem select_nonzero (r : FieldRange) (fields : List Str) (zero : Str)
    (hz : ¬ (r.Start = 0 ∧ r.End = 0)) :
    r.Select fields zero = .ok
      (if Fex.abs r.Start fields.length ≤ 0 ∨ Fex.abs r.Start fields.length > fields.length then []
       else (fields.drop (Fex.abs r.Start fields.length - 1).toNat).take
          (min (max (Fex.abs r.End fields.length) (Fex.abs r.Start fields.length)) fields.length
            + 1 - Fex.abs r.Start fields.length).toNat) := by
  unfold FieldRange.Select
  rw [if_neg hz]
  simp only [FieldRange.abs, FieldRange.isValid]
  generalize Fex.abs r.Start fields.length = a
  generalize Fex.abs r.End fields.length = b
  have hmax : max b a = if b < a then a else b := by
    split_ifs <;> omega
  rw [hmax]
  by_cases ha : a ≤ 0
  · have : ¬ (a > 0) := by omega
    split_ifs <;> simp_all
  · have ha2 : a > 0 := by omega
    by_cases hba : b < a
    · simp only [hba, if_true, ha2, decide_True, Bool.and_self, Bool.not_true, le_refl]
      rw [select_core fields a a ha2 (le_refl a)]
      by_cases h1 : a - 1 > (fields.length : Int)
      · have : a > (fields.length : Int) := by omega
        simp [h1, this]
      · by_cases h2 : a > (fields.length : Int)
        · have h3 : (min a (fields.length : Int) + 1 - a).toNat = 0 := by omega
          simp [h1, h2, h3]
        · simp [h1, h2, ha]
    · have hb : b > 0 := by omega
      have hab : a ≤ b := by omega
      simp only [hba, if_false, ha2, hb, hab, decide_True, Bool.and_self, Bool.not_true]
      rw [select_core fields a b ha2 hab]
      by_cases h1 : a - 1 > (fields.length : Int)
      · have : a > (fields.length : Int) := by omega
        simp [h1, this]
      · by_cases h2 : a > (fields.length : Int)
        · have h3 : (min b (fields.length : Int) + 1 - a).toNat = 0 := by omega
          simp [h1, h2, h3]
        · simp [h1, h2, ha]

theorem abs_eq (x n : Int) : Fex.abs x n = if x ≥ 0 then x else n + 1 + x := by
  unfold Fex.abs
  split_ifs <;> omega

/-- C1: for every range other than the zero range, `FieldRange.Select` returns
no error and selects exactly the tokens at the 1-based positions `s` through
`min(e, n)`, in order, where `s` and `e0` are `Start` and `End` made absolute
and `e = max(e0, s)`; nothing when `s ≤ 0` or `s > n`.  The zero range selects
the one-element list `[zero]`. -/
theorem FieldRange.Select_eq_selectRef (r : FieldRange) (fields : List Str) (zero : Str) :
    ∃ out, r.Select fields zero = .ok out ∧ out.map some = selectRef r fields zero := by
  by_cases hz : r.Start = 0 ∧ r.End = 0
  · exact ⟨[zero], by simp [FieldRange.Select, hz], by simp [selectRef, hz]⟩
  · refine ⟨_, select_nonzero r fields zero hz, ?_⟩
    simp only [selectRef, if_neg hz, ← abs_eq]
    generalize Fex.abs r.Start fields.length = a
    generalize Fex.abs r.End fields.length = b
    by_cases h : a ≤ 0 ∨ a > (fields.length : Int)
    · simp [h]
    · rw [if_neg h, if_neg h, positions, List.map_map]
      have hc : (a - 1).toNat + (min (max b a) (fields.length : Int) + 1 - a).toNat
          ≤ fields.length := by omega
      exact map_some_take_drop fields a _ (by omega) hc

/-- C2: for every token list of length `n` and every `i ≠ 0`, the range
`{i, i}` selects exactly the token at position `i` when `1 ≤ i ≤ n`, exactly
the token at position `n + 1 + i` when `-n ≤ i ≤ -1`, and nothing, without
error, for every other `i`. -/
theorem FieldRange.Select_single (fields : List Str) (zero : Str) (i : Int) (hi : i ≠ 0) :
    (1 ≤ i ∧ i ≤ fields.length →
      ∃ t, tokenAt fields i = some t ∧
        FieldRange.Select { Start := i, End := i } fields zero = .ok [t]) ∧
    (-(fields.length : Int) ≤ i ∧ i ≤ -1 →
      ∃ t, tokenAt fields (fields.length + 1 + i) = some t ∧
        FieldRange.Select { Start := i, End := i } fields zero = .ok [t]) ∧
    (¬ (1 ≤ i ∧ i ≤ fields.length) → ¬ (-(fields.length : Int) ≤ i ∧ i ≤ -1) →
      FieldRange.Select { Start := i, End := i } fields zero = .ok []) := by
  have hz : ¬ ((FieldRange.mk i i).Start = 0 ∧ (FieldRange.mk i i).End = 0) := by
    simp [hi]
  have key : ∀ p : Int, 1 ≤ p → p ≤ fields.length →
      ∃ t, tokenAt fields p = some t ∧
        (fields.drop (p - 1).toNat).take 1 = [t] := by
    intro p h1 h2
    have hlt : (p - 1).toNat < fields.length := by omega
    refine ⟨fields[(p - 1).toNat], by simp [tokenAt, h1, List.getElem?_eq_getElem hlt], ?_⟩
    rw [List.drop_eq_getElem_cons hlt]
    rfl
  rw [select_nonzero _ fields zero hz]
  simp only [abs_eq]
  refine ⟨?_, ?_, ?_⟩
  · rintro ⟨h1, h2⟩
    obtain ⟨t, ht, hd⟩ := key i h1 h2
    refine ⟨t, ht, ?_⟩
    have h3 : i ≥ 0 := by omega
    have h4 : ¬ (i ≤ 0 ∨ i > (fields.length : Int)) := by omega
    have h5 : (min (max i i) (fields.length : Int) + 1 - i).toNat = 1 := by omega
    simp only [h3, if_true, h4, if_false, h5, hd]
  · rintro ⟨h1, h2⟩
    obtain ⟨t, ht, hd⟩ := key ((fields.length : Int) + 1 + i) (by omega) (by omega)
    refine ⟨t, ht, ?_⟩
    have h3 : ¬ (i ≥ 0) := by omega
    have h4 : ¬ ((fields.length : Int) + 1 + i ≤ 0 ∨
        (fields.length : Int) + 1 + i > (fields.length : Int)) := by omega
    have h5 : (min (max ((fields.length : Int) + 1 + i) ((fields.length : Int) + 1 + i))
        (fields.length : Int) + 1 - ((fields.length : Int) + 1 + i)).toNat = 1 := by omega
    simp only [h3, if_false, h4, h5, hd]
  · intro h1 h2
    by_cases h3 : i ≥ 0
    · have h4 : i ≤ 0 ∨ i > (fields.length : Int) := by omega
      simp only [h3, if_true, h4]
    · have h4 : (fields.length : Int) + 1 + i ≤ 0 ∨
          (fields.length : Int) + 1 + i > (fields.length : Int) := by omega
      simp only [h3, if_false, h4, if_true]

/-- Witness for C2: the last of three tokens, selected by the index `-1`. -/
theorem FieldRange.Select_single_witness :
    ((-1 : Int) ≠ 0) ∧
    ((-(([['a'], ['b'], ['c']] : List Str).length : Int) ≤ -1 ∧ (-1 : Int) ≤ -1) ∧
      ∃ t, tokenAt [['a'], ['b'], ['c']] (([['a'], ['b'], ['c']] : List Str).length + 1 + -1)
          = some t ∧
        FieldRange.Select { Start := -1, End := -1 } [['a'], ['b'], ['c']] ['z'] = .ok [t]) :=
  ⟨by decide, by decide,
    (FieldRange.Select_single [['a'], ['b'], ['c']] ['z'] (-1) (by decide)).2.1 (by decide)⟩

/-! ### In-place reversal -/

theorem length_swapAt {α : Type} (xs : List α) (j opp : Nat) :
    (swapAt xs j opp).length = xs.length := by
  unfold swapAt
  split <;> simp

theorem getElem?_swapAt {α : Type} (xs : List α) (j opp m : Nat) (hj : j < xs.length)
    (ho : opp < xs.length) :
    (swapAt xs j opp)[m]? =
      if m = opp then xs[j]? else if m = j then xs[opp]? else xs[m]? := by
  unfold swapAt
  rw [List.getElem?_eq_getElem hj, List.getElem?_eq_getElem ho]
  simp only [List.getElem?_set, List.length_set]
  by_cases h1 : m = opp
  · subst h1
    simp [ho]
  · by_cases h2 : m = j
    · subst h2
      simp [h1, hj, Ne.symm h1]
    · simp [h1, h2, Ne.symm h1, Ne.symm h2]

theorem getElem?_reverseLoop {α : Type} (k : Nat) :
    ∀ (xs : List α), 2 * k ≤ xs.length → ∀ idx : Nat,
      (reverseLoop k xs)[idx]? =
        if idx < k ∨ (xs.length - k ≤ idx ∧ idx < xs.length) then xs[xs.length - 1 - idx]?
        else xs[idx]? := by
  induction k with
  | zero =>
    intro xs _ idx
    have : ¬ (idx < 0 ∨ (xs.length - 0 ≤ idx ∧ idx < xs.length)) := by omega
    simp only [reverseLoop, this, if_false]
  | succ k ih =>
    intro xs hk idx
    have hj : k < xs.length := by omega
    have ho : xs.length - 1 - k < xs.length := by omega
    rw [reverseLoop, ih _ (by rw [length_swapAt]; omega), length_swapAt,
      getElem?_swapAt xs _ _ _ hj ho, getElem?_swapAt xs _ _ _ hj ho]
    by_cases h1 : idx < k ∨ (xs.length - k ≤ idx ∧ idx < xs.length)
    · have h2 : idx < k + 1 ∨ (xs.length - (k + 1) ≤ idx ∧ idx < xs.length) := by omega
      have h3 : ¬ (xs.length - 1 - idx = xs.length - 1 - k) := by omega
      have h4 : ¬ (xs.length - 1 - idx = k) := by omega
      simp only [h1, h2, h3, h4, if_true, if_false]
    · rw [if_neg h1]
      by_cases h5 : idx = xs.length - 1 - k
      · have h2 : idx < k + 1 ∨ (xs.length - (k + 1) ≤ idx ∧ idx < xs.length) := by omega
        have h6 : xs.length - 1 - idx = k := by omega
        rw [if_pos h2, if_pos h5, h6]
      · by_cases h7 : idx = k
        · have h2 : idx < k + 1 ∨ (xs.length - (k + 1) ≤ idx ∧ idx < xs.length) := by omega
          rw [if_pos h2, if_neg h5, if_pos h7, h7]
        · have h2 : ¬ (idx < k + 1 ∨ (xs.length - (k + 1) ≤ idx ∧ idx < xs.length)) := by omega
          rw [if_neg h2, if_neg h5, if_neg h7]

/-- The exchange loop reverses the list. -/
theorem reverseInPlace_eq_reverse {α : Type} (xs : List α) : reverseInPlace xs = xs.reverse := by
  apply List.ext_getElem?
  intro idx
  rw [reverseInPlace, getElem?_reverseLoop _ _ (by omega)]
  by_cases h : idx < xs.length
  · rw [List.getElem?_reverse h]
    by_cases h1 : idx < xs.length / 2 ∨ (xs.length - xs.length / 2 ≤ idx ∧ idx < xs.length)
    · simp only [h1, if_true]
    · have : xs.length - 1 - idx = idx := by omega
      simp only [h1, if_false, this]
  · have h1 : ¬ (idx < xs.length / 2 ∨ (xs.length - xs.length / 2 ≤ idx ∧ idx < xs.length)) := by
      omega
    simp only [h1, if_false]
    rw [List.getElem?_eq_none (by omega), List.getElem?_eq_none (by simp; omega)]

/-! ### Reading the rune array -/

theorem runeAt_append (a : List Char) (c : Char) (b : List Char) :
    runeAt (a ++ c :: b) (a.length : Int) = .ok c := by
  have h : ¬ ((a.length : Int) < 0) := by omega
  have h2 : (a ++ c :: b)[(a.length : Int).toNat]? = some c := by
    rw [Int.toNat_ofNat, List.getElem?_append_right (le_refl _)]
    simp
  rw [runeAt, if_neg h, h2]

theorem slice_append (a m b : List Char) :
    slice (a ++ m ++ b) (a.length : Int) ((a.length : Int) + m.length) = .ok m := by
  have h : ¬ ((a.length : Int) < 0 ∨ (a.length : Int) + m.length < 0 ∨
      (a.length : Int) > ((a ++ m ++ b).length : Int) ∨
      (a.length : Int) + m.length > ((a ++ m ++ b).length : Int) ∨
      (a.length : Int) > (a.length : Int) + m.length) := by
    simp only [List.length_append, Nat.cast_add]
    omega
  have h2 : ((a.length : Int) + m.length).toNat - (a.length : Int).toNat = m.length := by omega
  rw [slice, if_neg h, h2]
  simp

theorem findfLoop_hit (f : Char → Bool) (a : List Char) (c : Char) (b : List Char)
    (hc : f c = true) : findfLoop (a ++ c :: b) f (a.length + 1) = .ok (a.length : Int) := by
  rw [findfLoop, runeAt_append]
  simp [hc]

theorem findfLoop_skip (f : Char → Bool) (a m b : List Char) (hm : ∀ c ∈ m, f c = false) :
    findfLoop (a ++ m ++ b) f (a.length + m.length) = findfLoop (a ++ m ++ b) f a.length := by
  induction m using List.reverseRecOn generalizing b with
  | nil => simp
  | append_singleton m c ih =>
    have h1 : a ++ (m ++ [c]) ++ b = (a ++ m) ++ c :: b := by simp
    have h2 : a.length + (m ++ [c]).length = (a ++ m).length + 1 := by simp; omega
    rw [h2, h1, findfLoop, runeAt_append]
    have hfc : f c = false := hm c (by simp)
    simp only [hfc]
    have h3 : (a ++ m) ++ c :: b = a ++ m ++ (c :: b) := by simp
    rw [h3, List.length_append]
    simpa using ih (c :: b) (fun x hx => hm x (by simp [hx]))

/-! ### Decimal literals: `strconv.Atoi` and `%d` -/

theorem le_foldl_decimal (k : Str) (n : Nat) :
    n ≤ k.foldl (fun n c => n * 10 + (c.toNat - 0x30)) n := by
  induction k generalizing n with
  | nil => simp
  | cons c cs ih =>
    simp only [List.foldl_cons]
    exact le_trans (by omega) (ih _)

theorem parseUintLoop_digits (k : Str) (n : Nat) (hk : ∀ c ∈ k, isAsciiDigit c = true)
    (hv : k.foldl (fun n c => n * 10 + (c.toNat - 0x30)) n < 2 ^ 64) :
    parseUintLoop k n = .ok (k.foldl (fun n c => n * 10 + (c.toNat - 0x30)) n) := by
  induction k generalizing n with
  | nil => simp [parseUintLoop]
  | cons c cs ih =>
    have hc : 0x30 ≤ c.toNat ∧ c.toNat ≤ 0x39 := by
      simpa [isAsciiDigit] using hk c (by simp)
    simp only [List.foldl_cons] at hv ⊢
    have hle := le_foldl_decimal cs (n * 10 + (c.toNat - 0x30))
    have h1 : ¬ (n ≥ (2 ^ 64 - 1) / 10 + 1) := by omega
    have h2 : (n * 10) % 2 ^ 64 = n * 10 := Nat.mod_eq_of_lt (by omega)
    have h3 : (n * 10 + (c.toNat - 0x30)) % 2 ^ 64 = n * 10 + (c.toNat - 0x30) :=
      Nat.mod_eq_of_lt (by omega)
    have h4 : ¬ (n * 10 + (c.toNat - 0x30) < n * 10 ∨ n * 10 + (c.toNat - 0x30) > 2 ^ 64 - 1) := by
      omega
    rw [parseUintLoop]
    simp only [hc, and_self, if_true, h1, if_false, h2, h3, h4]
    exact ih _ (fun x hx => hk x (by simp [hx])) hv

theorem ParseInt_digits (k : Str) (hne : k ≠ []) (hk : ∀ c ∈ k, isAsciiDigit c = true)
    (hv : decimalValue k < 2 ^ 63) : ParseInt k = .ok (decimalValue k : Int) := by
  cases k with
  | nil => exact absurd rfl hne
  | cons c cs =>
    have hc : 0x30 ≤ c.toNat ∧ c.toNat ≤ 0x39 := by
      simpa [isAsciiDigit] using hk c (by simp)
    have hp : c ≠ '+' := by rintro rfl; revert hc; decide
    have hm : c ≠ '-' := by rintro rfl; revert hc; decide
    have hu : ParseUint (c :: cs) = .ok (decimalValue (c :: cs)) := by
      rw [ParseUint, if_neg (by simp)]
      exact parseUintLoop_digits _ 0 hk (by unfold decimalValue at hv; omega)
    have h1 : ¬ (decimalValue (c :: cs) ≥ 2 ^ 63) := by omega
    simp only [ParseInt, hp, hm, or_self, if_false, hu, decide_False, h1, and_false,
      false_and, Bool.false_eq_true]

theorem ParseInt_neg_digits (k : Str) (hne : k ≠ []) (hk : ∀ c ∈ k, isAsciiDigit c = true)
    (hv : decimalValue k ≤ 2 ^ 63) : ParseInt ('-' :: k) = .ok (-(decimalValue k : Int)) := by
  have hu : ParseUint k = .ok (decimalValue k) := by
    rw [ParseUint, if_neg hne]
    exact parseUintLoop_digits _ 0 hk (by unfold decimalValue at hv; omega)
  have h1 : ¬ (decimalValue k > 2 ^ 63) := by omega
  simpa [ParseInt, hu, h1] using hv

theorem toNat_digitChar (d : Nat) (hd : d < 10) : (Char.ofNat (0x30 + d)).toNat = 0x30 + d := by
  interval_cases d <;> rfl

theorem fmtUintAux_digits (fuel : Nat) :
    ∀ (n : Nat) (acc : Str), (∀ c ∈ acc, isAsciiDigit c = true) →
      ∀ c ∈ fmtUintAux fuel n acc, isAsciiDigit c = true := by
  induction fuel with
  | zero => intro n acc h; simpa [fmtUintAux] using h
  | succ fuel ih =>
    intro n acc h
    have hd : ∀ d, d < 10 → isAsciiDigit (Char.ofNat (0x30 + d)) = true := by
      intro d hd
      simp only [isAsciiDigit, toNat_digitChar d hd, decide_eq_true_eq]
      omega
    rw [fmtUintAux]
    split_ifs with h10
    · intro c hc
      rcases List.mem_cons.mp hc with rfl | hc
      · exact hd n h10
      · exact h c hc
    · apply ih
      intro c hc
      rcases List.mem_cons.mp hc with rfl | hc
      · exact hd _ (Nat.mod_lt _ (by omega))
      · exact h c hc

theorem fmtUintAux_ne_nil (fuel n : Nat) (acc : Str) (h : acc ≠ [] ∨ 0 < fuel) :
    fmtUintAux fuel n acc ≠ [] := by
  induction fuel generalizing n acc with
  | zero => rcases h with h | h; exacts [by simpa [fmtUintAux] using h, absurd h (by omega)]
  | succ fuel ih =>
    rw [fmtUintAux]
    split_ifs
    · simp
    · exact ih _ _ (Or.inl (by simp))

theorem fmtUintAux_value (fuel : Nat) :
    ∀ (n : Nat) (acc : Str), n < fuel →
      (fmtUintAux fuel n acc).foldl (fun n c => n * 10 + (c.toNat - 0x30)) 0
        = acc.foldl (fun n c => n * 10 + (c.toNat - 0x30)) n := by
  induction fuel with
  | zero => intro n acc h; omega
  | succ fuel ih =>
    intro n acc h
    rw [fmtUintAux]
    split_ifs with h10
    · simp only [List.foldl_cons, toNat_digitChar n h10]
      congr 1
      omega
    · rw [ih (n / 10) _ (by omega)]
      simp only [List.foldl_cons, toNat_digitChar (n % 10) (Nat.mod_lt _ (by omega))]
      congr 1
      omega

theorem fmtUint_digits (n : Nat) : ∀ c ∈ fmtUint n, isAsciiDigit c = true :=
  fmtUintAux_digits _ n [] (by simp)

theorem fmtUint_ne_nil (n : Nat) : fmtUint n ≠ [] :=
  fmtUintAux_ne_nil _ n [] (Or.inr (by omega))

theorem decimalValue_fmtUint (n : Nat) : decimalValue (fmtUint n) = n := by
  unfold decimalValue fmtUint
  rw [fmtUintAux_value _ n [] (by omega)]
  rfl

/-- The function `Atoi` reads back what `%d` prints, for every value of a 64-bit `int`. -/
theorem Atoi_fmtInt (lib : GoLib) (v : Int) (hlo : -(2 ^ 63) ≤ v) (hhi : v < 2 ^ 63) :
    Atoi lib (fmtInt v) = .ok v := by
  unfold Atoi fmtInt
  by_cases hv : v < 0
  · rw [if_pos hv, ParseInt_neg_digits _ (fmtUint_ne_nil _) (fmtUint_digits _)
      (by rw [decimalValue_fmtUint]; omega), decimalValue_fmtUint]
    simp only
    congr 1
    omega
  · rw [if_neg hv, ParseInt_digits _ (fmtUint_ne_nil _) (fmtUint_digits _)
      (by rw [decimalValue_fmtUint]; omega), decimalValue_fmtUint]
    simp only
    congr 1
    omega

theorem Atoi_digits (lib : GoLib) (k : Str) (hne : k ≠ []) (hk : ∀ c ∈ k, isAsciiDigit c = true)
    (hv : decimalValue k < 2 ^ 63) : Atoi lib k = .ok (decimalValue k : Int) := by
  rw [Atoi, ParseInt_digits k hne hk hv]

/-! ### Parsing field ranges -/

theorem IndexByte_not_mem (s : Str) (c : Char) (h : c ∉ s) : IndexByte s c = -1 := by
  induction s with
  | nil => rfl
  | cons x xs ih =>
    have hx : x ≠ c := fun e => h (by simp [e])
    have := ih (fun hm => h (by simp [hm]))
    simp [IndexByte, hx, this]

theorem IndexByte_append (a b : Str) (c : Char) (h : c ∉ a) :
    IndexByte (a ++ c :: b) c = a.length := by
  induction a with
  | nil => simp [IndexByte]
  | cons x xs ih =>
    have hx : x ≠ c := fun e => h (by simp [e])
    have := ih (fun hm => h (by simp [hm]))
    have h2 : ¬ ((xs.length : Int) = -1) := by omega
    simp [IndexByte, hx, this, h2]

theorem ParseFieldRange_wellFormed (lib : GoLib) (s : Str) (fr : FieldRange)
    (h : ParseFieldRange lib s = .ok fr) : fr.wellFormed := by
  unfold ParseFieldRange at h
  simp only at h
  split at h
  · split at h
    · cases h
    · cases h
      simp only [FieldRange.wellFormed]
      omega
  · split at h
    · cases h
      simp [FieldRange.wellFormed]
    · split at h
      · cases h
      · split at h
        · cases h
        · split at h
          · cases h
          · split at h
            · cases h
            · cases h
              simp only [FieldRange.wellFormed]
              omega

theorem not_mem_of_digits (k : Str) (c : Char) (hk : ∀ x ∈ k, isAsciiDigit x = true)
    (hc : isAsciiDigit c = false) : c ∉ k := by
  intro hm
  rw [hk c hm] at hc
  cases hc

theorem not_mem_fmtInt (v : Int) (c : Char) (hc : isAsciiDigit c = false) (hm : c ≠ '-') :
    c ∉ fmtInt v := by
  unfold fmtInt
  split_ifs
  · intro h
    rcases List.mem_cons.mp h with h | h
    · exact hm h
    · exact not_mem_of_digits _ c (fmtUint_digits _) hc h
  · exact not_mem_of_digits _ c (fmtUint_digits _) hc

theorem fmtInt_ne_nil (v : Int) : fmtInt v ≠ [] := by
  unfold fmtInt
  split_ifs
  · simp
  · exact fmtUint_ne_nil _

/-- The function `ParseFieldRange` on the text `a:b`, up to the validity checks. -/
theorem ParseFieldRange_colon (lib : GoLib) (a b : Int)
    (ha : -(2 ^ 63) ≤ a ∧ a < 2 ^ 63) (hb : -(2 ^ 63) ≤ b ∧ b < 2 ^ 63) :
    ParseFieldRange lib (fmtInt a ++ ':' :: fmtInt b) =
      if a > b ∧ ((a < 0 ∧ b < 0) ∨ (a > 0 ∧ b > 0)) then
        .error (.error ("start > end is invalid: ".toList ++ fmtInt a ++ " > ".toList ++ fmtInt b))
      else if (a = 0 ∨ b = 0) ∧ a ≠ b then
        .error (.error ("start or end cannot be 0 when the other is not 0: ".toList ++
          fmtInt a ++ " and ".toList ++ fmtInt b))
      else .ok { Start := a, End := b } := by
  have hidx : IndexByte (fmtInt a ++ ':' :: fmtInt b) ':' = (fmtInt a).length :=
    IndexByte_append _ _ _ (not_mem_fmtInt a ':' (by decide) (by decide))
  have h1 : ¬ (((fmtInt a).length : Int) = -1) := by omega
  have hs : (fmtInt a ++ ':' :: fmtInt b).take (fmtInt a).length = fmtInt a := by simp
  have he : (fmtInt a ++ ':' :: fmtInt b).drop ((fmtInt a).length + 1) = fmtInt b := by
    rw [← List.drop_drop]
    simp
  unfold ParseFieldRange
  simp only [hidx, h1, if_false, Int.toNat_ofNat, hs, he, fmtInt_ne_nil, false_and,
    Atoi_fmtInt lib a ha.1 ha.2, Atoi_fmtInt lib b hb.1 hb.2]

/-! ### Quoting, splitting and joining -/

theorem Quote_plain (lib : GoLib) (s : Str)
    (h : ∀ c ∈ s, (0x20 ≤ c.toNat ∧ c.toNat ≤ 0x7E) ∧ c ≠ '"' ∧ c ≠ '\\') :
    Quote lib s = '"' :: s ++ ['"'] := by
  have hmap : (s.map (fun r => appendEscapedRune lib r '"')).flatten = s := by
    induction s with
    | nil => rfl
    | cons c cs ih =>
      obtain ⟨hr, hq, hb⟩ := h c (by simp)
      have hp : IsPrint lib c = true := by
        have : c.toNat ≤ 0xFF := by omega
        simp [IsPrint, this, hr]
      have hc : appendEscapedRune lib c '"' = [c] := by
        simp [appendEscapedRune, hq, hb, hp]
      rw [List.map_cons, List.flatten_cons, hc, ih (fun x hx => h x (by simp [hx]))]
      rfl
  rw [Quote, hmap]
  rfl

theorem plain_of_digit (c : Char) (h : isAsciiDigit c = true) :
    (0x20 ≤ c.toNat ∧ c.toNat ≤ 0x7E) ∧ c ≠ '"' ∧ c ≠ '\\' := by
  have hc : 0x30 ≤ c.toNat ∧ c.toNat ≤ 0x39 := by simpa [isAsciiDigit] using h
  refine ⟨by omega, ?_, ?_⟩
  · rintro rfl; revert hc; decide
  · rintro rfl; revert hc; decide

theorem plain_fmtInt (v : Int) :
    ∀ c ∈ fmtInt v, (0x20 ≤ c.toNat ∧ c.toNat ≤ 0x7E) ∧ c ≠ '"' ∧ c ≠ '\\' := by
  intro c hc
  unfold fmtInt at hc
  split_ifs at hc
  · rcases List.mem_cons.mp hc with rfl | hc
    · decide
    · exact plain_of_digit c (fmtUint_digits _ c hc)
  · exact plain_of_digit c (fmtUint_digits _ c hc)

theorem Quote_range_text (lib : GoLib) (a b : Int) :
    Quote lib (fmtInt a ++ ':' :: fmtInt b) = '"' :: (fmtInt a ++ ':' :: fmtInt b) ++ ['"'] := by
  apply Quote_plain
  intro c hc
  rcases List.mem_append.mp hc with hc | hc
  · exact plain_fmtInt a c hc
  · rcases List.mem_cons.mp hc with rfl | hc
    · decide
    · exact plain_fmtInt b c hc

theorem Join_cons_cons (a b : Str) (rest : List Str) (sep : Str) :
    Join (a :: b :: rest) sep = a ++ sep ++ Join (b :: rest) sep := by
  rw [Join]
  simp

theorem Index_single_not_mem (s : Str) (c : Char) (h : c ∉ s) : Index s [c] = none := by
  induction s with
  | nil => simp [Index, List.isPrefixOf]
  | cons x xs ih =>
    have hx : c ≠ x := fun e => h (by simp [e])
    unfold Index
    simp [List.isPrefixOf, hx, ih (fun hm => h (by simp [hm]))]

theorem Index_single_append (a b : Str) (c : Char) (h : c ∉ a) :
    Index (a ++ c :: b) [c] = some a.length := by
  induction a with
  | nil => unfold Index; simp [List.isPrefixOf]
  | cons x xs ih =>
    have hx : c ≠ x := fun e => h (by simp [e])
    rw [List.cons_append]
    unfold Index
    simp [List.isPrefixOf, hx, ih (fun hm => h (by simp [hm]))]

theorem genSplitLoop_Join (c : Char) (ps : List Str) :
    ∀ (p : Str) (fuel : Nat), (∀ q ∈ p :: ps, c ∉ q) → ps.length < fuel →
      genSplitLoop fuel (Join (p :: ps) [c]) [c] = p :: ps := by
  induction ps with
  | nil =>
    intro p fuel h hf
    obtain ⟨fuel, rfl⟩ : ∃ k, fuel = k + 1 := ⟨fuel - 1, by simp at hf; omega⟩
    simp [genSplitLoop, Join, Index_single_not_mem p c (h p (by simp))]
  | cons q qs ih =>
    intro p fuel h hf
    obtain ⟨fuel, rfl⟩ : ∃ k, fuel = k + 1 := ⟨fuel - 1, by simp at hf; omega⟩
    have hp : c ∉ p := h p (by simp)
    rw [Join_cons_cons, genSplitLoop, List.append_assoc, List.singleton_append,
      Index_single_append p _ c hp]
    simp only [List.length_singleton]
    rw [List.take_left, ← List.drop_drop, List.drop_left]
    simp only [List.drop_one, List.tail_cons]
    rw [ih q fuel (fun x hx => h x (by simp [List.mem_cons.mp hx])) (by simp at hf; omega)]

theorem length_Join_ge (c : Char) (ps : List Str) (p : Str) :
    ps.length ≤ (Join (p :: ps) [c]).length := by
  induction ps generalizing p with
  | nil => simp
  | cons q qs ih =>
    rw [Join_cons_cons]
    have := ih q
    simp only [List.length_append, List.length_cons, List.length_nil]
    omega

/-- Splitting at a rune undoes joining with it, for pieces that do not contain it. -/
theorem Split_Join (c : Char) (p : Str) (ps : List Str) (h : ∀ q ∈ p :: ps, c ∉ q) :
    Split (Join (p :: ps) [c]) [c] = p :: ps := by
  rw [Split, if_neg (by simp)]
  exact genSplitLoop_Join c ps p _ h (by have := length_Join_ge c ps p; omega)

theorem parseGroupLoop_first_error (lib : GoLib) (pre post : List Str) (x msg : Str)
    (hpre : ∀ p ∈ pre, ∃ fr, ParseFieldRange lib p = .ok fr)
    (hx : ParseFieldRange lib x = .error (.error msg)) :
    parseGroupLoop lib (pre ++ x :: post) =
      .error (.error ("cannot parse ".toList ++ Quote lib x ++ ": ".toList ++ msg)) := by
  induction pre with
  | nil => simp [parseGroupLoop, hx]
  | cons p ps ih =>
    obtain ⟨fr, hfr⟩ := hpre p (by simp)
    rw [List.cons_append, parseGroupLoop, hfr]
    simp only
    rw [ih (fun q hq => hpre q (by simp [hq]))]

/-- C4, as stated for all integers, fails: `9223372036854775808` and `1` are
both positive and the first is the greater, but on the text
`9223372036854775808:1` the function `ParseFieldRange` returns the range error
of `strconv.Atoi`, not the error `start > end is invalid`. -/
theorem ParseFieldRange_start_gt_end_counterexample :
    fmtInt 9223372036854775808 ++ ':' :: fmtInt 1 = "9223372036854775808:1".toList ∧
    ((0 : Int) < 9223372036854775808 ∧ (0 : Int) < 1 ∧ (9223372036854775808 : Int) > 1) ∧
    ParseFieldRange demoLib "9223372036854775808:1".toList =
      .error (.error
        "strconv.Atoi: parsing \"9223372036854775808\": value out of range".toList) ∧
    ParseFieldRange demoLib (fmtInt 9223372036854775808 ++ ':' :: fmtInt 1) ≠
      .error (.error ("start > end is invalid: ".toList ++ fmtInt 9223372036854775808 ++
        " > ".toList ++ fmtInt 1)) := by
  refine ⟨by decide, by decide, rfl, ?_⟩
  intro h
  have e : ParseFieldRange demoLib (fmtInt 9223372036854775808 ++ ':' :: fmtInt 1) =
      .error (.error
        "strconv.Atoi: parsing \"9223372036854775808\": value out of range".toList) := rfl
  rw [e] at h
  have h2 := Failure.error.inj (Except.error.inj h)
  revert h2
  decide

/-- C4, amended: for all `a > b` in the range of a 64-bit `int` that are both
positive or both negative, `ParseFieldRange` on the text `a:b` returns the
error `start > end is invalid: a > b`, and `ParseGroup` on a comma-separated
body whose first unparsable member is `a:b` returns
`cannot parse "a:b": start > end is invalid: a > b`. -/
theorem ParseFieldRange_start_gt_end (lib : GoLib) (a b : Int)
    (ha : -(2 ^ 63) ≤ a ∧ a < 2 ^ 63) (hb : -(2 ^ 63) ≤ b ∧ b < 2 ^ 63)
    (hsign : (0 < a ∧ 0 < b) ∨ (a < 0 ∧ b < 0)) (hgt : a > b) :
    ParseFieldRange lib (fmtInt a ++ ':' :: fmtInt b) =
        .error (.error ("start > end is invalid: ".toList ++ fmtInt a ++ " > ".toList ++
          fmtInt b)) ∧
    ∀ pre post : List Str,
      (∀ p ∈ pre, ',' ∉ p ∧ ∃ fr, ParseFieldRange lib p = .ok fr) →
      (∀ p ∈ post, ',' ∉ p) →
      ParseGroup lib (Join (pre ++ (fmtInt a ++ ':' :: fmtInt b) :: post) [',']) =
        .error (.error ("cannot parse \"".toList ++ (fmtInt a ++ ':' :: fmtInt b) ++
          "\": start > end is invalid: ".toList ++ fmtInt a ++ " > ".toList ++ fmtInt b)) := by
  have hcond : a > b ∧ ((a < 0 ∧ b < 0) ∨ (a > 0 ∧ b > 0)) := by omega
  have hpfr := ParseFieldRange_colon lib a b ha hb
  rw [if_pos hcond] at hpfr
  refine ⟨hpfr, ?_⟩
  intro pre post hpre hpost
  have hab : ',' ∉ fmtInt a ++ ':' :: fmtInt b := by
    intro h
    rcases List.mem_append.mp h with h | h
    · exact not_mem_fmtInt a ',' (by decide) (by decide) h
    · rcases List.mem_cons.mp h with h | h
      · revert h; decide
      · exact not_mem_fmtInt b ',' (by decide) (by decide) h
  have hfree : ∀ q ∈ pre ++ (fmtInt a ++ ':' :: fmtInt b) :: post, ',' ∉ q := by
    intro q hq
    rcases List.mem_append.mp hq with hq | hq
    · exact (hpre q hq).1
    · rcases List.mem_cons.mp hq with rfl | hq
      · exact hab
      · exact hpost q hq
  have hsplit : Split (Join (pre ++ (fmtInt a ++ ':' :: fmtInt b) :: post) [',']) [','] =
      pre ++ (fmtInt a ++ ':' :: fmtInt b) :: post := by
    cases pre with
    | nil => exact Split_Join ',' _ _ hfree
    | cons p ps => exact Split_Join ',' _ _ hfree
  rw [ParseGroup, hsplit,
    parseGroupLoop_first_error lib pre post _ _ (fun p hp => (hpre p hp).2) hpfr,
    Quote_range_text]
  simp

/-- Witness for C4: the group body `1,3:1`. -/
theorem ParseFieldRange_start_gt_end_witness :
    ParseFieldRange demoLib "3:1".toList =
        .error (.error "start > end is invalid: 3 > 1".toList) ∧
    ParseGroup demoLib "1,3:1".toList =
        .error (.error "cannot parse \"3:1\": start > end is invalid: 3 > 1".toList) :=
  ⟨(ParseFieldRange_start_gt_end demoLib 3 1 (by decide) (by decide) (by decide) (by decide)).1,
   (ParseFieldRange_start_gt_end demoLib 3 1 (by decide) (by decide) (by decide) (by decide)).2
      [['1']] []
      (fun p hp => by
        rw [List.mem_singleton.mp hp]
        exact ⟨by decide, ⟨{ Start := 1, End := 1 }, rfl⟩⟩)
      (fun p hp => absurd hp (List.not_mem_nil p))⟩

/-- C5, as stated for all nonzero integers of opposite sign, fails:
`-9223372036854775809` is negative and `1` is positive, but on the text
`-9223372036854775809:1` the function `ParseFieldRange` returns the range error
of `strconv.Atoi` and no range. -/
theorem ParseFieldRange_invariant_counterexample :
    fmtInt (-9223372036854775809) ++ ':' :: fmtInt 1 = "-9223372036854775809:1".toList ∧
    ((-9223372036854775809 : Int) < 0 ∧ (0 : Int) < 1) ∧
    ParseFieldRange demoLib "-9223372036854775809:1".toList =
      .error (.error
        "strconv.Atoi: parsing \"-9223372036854775809\": value out of range".toList) ∧
    ParseFieldRange demoLib (fmtInt (-9223372036854775809) ++ ':' :: fmtInt 1) ≠
      .ok { Start := -9223372036854775809, End := 1 } := by
  refine ⟨by decide, by decide, rfl, ?_⟩
  intro h
  have e : ParseFieldRange demoLib (fmtInt (-9223372036854775809) ++ ':' :: fmtInt 1) =
      .error (.error
        "strconv.Atoi: parsing \"-9223372036854775809\": value out of range".toList) := rfl
  rw [e] at h
  cases h

/-- C5, amended: every range `ParseFieldRange` returns without error, on any
text, satisfies the validity invariant; and for nonzero `a`, `b` of opposite
sign in the range of a 64-bit `int` the text `a:b` parses to
`{Start: a, End: b}`. -/
theorem ParseFieldRange_invariant (lib : GoLib) :
    (∀ (s : Str) (fr : FieldRange), ParseFieldRange lib s = .ok fr → fr.wellFormed) ∧
    (∀ a b : Int, -(2 ^ 63) ≤ a ∧ a < 2 ^ 63 → -(2 ^ 63) ≤ b ∧ b < 2 ^ 63 →
      (a < 0 ∧ 0 < b) ∨ (0 < a ∧ b < 0) →
      ParseFieldRange lib (fmtInt a ++ ':' :: fmtInt b) = .ok { Start := a, End := b }) := by
  refine ⟨ParseFieldRange_wellFormed lib, ?_⟩
  intro a b ha hb hsign
  have h1 : ¬ (a > b ∧ ((a < 0 ∧ b < 0) ∨ (a > 0 ∧ b > 0))) := by omega
  have h2 : ¬ ((a = 0 ∨ b = 0) ∧ a ≠ b) := by omega
  rw [ParseFieldRange_colon lib a b ha hb, if_neg h1, if_neg h2]

/-- Witness for C5: the mixed-sign text `-2:3`. -/
theorem ParseFieldRange_invariant_witness :
    ParseFieldRange demoLib "-2:3".toList = .ok { Start := -2, End := 3 } ∧
    FieldRange.wellFormed { Start := -2, End := 3 } :=
  have e : fmtInt (-2) ++ ':' :: fmtInt 3 = "-2:3".toList := by decide
  have h := (ParseFieldRange_invariant demoLib).2 (-2) 3 (by decide) (by decide) (by decide)
  ⟨e ▸ h, (ParseFieldRange_invariant demoLib).1 _ _ h⟩

/-! ### One iteration of the compiler loop -/

theorem eq_nil_or_snoc {α : Type} (l : List α) : l = [] ∨ ∃ l' x, l = l' ++ [x] := by
  rcases List.eq_nil_or_concat l with h | ⟨l', x, h⟩
  · exact Or.inl h
  · exact Or.inr ⟨l', x, by rw [h, List.concat_eq_append]⟩

theorem findfLoop_zero (sr : List Char) (f : Char → Bool) : findfLoop sr f 0 = .ok (-1) := rfl

theorem IsDigit_of_ascii (lib : GoLib) (c : Char) (h : isAsciiDigit c = true) :
    IsDigit lib c = true := by
  have hc : 0x30 ≤ c.toNat ∧ c.toNat ≤ 0x39 := by simpa [isAsciiDigit] using h
  have : c.toNat ≤ 0xFF := by omega
  simp [IsDigit, this, hc]

/-- The scan `findf(not a digit)` from the last rune of a digit run `k`
preceded by `pre`: it stops on the last rune of `pre`, if that is not a digit. -/
theorem findf_digits (lib : GoLib) (pre k post : List Char)
    (hkd : ∀ c ∈ k, IsDigit lib c = true)
    (hpre : ∀ pre' d, pre = pre' ++ [d] → IsDigit lib d = false) :
    findfLoop (pre ++ k ++ post) (fun r => !IsDigit lib r) (pre.length + k.length)
      = .ok ((pre.length : Int) - 1) := by
  rw [findfLoop_skip _ pre k post (fun c hc => by simp [hkd c hc])]
  rcases eq_nil_or_snoc pre with rfl | ⟨pre', d, rfl⟩
  · rfl
  · have hd := hpre pre' d rfl
    have h1 : pre' ++ [d] ++ k ++ post = pre' ++ d :: (k ++ post) := by simp
    rw [h1, List.length_append, List.length_singleton, findfLoop_hit _ _ _ _ (by simp [hd])]
    congr 1
    push_cast
    omega

theorem selectorAt_digits (lib : GoLib) (pre k post : List Char) (hk : k ≠ [])
    (hkd : ∀ c ∈ k, IsDigit lib c = true)
    (hpre : ∀ pre' d, pre = pre' ++ [d] → IsDigit lib d = false ∧ d ≠ '-') :
    selectorAt lib (pre ++ k ++ post) ((pre.length : Int) + k.length - 1) =
      match ParseFieldRange lib k with
      | .error e => .error e
      | .ok fr => .ok (.greedy, .fieldRange fr, (pre.length : Int) - 1) := by
  rcases eq_nil_or_snoc k with rfl | ⟨k', c, hkc⟩
  · exact absurd rfl hk
  have hc : IsDigit lib c = true := hkd c (by simp [hkc])
  have hc1 : c ≠ '}' := by rintro rfl; revert hc; simp [IsDigit]
  have hc2 : c ≠ '/' := by rintro rfl; revert hc; simp [IsDigit]
  have hr : runeAt (pre ++ k ++ post) ((pre.length : Int) + k.length - 1) = .ok c := by
    have h1 : pre ++ k ++ post = (pre ++ k') ++ c :: post := by simp [hkc]
    have h2 : (pre.length : Int) + k.length - 1 = ((pre ++ k').length : Int) := by
      simp [hkc]
      omega
    rw [h1, h2, runeAt_append]
  have hi : ((pre.length : Int) + k.length - 1).toNat = pre.length + (k.length - 1) := by
    have : 0 < k.length := List.length_pos.mpr hk
    omega
  have hf : findf (pre ++ k ++ post) ((pre.length : Int) + k.length - 1)
      (fun r => !IsDigit lib r) = .ok ((pre.length : Int) - 1) := by
    have h1 : pre ++ k ++ post = pre ++ k' ++ (c :: post) := by simp [hkc]
    have h2 : k.length - 1 = k'.length := by simp [hkc]
    rw [findf, hi, h2, h1]
    exact findf_digits lib pre k' (c :: post)
      (fun x hx => hkd x (by simp [hkc, hx])) (fun p d e => (hpre p d e).1)
  have hminus : (if (pre.length : Int) - 1 > -1 then
        (runeAt (pre ++ k ++ post) ((pre.length : Int) - 1)).map (fun c => c == '-')
      else .ok false) = .ok false := by
    rcases eq_nil_or_snoc pre with rfl | ⟨pre', d, rfl⟩
    · rfl
    · have h1 : pre' ++ [d] ++ k ++ post = pre' ++ d :: (k ++ post) := by simp
      have h2 : (((pre' ++ [d]).length : Int) - 1) = (pre'.length : Int) := by simp
      have h3 : (pre'.length : Int) > -1 := by omega
      rw [h2, h1, runeAt_append, if_pos h3]
      simp [Except.map, (hpre pre' d rfl).2]
  have hs : slice (pre ++ k ++ post) ((pre.length : Int) - 1 + 1)
      ((pre.length : Int) + k.length - 1 + 1) = .ok k := by
    have h1 : (pre.length : Int) - 1 + 1 = pre.length := by omega
    have h2 : (pre.length : Int) + k.length - 1 + 1 = (pre.length : Int) + k.length := by omega
    rw [h1, h2, slice_append]
  unfold selectorAt
  simp only [hr, hc1, hc2, if_false, hc, if_true, hf, hminus, Bool.false_eq_true, hs]

theorem delimAt_neg (sr : List Char) (i : Int) (hi : i < 0) : delimAt sr i = .ok ([' '], i) := by
  have h1 : ¬ (i > 0) := by omega
  have h2 : ¬ (i ≥ 0) := by omega
  simp [delimAt, h1, h2]

theorem slice_one (pre : List Char) (d : Char) (post : List Char) :
    slice (pre ++ d :: post) (pre.length : Int) ((pre.length : Int) + 1) = .ok [d] := by
  have h1 : pre ++ d :: post = pre ++ [d] ++ post := by simp
  have h2 : (pre.length : Int) + 1 = (pre.length : Int) + ([d].length : Nat) := by simp
  rw [h1, h2, slice_append]

/-- The separator is the rune at the cursor when no backslash precedes it. -/
theorem delimAt_plain (pre : List Char) (d : Char) (post : List Char)
    (hpre : ∀ pre' x, pre = pre' ++ [x] → x ≠ '\\') :
    delimAt (pre ++ d :: post) (pre.length : Int) = .ok ([d], (pre.length : Int)) := by
  have hb : (if (pre.length : Int) > 0 then
        (runeAt (pre ++ d :: post) ((pre.length : Int) - 1)).map (fun c => c == '\\')
      else .ok false) = .ok false := by
    rcases eq_nil_or_snoc pre with rfl | ⟨pre', x, rfl⟩
    · rfl
    · have h1 : pre' ++ [x] ++ d :: post = pre' ++ x :: (d :: post) := by simp
      have h2 : (((pre' ++ [x]).length : Int) - 1) = (pre'.length : Int) := by simp
      have h3 : ((pre' ++ [x]).length : Int) > 0 := by
        rw [List.length_append, List.length_singleton]
        push_cast
        omega
      rw [if_pos h3, h2, h1, runeAt_append]
      simp [Except.map, hpre pre' x rfl]
  have h0 : (pre.length : Int) ≥ 0 := by omega
  unfold delimAt
  simp only [hb, h0, if_true, slice_one]

/-- After a backslash the separator is given by the escape table, and the
cursor moves onto the backslash. -/
theorem delimAt_escape (pre : List Char) (c : Char) (post : List Char) :
    delimAt (pre ++ '\\' :: c :: post) ((pre.length : Int) + 1) =
      .ok ((escapeSep c).getD [c], (pre.length : Int)) := by
  have h1 : pre ++ '\\' :: c :: post = (pre ++ ['\\']) ++ c :: post := by simp
  have h2 : (pre.length : Int) + 1 = ((pre ++ ['\\']).length : Int) := by simp
  have hb : (if (pre.length : Int) + 1 > 0 then
        (runeAt (pre ++ '\\' :: c :: post) ((pre.length : Int) + 1 - 1)).map (fun c => c == '\\')
      else .ok false) = .ok true := by
    have h3 : (pre.length : Int) + 1 > 0 := by omega
    have h4 : (pre.length : Int) + 1 - 1 = (pre.length : Int) := by omega
    rw [if_pos h3, h4, runeAt_append]
    rfl
  have hr : runeAt (pre ++ '\\' :: c :: post) ((pre.length : Int) + 1) = .ok c := by
    rw [h1, h2, runeAt_append]
  have hs : slice (pre ++ '\\' :: c :: post) ((pre.length : Int) + 1)
      ((pre.length : Int) + 1 + 1) = .ok [c] := by
    rw [h1, h2, slice_one]
  unfold delimAt
  simp only [hb, hr, hs]
  cases escapeSep c with
  | none => simp
  | some sep => simp

/-- The scan `find('{')` from a closing brace finds the nearest opening brace. -/
theorem selectorAt_group (lib : GoLib) (pre body post : List Char) (hb : '{' ∉ body) :
    selectorAt lib (pre ++ '{' :: body ++ '}' :: post) ((pre.length : Int) + 1 + body.length) =
      match ParseGroup lib (if body.head? = some '?' then body.drop 1 else body) with
      | .error e => .error e
      | .ok g => .ok (if body.head? = some '?' then splitFunc.nonGreedy else splitFunc.greedy,
          .group g, (pre.length : Int) - 1) := by
  have h1 : pre ++ '{' :: body ++ '}' :: post = (pre ++ '{' :: body) ++ '}' :: post := by simp
  have h2 : (pre.length : Int) + 1 + body.length = ((pre ++ '{' :: body).length : Int) := by
    simp
    omega
  have hr : runeAt (pre ++ '{' :: body ++ '}' :: post) ((pre.length : Int) + 1 + body.length)
      = .ok '}' := by
    rw [h1, h2, runeAt_append]
  have hf : find (pre ++ '{' :: body ++ '}' :: post) ((pre.length : Int) + 1 + body.length) '{'
      = .ok (pre.length : Int) := by
    have h3 : ((pre.length : Int) + 1 + body.length).toNat = (pre ++ ['{']).length + body.length := by
      simp
      omega
    have h4 : pre ++ '{' :: body ++ '}' :: post = (pre ++ ['{']) ++ body ++ ('}' :: post) := by simp
    rw [find, h3, h4, findfLoop_skip _ _ body _ (fun c hc => by
      have : c ≠ '{' := fun e => hb (e ▸ hc)
      simp [this])]
    have h5 : pre ++ ['{'] ++ body ++ '}' :: post = pre ++ '{' :: (body ++ '}' :: post) := by simp
    rw [h5, List.length_append, List.length_singleton, findfLoop_hit _ _ _ _ (by simp)]
  have hs : slice (pre ++ '{' :: body ++ '}' :: post) ((pre.length : Int) + 1)
      ((pre.length : Int) + 1 + body.length) = .ok body := by
    have h4 : pre ++ '{' :: body ++ '}' :: post = (pre ++ ['{']) ++ body ++ ('}' :: post) := by simp
    have h5 : (pre.length : Int) + 1 = ((pre ++ ['{']).length : Int) := by simp
    rw [h4, h5, slice_append]
  have hne : ¬ ((pre.length : Int) = -1) := by omega
  unfold selectorAt
  simp only [hr, if_true, hf, hne, if_false, hs]

theorem compileLoop_done (lib : GoLib) (sr : List Char) (fuel : Nat) (i : Int)
    (ex : List Selector) (hi : i < 0) : compileLoop lib sr (fuel + 1) i ex = .ok ex := by
  rw [compileLoop, if_pos hi]

theorem compileLoop_step (lib : GoLib) (sr : List Char) (fuel : Nat) (i : Int)
    (ex : List Selector) (hi : 0 ≤ i) (tokenizer : splitFunc) (filter : Filter) (i1 : Int)
    (sep : Str) (i2 : Int) (hsel : selectorAt lib sr i = .ok (tokenizer, filter, i1))
    (hdel : delimAt sr i1 = .ok (sep, i2)) :
    compileLoop lib sr (fuel + 1) i ex =
      compileLoop lib sr fuel (i2 - 1)
        (ex ++ [{ delim := sep, tokenize := tokenizer, filter := filter }]) := by
  have h : ¬ (i < 0) := by omega
  rw [compileLoop, if_neg h, hsel]
  simp only [hdel]

theorem compileLoop_error (lib : GoLib) (sr : List Char) (fuel : Nat) (i : Int)
    (ex : List Selector) (hi : 0 ≤ i) (e : Failure) (hsel : selectorAt lib sr i = .error e) :
    compileLoop lib sr (fuel + 1) i ex = .error e := by
  have h : ¬ (i < 0) := by omega
  rw [compileLoop, if_neg h, hsel]

/-! ### Extractors with one group selector -/

theorem reverseInPlace_singleton {α : Type} (x : α) : reverseInPlace [x] = [x] := by
  rw [reverseInPlace_eq_reverse]
  rfl

/-- An argument that ends in a group, with whatever precedes the opening brace
consumed as the separator, compiles to the one selector of that group. -/
theorem CompileExtractor_one_group (lib : GoLib) (pre body : List Char) (hb : '{' ∉ body)
    (sep : Str) (i2 : Int)
    (hdel : delimAt (pre ++ '{' :: body ++ ['}']) ((pre.length : Int) - 1) = .ok (sep, i2))
    (hi2 : i2 - 1 < 0) :
    CompileExtractor lib (pre ++ '{' :: body ++ ['}']) =
      groupExtractor sep
        (if body.head? = some '?' then splitFunc.nonGreedy else splitFunc.greedy)
        (ParseGroup lib (if body.head? = some '?' then body.drop 1 else body)) := by
  have hlen : (((pre ++ '{' :: body ++ ['}']).length : Nat) : Int) - 1
      = (pre.length : Int) + 1 + body.length := by
    simp
    omega
  have hsel := selectorAt_group lib pre body [] hb
  unfold CompileExtractor
  simp only [hlen]
  cases hg : ParseGroup lib (if body.head? = some '?' then body.drop 1 else body) with
  | error e =>
    rw [hg] at hsel
    rw [compileLoop_error lib _ _ _ _ (by omega) e hsel]
    rfl
  | ok g =>
    rw [hg] at hsel
    obtain ⟨fuel, hfuel⟩ : ∃ f, (pre ++ '{' :: body ++ ['}']).length = f + 1 :=
      ⟨pre.length + body.length + 1, by simp; omega⟩
    rw [hfuel, compileLoop_step lib _ _ _ _ (by omega) _ _ _ _ _ hsel hdel,
      compileLoop_done lib _ _ _ _ hi2]
    simp only [List.nil_append, reverseInPlace_singleton, groupExtractor]

/-- C7: for every rune `d` and every group body `b` without an opening brace
that does not begin with `?`, the arguments `d{b}` and `d{?b}` compile exactly
when `ParseGroup b` succeeds, to the one selector with delimiter `d` and filter
`ParseGroup b`, the first greedy and the second non-greedy; without `d` the
delimiter is a single space. -/
theorem CompileExtractor_group_selector (lib : GoLib) (d : Char) (b : Str) (hb : '{' ∉ b)
    (hq : b.head? ≠ some '?') :
    CompileExtractor lib (d :: '{' :: b ++ ['}'])
      = groupExtractor [d] .greedy (ParseGroup lib b) ∧
    CompileExtractor lib (d :: '{' :: '?' :: b ++ ['}'])
      = groupExtractor [d] .nonGreedy (ParseGroup lib b) ∧
    CompileExtractor lib ('{' :: b ++ ['}'])
      = groupExtractor [' '] .greedy (ParseGroup lib b) ∧
    CompileExtractor lib ('{' :: '?' :: b ++ ['}'])
      = groupExtractor [' '] .nonGreedy (ParseGroup lib b) := by
  have hb2 : '{' ∉ '?' :: b := by
    intro h
    rcases List.mem_cons.mp h with h | h
    · revert h; decide
    · exact hb h
  have hd : ∀ body : List Char, delimAt ([d] ++ '{' :: body ++ ['}']) (([d].length : Int) - 1)
      = .ok ([d], 0) := by
    intro body
    exact delimAt_plain [] d _ (fun p x e => by simp at e)
  have hn : ∀ body : List Char, delimAt ([] ++ '{' :: body ++ ['}'])
      ((([] : List Char).length : Int) - 1) = .ok ([' '], -1) := by
    intro body
    exact delimAt_neg _ _ (by decide)
  have h1 := CompileExtractor_one_group lib [d] b hb [d] 0 (hd b) (by decide)
  have h2 := CompileExtractor_one_group lib [d] ('?' :: b) hb2 [d] 0 (hd _) (by decide)
  have h3 := CompileExtractor_one_group lib [] b hb [' '] (-1) (hn b) (by decide)
  have h4 := CompileExtractor_one_group lib [] ('?' :: b) hb2 [' '] (-1) (hn _) (by decide)
  simp only [hq, if_false] at h1 h3
  simp only [List.head?_cons, if_true, List.drop_succ_cons, List.drop_zero] at h2 h4
  exact ⟨h1, h2, h3, h4⟩

/-- Witness for C7: the arguments `a{1,2,3}` and `a{?1,2,3}`. -/
theorem CompileExtractor_group_selector_witness :
    CompileExtractor demoLib "a\x7b1,2,3\x7d".toList
      = .ok [{ delim := ['a'], tokenize := .greedy,
               filter := .group [⟨1, 1⟩, ⟨2, 2⟩, ⟨3, 3⟩] }] ∧
    CompileExtractor demoLib "a\x7b?1,2,3\x7d".toList
      = .ok [{ delim := ['a'], tokenize := .nonGreedy,
               filter := .group [⟨1, 1⟩, ⟨2, 2⟩, ⟨3, 3⟩] }] :=
  ⟨(CompileExtractor_group_selector demoLib 'a' "1,2,3".toList (by decide) (by decide)).1,
   (CompileExtractor_group_selector demoLib 'a' "1,2,3".toList (by decide) (by decide)).2.1⟩

theorem escapeSep_getD (c : Char) : (escapeSep c).getD [c] = [escapeTable c] := by
  unfold escapeSep escapeTable
  by_cases h0 : c = '\\'
  · subst h0
    rfl
  rw [if_neg h0, if_neg h0]
  by_cases h1 : c = 'a'
  · subst h1
    rfl
  rw [if_neg h1, if_neg h1]
  by_cases h2 : c = 'b'
  · subst h2
    rfl
  rw [if_neg h2, if_neg h2]
  by_cases h3 : c = 'f'
  · subst h3
    rfl
  rw [if_neg h3, if_neg h3]
  by_cases h4 : c = 'n'
  · subst h4
    rfl
  rw [if_neg h4, if_neg h4]
  by_cases h5 : c = 'r'
  · subst h5
    rfl
  rw [if_neg h5, if_neg h5]
  by_cases h6 : c = 't'
  · subst h6
    rfl
  rw [if_neg h6, if_neg h6]
  by_cases h7 : c = 'v'
  · subst h7
    rfl
  rw [if_neg h7, if_neg h7]
  by_cases h8 : c = 'z'
  · subst h8
    rfl
  rw [if_neg h8, if_neg h8]
  by_cases h9 : c = 'e'
  · subst h9
    rfl
  rw [if_neg h9, if_neg h9]
  rfl

theorem ParseGroup_one (lib : GoLib) : ParseGroup lib ['1'] = .ok [{ Start := 1, End := 1 }] :=
  rfl

/-- C8: for every rune `c`, the argument backslash, `c`, `{1}` compiles to
exactly one selector, whose delimiter is the one-rune string the escape table
gives for `c`. -/
theorem CompileExtractor_escaped_delim (lib : GoLib) (c : Char) :
    CompileExtractor lib ['\\', c, '{', '1', '}'] =
      .ok [{ delim := [escapeTable c], tokenize := .greedy,
             filter := .group [{ Start := 1, End := 1 }] }] := by
  have hdel : delimAt (['\\', c] ++ '{' :: ['1'] ++ ['}']) ((['\\', c].length : Int) - 1)
      = .ok ((escapeSep c).getD [c], 0) := delimAt_escape [] c _
  have h := CompileExtractor_one_group lib ['\\', c] ['1'] (by decide) _ 0 hdel (by decide)
  rw [escapeSep_getD] at h
  simpa [groupExtractor, ParseGroup_one] using h

/-! ### Sequences of simple selectors -/

theorem ParseFieldRange_literal (lib : GoLib) (k : Str) (hk : isLiteral k) :
    ParseFieldRange lib k = .ok { Start := decimalValue k, End := decimalValue k } := by
  have hidx : IndexByte k ':' = -1 :=
    IndexByte_not_mem k ':' (not_mem_of_digits k ':' hk.2.1 (by decide))
  unfold ParseFieldRange
  simp only [hidx, if_true, Atoi_digits lib k hk.1 hk.2.1 hk.2.2]

theorem selectorText_snoc (init : List (Char × Str)) (d : Char) (k : Str) :
    selectorText (init ++ [(d, k)]) = selectorText init ++ d :: k := by
  simp [selectorText]

theorem snoc_inj {α : Type} {a b : List α} {x y : α} (h : a ++ [x] = b ++ [y]) : x = y := by
  have := List.append_inj_right' h rfl
  simpa using this

/-- A text of delimited literals ends in a digit. -/
theorem last_of_selectorText (k1 : Str) (rest : List (Char × Str)) (hk1 : isLiteral k1)
    (hrest : ∀ p ∈ rest, isLiteral p.2) (pre : List Char) (x : Char)
    (h : k1 ++ selectorText rest = pre ++ [x]) : isAsciiDigit x = true := by
  rcases eq_nil_or_snoc rest with rfl | ⟨init, ⟨d, k⟩, rfl⟩
  · rcases eq_nil_or_snoc k1 with rfl | ⟨k', y, rfl⟩
    · exact absurd rfl hk1.1
    · have hxy : y = x := snoc_inj (by simpa [selectorText] using h)
      exact hxy ▸ hk1.2.1 y (by simp)
  · have hk : isLiteral k := hrest (d, k) (by simp)
    rcases eq_nil_or_snoc k with rfl | ⟨k', y, rfl⟩
    · exact absurd rfl hk.1
    · have hxy : y = x := by
        rw [selectorText_snoc] at h
        have h' : (k1 ++ selectorText init ++ d :: k') ++ [y] = pre ++ [x] := by
          rw [← h]
          simp
        exact snoc_inj h'
      exact hxy ▸ hk.2.1 y (by simp)

theorem compileLoop_simple (lib : GoLib) (k1 : Str) (hk1 : isLiteral k1)
    (rest : List (Char × Str)) :
    (∀ p ∈ rest, IsDigit lib p.1 = false ∧ p.1 ≠ '-' ∧ isLiteral p.2) →
    ∀ (post : List Char) (fuel : Nat) (ex : List Selector), rest.length + 2 ≤ fuel →
      compileLoop lib (k1 ++ selectorText rest ++ post) fuel
          (((k1 ++ selectorText rest).length : Int) - 1) ex =
        .ok (ex ++ rest.reverse.map (fun p => simpleSelector [p.1] p.2)
          ++ [simpleSelector [' '] k1]) := by
  induction rest using List.reverseRecOn with
  | nil =>
    intro _ post fuel ex hfuel
    obtain ⟨fuel, rfl⟩ : ∃ f, fuel = f + 2 := ⟨fuel - 2, by simp at hfuel; omega⟩
    have hpos : 0 < k1.length := List.length_pos.mpr hk1.1
    have hsel := selectorAt_digits lib [] k1 post hk1.1
      (fun c hc => IsDigit_of_ascii lib c (hk1.2.1 c hc)) (fun p d e => by simp at e)
    rw [ParseFieldRange_literal lib k1 hk1] at hsel
    simp only [List.nil_append, List.length_nil, Nat.cast_zero, zero_add] at hsel
    have hdel : delimAt (k1 ++ post) ((0 : Int) - 1) = .ok ([' '], (0 : Int) - 1) :=
      delimAt_neg _ _ (by decide)
    simp only [selectorText, List.map_nil, List.flatten_nil, List.append_nil]
    rw [compileLoop_step lib _ _ _ _ (by omega) _ _ _ _ _ hsel hdel,
      compileLoop_done lib _ _ _ _ (by decide)]
    simp [simpleSelector]
  | append_singleton init p ih =>
    obtain ⟨d, k⟩ := p
    intro hrest post fuel ex hfuel
    obtain ⟨fuel, rfl⟩ : ∃ f, fuel = f + 1 := ⟨fuel - 1, by omega⟩
    obtain ⟨hd, hm, hk⟩ := hrest (d, k) (by simp)
    have hinit : ∀ p ∈ init, IsDigit lib p.1 = false ∧ p.1 ≠ '-' ∧ isLiteral p.2 :=
      fun p hp => hrest p (by simp [hp])
    have hpos : 0 < k.length := List.length_pos.mpr hk.1
    have hsr : k1 ++ selectorText (init ++ [(d, k)]) ++ post
        = (k1 ++ selectorText init ++ [d]) ++ k ++ post := by
      rw [selectorText_snoc]
      simp
    have hidx : (((k1 ++ selectorText (init ++ [(d, k)])).length : Nat) : Int) - 1
        = ((k1 ++ selectorText init ++ [d]).length : Int) + k.length - 1 := by
      rw [selectorText_snoc]
      simp
      omega
    have hsel := selectorAt_digits lib (k1 ++ selectorText init ++ [d]) k post hk.1
      (fun c hc => IsDigit_of_ascii lib c (hk.2.1 c hc))
      (fun p x e => by
        have : d = x := snoc_inj e
        subst this
        exact ⟨hd, hm⟩)
    rw [ParseFieldRange_literal lib k hk] at hsel
    have hi1 : ((k1 ++ selectorText init ++ [d]).length : Int) - 1
        = ((k1 ++ selectorText init).length : Int) := by
      simp
      omega
    have hdel : delimAt ((k1 ++ selectorText init ++ [d]) ++ k ++ post)
        (((k1 ++ selectorText init ++ [d]).length : Int) - 1)
        = .ok ([d], ((k1 ++ selectorText init).length : Int)) := by
      have h1 : (k1 ++ selectorText init ++ [d]) ++ k ++ post
          = (k1 ++ selectorText init) ++ d :: (k ++ post) := by simp
      rw [hi1, h1]
      apply delimAt_plain
      intro pre x e
      have hx := last_of_selectorText k1 init hk1 (fun p hp => (hinit p hp).2.2) pre x e
      rintro rfl
      revert hx
      decide
    rw [hsr, hidx, compileLoop_step lib _ _ _ _ (by
        have : 0 ≤ ((k1 ++ selectorText init ++ [d]).length : Int) := Int.natCast_nonneg _
        omega) _ _ _ _ _ hsel hdel]
    have h2 : (k1 ++ selectorText init ++ [d]) ++ k ++ post
        = k1 ++ selectorText init ++ (d :: (k ++ post)) := by simp
    rw [h2, ih hinit (d :: (k ++ post)) fuel _ (by simp at hfuel; omega)]
    simp [simpleSelector]

/-- C6: the text `k1 d2 k2 ... dm km`, with non-empty ASCII decimal literals
`kj` that fit in an `int` and delimiters `dj` that are neither digits nor `-`,
compiles to exactly `m` greedy selectors in left-to-right order: the first with
delimiter a single space and range `{k1, k1}`, the `j`-th with delimiter `dj`
and range `{kj, kj}`. -/
theorem CompileExtractor_simple_selectors (lib : GoLib) (k1 : Str) (rest : List (Char × Str))
    (hk1 : isLiteral k1)
    (hrest : ∀ p ∈ rest, IsDigit lib p.1 = false ∧ p.1 ≠ '-' ∧ isLiteral p.2) :
    CompileExtractor lib (k1 ++ selectorText rest) =
      .ok (simpleSelector [' '] k1 :: rest.map (fun p => simpleSelector [p.1] p.2)) := by
  have h := compileLoop_simple lib k1 hk1 rest hrest [] ((k1 ++ selectorText rest).length + 1) []
    (by
      have h1 : rest.length ≤ (selectorText rest).length := by
        clear hrest
        induction rest with
        | nil => simp
        | cons p ps ih =>
          simp only [selectorText, List.map_cons, List.flatten_cons, List.length_append,
            List.length_cons] at ih ⊢
          omega
      have h2 : 0 < k1.length := List.length_pos.mpr hk1.1
      simp only [List.length_append]
      omega)
  rw [List.append_nil] at h
  unfold CompileExtractor
  simp only [h, reverseInPlace_eq_reverse]
  simp

/-- Witness for C6: the argument `1.1` is split by a space, then by a dot. -/
theorem CompileExtractor_simple_selectors_witness :
    CompileExtractor demoLib "1.1".toList =
      .ok [{ delim := [' '], tokenize := .greedy, filter := .fieldRange ⟨1, 1⟩ },
           { delim := ['.'], tokenize := .greedy, filter := .fieldRange ⟨1, 1⟩ }] :=
  CompileExtractor_simple_selectors demoLib "1".toList [('.', "1".toList)]
    ⟨by decide, by decide, by decide⟩
    (fun p hp => by
      rw [List.mem_singleton.mp hp]
      exact ⟨rfl, by decide, by decide, by decide, by decide⟩)

/-! ### The zero range -/

/-- An argument that ends in a literal, with whatever precedes it consumed as
the separator, compiles to the one selector of that literal. -/
theorem CompileExtractor_one_literal (lib : GoLib) (pre k : List Char) (hk : isLiteral k)
    (hpre : ∀ pre' d, pre = pre' ++ [d] → IsDigit lib d = false ∧ d ≠ '-')
    (sep : Str) (i2 : Int)
    (hdel : delimAt (pre ++ k) ((pre.length : Int) - 1) = .ok (sep, i2)) (hi2 : i2 - 1 < 0) :
    CompileExtractor lib (pre ++ k) = .ok [simpleSelector sep k] := by
  have hpos : 0 < k.length := List.length_pos.mpr hk.1
  have hsel := selectorAt_digits lib pre k [] hk.1
    (fun c hc => IsDigit_of_ascii lib c (hk.2.1 c hc)) hpre
  rw [ParseFieldRange_literal lib k hk, List.append_nil] at hsel
  have hlen : (((pre ++ k).length : Nat) : Int) - 1 = (pre.length : Int) + k.length - 1 := by
    simp
  obtain ⟨fuel, hfuel⟩ : ∃ f, (pre ++ k).length = f + 1 :=
    ⟨pre.length + k.length - 1, by simp; omega⟩
  unfold CompileExtractor
  simp only [hlen]
  rw [hfuel, compileLoop_step lib _ _ _ _ (by omega) _ _ _ _ _ hsel hdel,
    compileLoop_done lib _ _ _ _ hi2]
  simp only [List.nil_append, reverseInPlace_singleton, simpleSelector]

theorem Extract_zero_fieldRange (lib : GoLib) (delim : Str) (t : splitFunc) (s : Str) :
    Extractor.Extract lib
      [{ delim := delim, tokenize := t, filter := .fieldRange { Start := 0, End := 0 } }] s
      = .ok s := by
  simp [Extractor.Extract, extractLoop, Selector.Extract, Filter.Select, FieldRange.Select, Join]

theorem Extract_zero_group (lib : GoLib) (delim : Str) (t : splitFunc) (s : Str) :
    Extractor.Extract lib
      [{ delim := delim, tokenize := t, filter := .group [{ Start := 0, End := 0 }] }] s
      = .ok s := by
  simp [Extractor.Extract, extractLoop, Selector.Extract, Filter.Select, Group.Select,
    groupSelectLoop, FieldRange.Select, Join]

theorem isLiteral_zero : isLiteral ['0'] := ⟨by decide, by decide, by decide⟩

theorem ParseGroup_zero (lib : GoLib) : ParseGroup lib ['0'] = .ok [{ Start := 0, End := 0 }] :=
  rfl

theorem ParseGroup_zero_zero (lib : GoLib) :
    ParseGroup lib ['0', ':', '0'] = .ok [{ Start := 0, End := 0 }] :=
  rfl

/-- C3: for every input `s` and every delimiter rune `d` that is not a digit
or `-`, each of the arguments `0`, `{0}`, `{0:0}`, `d0`, `d{0}` and `d{0:0}`
compiles without error, and the compiled extractor returns `s` unchanged. -/
theorem zero_range_preserves_input (lib : GoLib) (s : Str) (d : Char)
    (hd : IsDigit lib d = false) (hm : d ≠ '-') :
    ∀ arg ∈ [['0'], ['{', '0', '}'], ['{', '0', ':', '0', '}'],
             [d, '0'], [d, '{', '0', '}'], [d, '{', '0', ':', '0', '}']],
      ∃ ex, CompileExtractor lib arg = .ok ex ∧ Extractor.Extract lib ex s = .ok s := by
  have hsp : ∀ body : List Char, delimAt ([] ++ body) ((([] : List Char).length : Int) - 1)
      = .ok ([' '], -1) := fun body => delimAt_neg _ _ (by decide)
  have hdl : ∀ body : List Char, delimAt ([d] ++ body) (([d].length : Int) - 1)
      = .ok ([d], 0) := fun body => delimAt_plain [] d _ (fun p x e => by simp at e)
  have a1 := CompileExtractor_one_literal lib [] ['0'] isLiteral_zero
    (fun p x e => by simp at e) _ _ (hsp _) (by decide)
  have a2 := CompileExtractor_one_group lib [] ['0'] (by decide) _ _ (hsp _) (by decide)
  have a3 := CompileExtractor_one_group lib [] ['0', ':', '0'] (by decide) _ _ (hsp _)
    (by decide)
  have a4 := CompileExtractor_one_literal lib [d] ['0'] isLiteral_zero
    (fun p x e => by
      have : d = x := snoc_inj (a := []) e
      subst this
      exact ⟨hd, hm⟩) _ _ (hdl _) (by decide)
  have a5 := CompileExtractor_one_group lib [d] ['0'] (by decide) _ _ (hdl _) (by decide)
  have a6 := CompileExtractor_one_group lib [d] ['0', ':', '0'] (by decide) _ _ (hdl _)
    (by decide)
  have hv : ((decimalValue ['0'] : Nat) : Int) = 0 := rfl
  simp only [simpleSelector, hv] at a1 a4
  simp only [List.head?_cons, Option.some.injEq, Char.reduceEq, if_false, ParseGroup_zero,
    ParseGroup_zero_zero, groupExtractor] at a2 a3 a5 a6
  intro arg harg
  simp only [List.mem_cons, List.mem_singleton, List.not_mem_nil, or_false] at harg
  rcases harg with rfl | rfl | rfl | rfl | rfl | rfl
  · exact ⟨_, a1, Extract_zero_fieldRange lib _ _ s⟩
  · exact ⟨_, a2, Extract_zero_group lib _ _ s⟩
  · exact ⟨_, a3, Extract_zero_group lib _ _ s⟩
  · exact ⟨_, a4, Extract_zero_fieldRange lib _ _ s⟩
  · exact ⟨_, a5, Extract_zero_group lib _ _ s⟩
  · exact ⟨_, a6, Extract_zero_group lib _ _ s⟩

/-- Witness for C3: the argument `:{0}` on the line `:a::b::c:`. -/
theorem zero_range_preserves_input_witness :
    ∃ ex, CompileExtractor demoLib [':', '{', '0', '}'] = .ok ex ∧
      Extractor.Extract demoLib ex ":a::b::c:".toList = .ok ":a::b::c:".toList :=
  zero_range_preserves_input demoLib ":a::b::c:".toList ':' rfl (by decide) _
    (by simp)

/-! ### Regexp selectors -/

theorem findfLoop_skip_one (f : Char → Bool) (a : List Char) (c : Char) (b : List Char)
    (hc : f c = false) :
    findfLoop (a ++ c :: b) f (a.length + 1) = findfLoop (a ++ c :: b) f a.length := by
  have h := findfLoop_skip f a [c] b (fun x hx => by rw [List.mem_singleton.mp hx]; exact hc)
  simpa using h

theorem regexpLoop_escaped_slash (b1 b2 : List Char) (h1 : '/' ∉ b1)
    (hb1 : ∀ p x, b1 = p ++ [x] → x ≠ '\\') (fuel : Nat) :
    regexpLoop ('/' :: (b1 ++ '\\' :: '/' :: (b2 ++ ['/']))) (fuel + 2)
        ((b1.length : Int) + b2.length + 3) ((b1.length : Int) + 2) [] =
      .ok (-1, (if b2 ≠ [] then [b2] else []) ++ [['/']] ++ (if b1 ≠ [] then [b1] else [])) := by
  generalize hsr : '/' :: (b1 ++ '\\' :: '/' :: (b2 ++ ['/'])) = sr
  -- the candidate slash is preceded by a backslash
  have F3 : slice sr ((b1.length : Int) + 2 + 1) ((b1.length : Int) + b2.length + 3) = .ok b2 := by
    have e1 : sr = ('/' :: (b1 ++ ['\\', '/'])) ++ b2 ++ ['/'] := by simp [← hsr]
    have e2 : (b1.length : Int) + 2 + 1 = (('/' :: (b1 ++ ['\\', '/'])).length : Int) := by
      simp
    have e3 : (b1.length : Int) + b2.length + 3
        = (('/' :: (b1 ++ ['\\', '/'])).length : Int) + b2.length := by
      simp
      omega
    rw [e1, e3, e2, slice_append]
  have F4 : runeAt sr ((b1.length : Int) + 2 - 1) = .ok '\\' := by
    have e1 : sr = ('/' :: b1) ++ '\\' :: ('/' :: (b2 ++ ['/'])) := by simp [← hsr]
    have e2 : (b1.length : Int) + 2 - 1 = (('/' :: b1).length : Int) := by
      simp
      omega
    rw [e1, e2, runeAt_append]
  have F5 : findf sr ((b1.length : Int) + 2) (fun r => r != '\\') = .ok (b1.length : Int) := by
    have e1 : sr = ('/' :: b1) ++ '\\' :: ('/' :: (b2 ++ ['/'])) := by simp [← hsr]
    have e2 : ((b1.length : Int) + 2).toNat = ('/' :: b1).length + 1 := by
      simp
      omega
    rw [findf, e2, e1, findfLoop_skip_one _ _ _ _ (by simp)]
    rcases eq_nil_or_snoc b1 with rfl | ⟨p, x, rfl⟩
    · rfl
    · have hx : x ≠ '\\' := hb1 p x rfl
      have e3 : '/' :: (p ++ [x]) ++ '\\' :: '/' :: (b2 ++ ['/'])
          = ('/' :: p) ++ x :: ('\\' :: '/' :: (b2 ++ ['/'])) := by simp
      have e4 : ('/' :: (p ++ [x])).length = ('/' :: p).length + 1 := by simp
      rw [e3, e4, findfLoop_hit _ _ _ _ (by simp [hx])]
      simp
  have F6 : slice sr ((b1.length : Int) + 2 - Int.tdiv ((b1.length : Int) + 2
      - ((b1.length : Int) + 1) - 1) 2) ((b1.length : Int) + 2 + 1) = .ok ['/'] := by
    have e0 : (b1.length : Int) + 2 - ((b1.length : Int) + 1) - 1 = 0 := by omega
    have e1 : sr = ('/' :: (b1 ++ ['\\'])) ++ '/' :: (b2 ++ ['/']) := by simp [← hsr]
    have e2 : (b1.length : Int) + 2 = (('/' :: (b1 ++ ['\\'])).length : Int) := by
      simp
      omega
    rw [e0, Int.zero_tdiv, sub_zero, e2, e1, slice_one]
  have F7 : find sr ((b1.length : Int) + 1) '/' = .ok 0 := by
    have e1 : sr = ['/'] ++ b1 ++ ('\\' :: '/' :: (b2 ++ ['/'])) := by simp [← hsr]
    have e2 : ((b1.length : Int) + 1).toNat = ['/'].length + b1.length := by
      simp
      omega
    rw [find, e2, e1, findfLoop_skip _ _ b1 _ (fun c hc => by
      have : c ≠ '/' := fun e => h1 (e ▸ hc)
      simp [this])]
    exact findfLoop_hit _ [] '/' _ (by simp)
  have F8 : slice sr ((0 : Int) + 1) ((b1.length : Int) + 1) = .ok b1 := by
    have e1 : sr = ['/'] ++ b1 ++ ('\\' :: '/' :: (b2 ++ ['/'])) := by simp [← hsr]
    have e2 : (b1.length : Int) + 1 = (['/'].length : Int) + b1.length := by
      simp
      omega
    have e3 : (0 : Int) + 1 = (['/'].length : Int) := by simp
    rw [e1, e2, e3, slice_append]
  have c1 : ¬ ((b1.length : Int) + 2 = -1) := by omega
  have c2 : (b1.length : Int) + 2 > 1 := by omega
  have c3 : ¬ (Int.tmod ((b1.length : Int) + 2 - ((b1.length : Int) + 1)) 2 = 0) := by
    have : (b1.length : Int) + 2 - ((b1.length : Int) + 1) = 1 := by omega
    rw [this]
    decide
  rw [regexpLoop]
  simp only [c1, if_false, F3, c2, if_true, F4, Except.map, beq_self_eq_true, Bool.not_true,
    Bool.false_eq_true, F5, c3, F6, F7]
  rw [regexpLoop]
  have c4 : ¬ ((0 : Int) = -1) := by decide
  have c5 : ¬ ((0 : Int) > 1) := by decide
  simp only [F8, c4, c5, if_false, Bool.not_false, if_true, List.nil_append]
  have c6 : (0 : Int) - 1 = -1 := by decide
  rw [c6]
  by_cases e1 : b1 = [] <;> by_cases e2 : b2 = [] <;> simp [e1, e2]

theorem Join_nil_sep (xs : List Str) : Join xs [] = xs.flatten := by
  induction xs with
  | nil => rfl
  | cons a rest ih =>
    cases rest with
    | nil => simp [Join]
    | cons b rest => rw [Join_cons_cons, ih]; simp

/-- C9: for texts `b1`, `b2` without a slash, `b1` not ending in a backslash,
and `b1/b2` a valid regular expression, the argument `/b1\/b2/` compiles to
exactly one selector, with delimiter a single space, whose regexp source is
`b1/b2`: the escaped slash loses its backslash and the pieces keep their
left-to-right order. -/
theorem CompileExtractor_escaped_slash (lib : GoLib) (b1 b2 : Str) (h1 : '/' ∉ b1)
    (h2 : '/' ∉ b2) (hb1 : ∀ p x, b1 = p ++ [x] → x ≠ '\\')
    (hrx : lib.regexpCompile (b1 ++ '/' :: b2) = none) :
    CompileExtractor lib ('/' :: (b1 ++ '\\' :: '/' :: (b2 ++ ['/']))) =
      .ok [{ delim := [' '], tokenize := .greedy, filter := .regexp { expr := b1 ++ '/' :: b2 } }] := by
  have hloop := regexpLoop_escaped_slash b1 b2 h1 hb1
  generalize hsr : '/' :: (b1 ++ '\\' :: '/' :: (b2 ++ ['/'])) = sr at hloop
  have hlen : sr.length = b1.length + b2.length + 4 := by
    simp [← hsr]
    omega
  have hr : runeAt sr ((b1.length : Int) + b2.length + 3) = .ok '/' := by
    have e1 : sr = ('/' :: (b1 ++ '\\' :: '/' :: b2)) ++ '/' :: [] := by simp [← hsr]
    have e2 : (b1.length : Int) + b2.length + 3
        = (('/' :: (b1 ++ '\\' :: '/' :: b2)).length : Int) := by
      simp
      omega
    rw [e1, e2, runeAt_append]
  have hf : find sr ((b1.length : Int) + b2.length + 3) '/' = .ok ((b1.length : Int) + 2) := by
    have e1 : sr = ('/' :: (b1 ++ ['\\', '/'])) ++ b2 ++ ['/'] := by simp [← hsr]
    have e2 : ((b1.length : Int) + b2.length + 3).toNat
        = ('/' :: (b1 ++ ['\\', '/'])).length + b2.length := by
      simp
      omega
    rw [find, e2, e1, findfLoop_skip _ _ b2 _ (fun c hc => by
      have : c ≠ '/' := fun e => h2 (e ▸ hc)
      simp [this])]
    have e3 : '/' :: (b1 ++ ['\\', '/']) ++ b2 ++ ['/']
        = ('/' :: (b1 ++ ['\\'])) ++ '/' :: (b2 ++ ['/']) := by simp
    have e4 : ('/' :: (b1 ++ ['\\', '/'])).length = ('/' :: (b1 ++ ['\\'])).length + 1 := by simp
    rw [e3, e4, findfLoop_hit _ _ _ _ (by simp)]
    simp
    omega
  have hjoin : Join (reverseInPlace ((if b2 ≠ [] then [b2] else []) ++ [['/']] ++
      (if b1 ≠ [] then [b1] else []))) [] = b1 ++ '/' :: b2 := by
    rw [reverseInPlace_eq_reverse, Join_nil_sep]
    by_cases e1 : b1 = [] <;> by_cases e2 : b2 = [] <;> simp [e1, e2]
  have hsel : selectorAt lib sr ((b1.length : Int) + b2.length + 3) =
      .ok (.greedy, .regexp { expr := b1 ++ '/' :: b2 }, -1) := by
    have hfuel : sr.length + 1 = (b1.length + b2.length + 3) + 2 := by omega
    unfold selectorAt
    simp only [hr, Char.reduceEq, if_false, if_true, hf, hfuel, hloop, hjoin, NewRegexpFilter, hrx]
  have hdel : delimAt sr (-1) = .ok ([' '], -1) := delimAt_neg _ _ (by decide)
  have hi : ((sr.length : Nat) : Int) - 1 = (b1.length : Int) + b2.length + 3 := by
    rw [hlen]
    push_cast
    omega
  unfold CompileExtractor
  simp only [hi]
  rw [hlen, compileLoop_step lib _ _ _ _ (by omega) _ _ _ _ _ hsel hdel,
    compileLoop_done lib _ _ _ _ (by decide)]
  simp only [List.nil_append, reverseInPlace_singleton]

/-- Witness for C9: the regexp `\w/`, written `/\w\//`. -/
theorem CompileExtractor_escaped_slash_witness :
    CompileExtractor demoLib "/\\w\\//".toList =
      .ok [{ delim := [' '], tokenize := .greedy, filter := .regexp { expr := "\\w/".toList } }] :=
  CompileExtractor_escaped_slash demoLib "\\w".toList [] (by decide) (by decide)
    (fun p x e => by
      have : 'w' = x := snoc_inj (a := ['\\']) e
      subst this
      decide)
    rfl

/-! ### Arguments that end in an unexpected rune -/

theorem parseUintLoop_last_not_digit (x : List Char) (r : Char) (hr : isAsciiDigit r = false)
    (n : Nat) : ∃ e, parseUintLoop (x ++ [r]) n = .error e := by
  induction x generalizing n with
  | nil =>
    have h : ¬ (0x30 ≤ r.toNat ∧ r.toNat ≤ 0x39) := by simpa [isAsciiDigit] using hr
    exact ⟨.ErrSyntax, by simp only [List.nil_append, parseUintLoop, h, if_false]⟩
  | cons c cs ih =>
    rw [List.cons_append, parseUintLoop]
    simp only
    split_ifs
    · exact ⟨_, rfl⟩
    · exact ⟨_, rfl⟩
    · exact ih _
    · exact ⟨_, rfl⟩

theorem ParseUint_last_not_digit (x : List Char) (r : Char) (hr : isAsciiDigit r = false) :
    ∃ e, ParseUint (x ++ [r]) = .error e := by
  rw [ParseUint, if_neg (by simp)]
  exact parseUintLoop_last_not_digit x r hr 0

theorem ParseInt_last_not_digit (m : List Char) (r : Char) (hr : isAsciiDigit r = false) :
    ∃ e, ParseInt (m ++ [r]) = .error e := by
  have key : ∀ ds : List Char, (ds = [] ∨ ∃ x, ds = x ++ [r]) → ∃ e, ParseUint ds = .error e := by
    intro ds h
    rcases h with rfl | ⟨x, rfl⟩
    · exact ⟨.ErrSyntax, rfl⟩
    · exact ParseUint_last_not_digit x r hr
  cases m with
  | nil =>
    obtain ⟨e, he⟩ := key (if r = '+' ∨ r = '-' then [] else [r])
      (by split_ifs; exacts [Or.inl rfl, Or.inr ⟨[], rfl⟩])
    simp only [List.nil_append, ParseInt, he]
    cases e <;> exact ⟨_, rfl⟩
  | cons c cs =>
    obtain ⟨e, he⟩ := key (if c = '+' ∨ c = '-' then cs ++ [r] else c :: (cs ++ [r]))
      (by split_ifs; exacts [Or.inr ⟨cs, rfl⟩, Or.inr ⟨c :: cs, rfl⟩])
    simp only [List.cons_append, ParseInt, he]
    cases e <;> exact ⟨_, rfl⟩

theorem Atoi_last_not_digit (lib : GoLib) (m : List Char) (r : Char)
    (hr : isAsciiDigit r = false) : ∃ msg, Atoi lib (m ++ [r]) = .error (.error msg) := by
  obtain ⟨e, he⟩ := ParseInt_last_not_digit m r hr
  exact ⟨_, by rw [Atoi, he]⟩

theorem not_colon_of_IsDigit (lib : GoLib) (c : Char) (h : IsDigit lib c = true) : c ≠ ':' := by
  rintro rfl
  revert h
  simp [IsDigit]

theorem ParseFieldRange_last_not_digit (lib : GoLib) (m : List Char) (r : Char)
    (hm : ':' ∉ m) (hd : IsDigit lib r = true) (hr : isAsciiDigit r = false) :
    ∃ msg, ParseFieldRange lib (m ++ [r]) = .error (.error msg) := by
  have hidx : IndexByte (m ++ [r]) ':' = -1 := by
    apply IndexByte_not_mem
    intro h
    rcases List.mem_append.mp h with h | h
    · exact hm h
    · exact not_colon_of_IsDigit lib r hd (List.mem_singleton.mp h).symm
  obtain ⟨msg, hmsg⟩ := Atoi_last_not_digit lib m r hr
  exact ⟨msg, by simp only [ParseFieldRange, hidx, if_true, hmsg]⟩

/-- What the scan `findf` returns on the runes before the cursor `k`. -/
theorem findfLoop_spec (sr : List Char) (f : Char → Bool) (k : Nat) (hk : k ≤ sr.length) :
    (findfLoop sr f k = .ok (-1) ∧ ∀ c ∈ sr.take k, f c = false) ∨
    (∃ a c b, sr.take k = a ++ c :: b ∧ f c = true ∧ (∀ x ∈ b, f x = false) ∧
      findfLoop sr f k = .ok (a.length : Int)) := by
  induction k with
  | zero => exact Or.inl ⟨rfl, by simp⟩
  | succ k ih =>
    have hlt : k < sr.length := by omega
    have htake : sr.take (k + 1) = sr.take k ++ [sr[k]] := by
      rw [List.take_succ, List.getElem?_eq_getElem hlt]
      rfl
    have hr : runeAt sr (k : Int) = .ok sr[k] := by
      have h0 : ¬ ((k : Int) < 0) := by omega
      rw [runeAt, if_neg h0, Int.toNat_ofNat, List.getElem?_eq_getElem hlt]
    rw [findfLoop, hr]
    by_cases hf : f sr[k] = true
    · refine Or.inr ⟨sr.take k, sr[k], [], htake, hf, by simp, ?_⟩
      simp only [hf, if_true, List.length_take, Nat.min_eq_left (Nat.le_of_lt hlt)]
    · have hf' : f sr[k] = false := by simpa using hf
      simp only [hf', Bool.false_eq_true, if_false]
      rcases ih (by omega) with ⟨h1, h2⟩ | ⟨a, c, b, h1, h2, h3, h4⟩
      · refine Or.inl ⟨h1, ?_⟩
        intro x hx
        rw [htake] at hx
        rcases List.mem_append.mp hx with hx | hx
        · exact h2 x hx
        · rw [List.mem_singleton.mp hx]; exact hf'
      · refine Or.inr ⟨a, c, b ++ [sr[k]], by rw [htake, h1]; simp, h2, ?_, h4⟩
        intro x hx
        rcases List.mem_append.mp hx with hx | hx
        · exact h3 x hx
        · rw [List.mem_singleton.mp hx]; exact hf'

theorem selectorAt_unexpected_last (lib : GoLib) (pre : List Char) (r : Char)
    (h1 : r ≠ '}') (h2 : r ≠ '/') (h3 : isAsciiDigit r = false) :
    ∃ msg, selectorAt lib (pre ++ [r]) (pre.length : Int) = .error (.error msg) := by
  have hr : runeAt (pre ++ [r]) (pre.length : Int) = .ok r := runeAt_append pre r []
  by_cases hd : IsDigit lib r = true
  · have hcolon : ∀ b : List Char, (∀ x ∈ b, (!IsDigit lib x) = false) → ':' ∉ b := by
      intro b hb hm
      have := hb ':' hm
      simp [IsDigit] at this
    have htake : (pre ++ [r]).take pre.length = pre := by simp
    have hspec := findfLoop_spec (pre ++ [r]) (fun r => !IsDigit lib r) pre.length (by simp)
    rw [htake] at hspec
    rcases hspec with ⟨hf, hall⟩ | ⟨a, c, b, hpre, hc, hb, hf⟩
    · -- every rune of the argument is a digit
      have hs : slice (pre ++ [r]) ((-1 : Int) + 1) ((pre.length : Int) + 1)
          = .ok (pre ++ [r]) := by
        have e := slice_append [] (pre ++ [r]) []
        simp only [List.nil_append, List.append_nil, List.length_nil, Nat.cast_zero, zero_add,
          List.length_append, List.length_singleton, Nat.cast_add, Nat.cast_one] at e
        simpa using e
      obtain ⟨msg, hmsg⟩ := ParseFieldRange_last_not_digit lib pre r (hcolon pre hall) hd h3
      refine ⟨msg, ?_⟩
      have c1 : ¬ ((-1 : Int) > -1) := by decide
      unfold selectorAt
      simp only [hr, h1, h2, if_false, hd, if_true, findf, Int.toNat_ofNat, hf, c1,
        Bool.false_eq_true, hs, hmsg]
    · have hra : runeAt (pre ++ [r]) (a.length : Int) = .ok c := by
        rw [hpre]
        have : a ++ c :: b ++ [r] = a ++ c :: (b ++ [r]) := by simp
        rw [this, runeAt_append]
      have c1 : (a.length : Int) > -1 := by omega
      have hlen : (pre.length : Int) = (a.length : Int) + 1 + b.length := by
        rw [hpre]
        simp
        omega
      by_cases hminus : c = '-'
      · have hs : slice (pre ++ [r]) ((a.length : Int) - 1 + 1) ((pre.length : Int) + 1)
            = .ok (c :: b ++ [r]) := by
          have e := slice_append a (c :: b ++ [r]) []
          have e1 : a ++ (c :: b ++ [r]) ++ [] = pre ++ [r] := by rw [hpre]; simp
          have e2 : (a.length : Int) + ((c :: b ++ [r]).length : Nat)
              = (pre.length : Int) + 1 := by
            rw [hlen]
            simp
            omega
          have e3 : (a.length : Int) - 1 + 1 = (a.length : Int) := by omega
          rw [e1, e2] at e
          rw [e3, e]
        obtain ⟨msg, hmsg⟩ := ParseFieldRange_last_not_digit lib (c :: b) r
          (by
            intro hm
            rcases List.mem_cons.mp hm with hm | hm
            · rw [hminus] at hm; revert hm; decide
            · exact hcolon b hb hm) hd h3
        refine ⟨msg, ?_⟩
        rw [List.cons_append] at hmsg
        have hbeq : (c == '-') = true := by simpa using hminus
        unfold selectorAt
        simp only [hr, h1, h2, if_false, hd, if_true, findf, Int.toNat_ofNat, hf, c1, hra,
          Except.map, hbeq, hs, List.cons_append, hmsg]
      · have hs : slice (pre ++ [r]) ((a.length : Int) + 1) ((pre.length : Int) + 1)
            = .ok (b ++ [r]) := by
          have e := slice_append (a ++ [c]) (b ++ [r]) []
          have e1 : a ++ [c] ++ (b ++ [r]) ++ [] = pre ++ [r] := by rw [hpre]; simp
          have e2 : ((a ++ [c]).length : Int) + ((b ++ [r]).length : Nat)
              = (pre.length : Int) + 1 := by
            rw [hlen]
            simp
            omega
          have e3 : ((a ++ [c]).length : Int) = (a.length : Int) + 1 := by simp
          rw [e1, e2, e3] at e
          exact e
        obtain ⟨msg, hmsg⟩ := ParseFieldRange_last_not_digit lib b r (hcolon b hb) hd h3
        refine ⟨msg, ?_⟩
        have hbeq : (c == '-') = false := by simpa using hminus
        unfold selectorAt
        simp only [hr, h1, h2, if_false, hd, if_true, findf, Int.toNat_ofNat, hf, c1, hra,
          Except.map, hbeq, Bool.false_eq_true, hs, hmsg]
  · refine ⟨"unexpected ".toList ++ QuoteRune lib r ++ " in selector".toList, ?_⟩
    unfold selectorAt
    simp only [hr, h1, h2, if_false, hd, Bool.false_eq_true]

/-- C10: for every non-empty argument whose last rune is not `}`, not `/` and
not an ASCII digit, `CompileExtractor` returns an error, and no extractor. -/
theorem CompileExtractor_unexpected_last (lib : GoLib) (pre : List Char) (r : Char)
    (h1 : r ≠ '}') (h2 : r ≠ '/') (h3 : isAsciiDigit r = false) :
    ∃ msg, CompileExtractor lib (pre ++ [r]) = .error (.error msg) := by
  obtain ⟨msg, hmsg⟩ := selectorAt_unexpected_last lib pre r h1 h2 h3
  refine ⟨msg, ?_⟩
  have hi : (((pre ++ [r]).length : Nat) : Int) - 1 = (pre.length : Int) := by simp
  unfold CompileExtractor
  simp only [hi]
  rw [compileLoop_error lib _ _ _ _ (by omega) _ hmsg]

/-- Witness for C10: the argument `1x`. -/
theorem CompileExtractor_unexpected_last_witness :
    ∃ msg, CompileExtractor demoLib "1x".toList = .error (.error msg) :=
  CompileExtractor_unexpected_last demoLib ['1'] 'x' (by decide) (by decide) (by decide)

/-! ### Selection never fails -/

theorem reduceOption_of_map_some {α : Type} (out : List α) (l : List (Option α))
    (h : out.map some = l) : l.reduceOption = out := by
  subst h
  induction out with
  | nil => rfl
  | cons a as _ => simp [List.reduceOption]

theorem FieldRange.Select_eq_rangeSelected (r : FieldRange) (fields : List Str) (zero : Str) :
    r.Select fields zero = .ok (rangeSelected r fields zero) := by
  have hrange : ∀ (a : Int) (c : Nat), 1 ≤ a → (a - 1).toNat + c ≤ fields.length →
      ((List.range c).map (fun (k : Nat) => tokenAt fields (a + (k : Int)))).reduceOption
        = (fields.drop (a - 1).toNat).take c := fun a c h1 h2 =>
    reduceOption_of_map_some _ _ (map_some_take_drop fields a c h1 h2)
  by_cases hz : r.Start = 0 ∧ r.End = 0
  · simp [FieldRange.Select, rangeSelected, selectRef, hz, List.reduceOption]
  · rw [select_nonzero r fields zero hz]
    simp only [rangeSelected, selectRef, if_neg hz, ← abs_eq]
    generalize Fex.abs r.Start fields.length = a
    generalize Fex.abs r.End fields.length = b
    by_cases h : a ≤ 0 ∨ a > (fields.length : Int)
    · simp [h, List.reduceOption]
    · rw [if_neg h, if_neg h, positions, List.map_map]
      have hc : (a - 1).toNat + (min (max b a) (fields.length : Int) + 1 - a).toNat
          ≤ fields.length := by omega
      exact congrArg Except.ok (hrange a _ (by omega) hc).symm

theorem groupSelectLoop_eq (fields : List Str) (zero : Str) (g : List FieldRange) :
    ∀ fs : List Str, groupSelectLoop fields zero g fs =
      .ok (fs ++ (g.map (fun r => rangeSelected r fields zero)).flatten) := by
  induction g with
  | nil => intro fs; simp [groupSelectLoop]
  | cons r rest ih =>
    intro fs
    rw [groupSelectLoop, FieldRange.Select_eq_rangeSelected]
    simp only
    rw [ih]
    simp

theorem Filter.Select_eq_filterSelected (lib : GoLib) (f : Filter) (fields : List Str)
    (zero : Str) : f.Select lib fields zero = .ok (filterSelected lib f fields zero) := by
  cases f with
  | fieldRange r => exact FieldRange.Select_eq_rangeSelected r fields zero
  | group g =>
    simp only [Filter.Select, Group.Select, filterSelected]
    rw [groupSelectLoop_eq]
    rfl
  | regexp rx => rfl

theorem Selector.Extract_eq_stageRef (lib : GoLib) (sel : Selector) (s : Str) :
    sel.Extract lib s = .ok (stageRef lib s sel) := by
  simp only [Selector.Extract, Filter.Select_eq_filterSelected, stageRef]

theorem Extractor.Extract_eq_extractRef (lib : GoLib) (ex : Extractor) (s : Str) :
    Extractor.Extract lib ex s = .ok (extractRef lib ex s) := by
  unfold Extractor.Extract extractRef
  induction ex generalizing s with
  | nil => rfl
  | cons sel rest ih =>
    rw [extractLoop, Selector.Extract_eq_stageRef]
    simp only [List.foldl_cons]
    exact ih _

/-- C12: `Group.Select` returns the concatenation, in the order the ranges
are listed, of what `FieldRange.Select` returns for each member; so `{1,2,-1}`
over ten tokens yields the tokens 1, 2 and 10. -/
theorem Group.Select_concatenates (g : Group) (fields : List Str) (zero : Str) :
    (∃ parts : List (List Str),
      List.Forall₂ (fun fr part => FieldRange.Select fr fields zero = .ok part) g parts ∧
      Group.Select g fields zero = .ok parts.flatten) ∧
    Group.Select [⟨1, 1⟩, ⟨2, 2⟩, ⟨-1, -1⟩]
      [['1'], ['2'], ['3'], ['4'], ['5'], ['6'], ['7'], ['8'], ['9'], ['1', '0']] zero
      = .ok [['1'], ['2'], ['1', '0']] := by
  refine ⟨⟨g.map (fun r => rangeSelected r fields zero), ?_, ?_⟩, ?_⟩
  · induction g with
    | nil => exact List.Forall₂.nil
    | cons r rest ih =>
      exact List.Forall₂.cons (FieldRange.Select_eq_rangeSelected r fields zero) ih
  · rw [Group.Select, groupSelectLoop_eq]
    rfl
  · rfl

/-- C13: `Extractor.Extract` returns a nil error, and its result is the left
fold over the selectors of: tokenize the current string with the selector's
tokenizer and delimiter, select with its filter given the current string as
zero, join the selected tokens with the selector's delimiter.  This holds for
every extractor, in particular for those `CompileExtractor` returns. -/
theorem Extractor.Extract_total (lib : GoLib) (ex : Extractor) (s : Str) :
    Extractor.Extract lib ex s = .ok (ex.foldl (stageRef lib) s) ∧
    ∀ (f : Filter) (fields : List Str) (zero : Str),
      Filter.Select lib f fields zero = .ok (filterSelected lib f fields zero) :=
  ⟨Extractor.Extract_eq_extractRef lib ex s, Filter.Select_eq_filterSelected lib⟩

/-! ### The two tokenizers -/

theorem splitChar_not_mem (d : Char) (s : Str) (h : d ∉ s) : splitChar d s = [s] := by
  induction s with
  | nil => rfl
  | cons c cs ih =>
    have hc : c ≠ d := fun e => h (by simp [e])
    rw [splitChar, if_neg hc, ih (fun hm => h (by simp [hm]))]

theorem splitChar_append (d : Char) (a b : Str) (h : d ∉ a) :
    splitChar d (a ++ d :: b) = a :: splitChar d b := by
  induction a with
  | nil => simp [splitChar]
  | cons c cs ih =>
    have hc : c ≠ d := fun e => h (by simp [e])
    rw [List.cons_append, splitChar, if_neg hc, ih (fun hm => h (by simp [hm]))]

theorem first_occurrence (d : Char) (s : Str) (h : d ∈ s) :
    ∃ a b, s = a ++ d :: b ∧ d ∉ a := by
  induction s with
  | nil => simp at h
  | cons c cs ih =>
    by_cases hc : c = d
    · exact ⟨[], cs, by simp [hc], by simp⟩
    · have hm : d ∈ cs := by
        rcases List.mem_cons.mp h with e | e
        · exact absurd e.symm hc
        · exact e
      obtain ⟨a, b, hab, hna⟩ := ih hm
      refine ⟨c :: a, b, by simp [hab], ?_⟩
      intro hx
      rcases List.mem_cons.mp hx with e | e
      · exact hc e.symm
      · exact hna e

/-- With enough iterations, the loop of `strings.Split` for a one-rune
separator splits at every occurrence of the rune. -/
theorem genSplitLoop_eq_splitChar (d : Char) (fuel : Nat) :
    ∀ s : Str, s.length < fuel → genSplitLoop fuel s [d] = splitChar d s := by
  induction fuel with
  | zero => intro s h; omega
  | succ fuel ih =>
    intro s hs
    by_cases hd : d ∈ s
    · obtain ⟨a, b, rfl, hna⟩ := first_occurrence d s hd
      rw [genSplitLoop, Index_single_append a b d hna, splitChar_append d a b hna]
      simp only [List.length_singleton]
      rw [List.take_left, ← List.drop_drop, List.drop_left]
      simp only [List.drop_one, List.tail_cons]
      rw [ih b (by simp at hs; omega)]
    · rw [genSplitLoop, Index_single_not_mem s d hd, splitChar_not_mem d s hd]

theorem NonGreedySplit_eq_splitChar (d : Char) (s : Str) :
    NonGreedySplit [d] s = splitChar d s := by
  rw [NonGreedySplit, Split, if_neg (by simp)]
  exact genSplitLoop_eq_splitChar d _ s (by omega)

theorem fieldsFuncAux_not_mem (f : Char → Bool) (s cur : Str) (h : ∀ c ∈ s, f c = false) :
    fieldsFuncAux f s cur = if cur.reverse ++ s = [] then [] else [cur.reverse ++ s] := by
  induction s generalizing cur with
  | nil => simp [fieldsFuncAux]
  | cons c cs ih =>
    have hc : f c = false := h c (by simp)
    rw [fieldsFuncAux]
    simp only [hc, Bool.false_eq_true, if_false]
    rw [ih (c :: cur) (fun x hx => h x (by simp [hx]))]
    simp

theorem fieldsFuncAux_append (f : Char → Bool) (d : Char) (a b cur : Str)
    (h : ∀ c ∈ a, f c = false) (hd : f d = true) :
    fieldsFuncAux f (a ++ d :: b) cur =
      (if cur.reverse ++ a = [] then [] else [cur.reverse ++ a]) ++ fieldsFuncAux f b [] := by
  induction a generalizing cur with
  | nil =>
    rw [List.nil_append, fieldsFuncAux]
    simp only [hd, if_true, List.append_nil, List.reverse_eq_nil_iff]
    split_ifs <;> simp
  | cons c cs ih =>
    have hc : f c = false := h c (by simp)
    rw [List.cons_append, fieldsFuncAux]
    simp only [hc, Bool.false_eq_true, if_false]
    rw [ih (c :: cur) (fun x hx => h x (by simp [hx]))]
    simp

theorem GreedySplit_not_mem (d : Char) (s : Str) (h : d ∉ s) :
    GreedySplit [d] s = if s = [] then [] else [s] := by
  rw [GreedySplit, FieldsFunc, fieldsFuncAux_not_mem _ s [] (fun c hc => by
    have : c ≠ d := fun e => h (e ▸ hc)
    simp [this])]
  simp

theorem GreedySplit_append (d : Char) (a b : Str) (h : d ∉ a) :
    GreedySplit [d] (a ++ d :: b) = (if a = [] then [] else [a]) ++ GreedySplit [d] b := by
  rw [GreedySplit, FieldsFunc, fieldsFuncAux_append _ d a b [] (fun c hc => by
    have : c ≠ d := fun e => h (e ▸ hc)
    simp [this]) (by simp)]
  simp [GreedySplit, FieldsFunc]

/-- Induction on a string along the occurrences of a rune. -/
theorem split_induction (d : Char) (P : Str → Prop)
    (h0 : ∀ s, d ∉ s → P s) (h1 : ∀ a b, d ∉ a → P b → P (a ++ d :: b)) : ∀ s, P s := by
  intro s
  obtain ⟨n, hn⟩ : ∃ n, s.length = n := ⟨_, rfl⟩
  induction n using Nat.strong_induction_on generalizing s with
  | _ n ih =>
    by_cases hd : d ∈ s
    · obtain ⟨a, b, rfl, hna⟩ := first_occurrence d s hd
      exact h1 a b hna (ih b.length (by rw [← hn]; simp; omega) b rfl)
    · exact h0 s hd

theorem GreedySplit_eq_filter (d : Char) (s : Str) :
    GreedySplit [d] s = (NonGreedySplit [d] s).filter (fun t => !t.isEmpty) := by
  rw [NonGreedySplit_eq_splitChar]
  refine split_induction d
    (fun s => GreedySplit [d] s = (splitChar d s).filter (fun t => !t.isEmpty)) ?_ ?_ s
  · intro s hs
    rw [GreedySplit_not_mem d s hs, splitChar_not_mem d s hs]
    cases s <;> simp
  · intro a b ha ih
    rw [GreedySplit_append d a b ha, splitChar_append d a b ha, ih]
    cases a <;> simp

theorem splitChar_pieces (d : Char) (s : Str) : ∀ t ∈ splitChar d s, d ∉ t := by
  refine split_induction d (fun s => ∀ t ∈ splitChar d s, d ∉ t) ?_ ?_ s
  · intro s hs t ht
    rw [splitChar_not_mem d s hs] at ht
    rw [List.mem_singleton.mp ht]
    exact hs
  · intro a b ha ih t ht
    rw [splitChar_append d a b ha] at ht
    rcases List.mem_cons.mp ht with e | e
    · rw [e]; exact ha
    · exact ih t e

theorem splitChar_length (d : Char) (s : Str) : (splitChar d s).length = s.count d + 1 := by
  refine split_induction d (fun s => (splitChar d s).length = s.count d + 1) ?_ ?_ s
  · intro s hs
    rw [splitChar_not_mem d s hs, List.count_eq_zero_of_not_mem hs]
    rfl
  · intro a b ha ih
    rw [splitChar_append d a b ha, List.length_cons, ih, List.count_append,
      List.count_eq_zero_of_not_mem ha, List.count_cons_self]
    omega

theorem Join_splitChar (d : Char) (s : Str) : Join (splitChar d s) [d] = s := by
  refine split_induction d (fun s => Join (splitChar d s) [d] = s) ?_ ?_ s
  · intro s hs
    rw [splitChar_not_mem d s hs]
    rfl
  · intro a b ha ih
    rw [splitChar_append d a b ha]
    cases hsb : splitChar d b with
    | nil =>
      have := splitChar_length d b
      rw [hsb] at this
      simp at this
    | cons t ts =>
      rw [Join_cons_cons, ← hsb, ih]
      simp

/-- C18: for a one-rune delimiter `d`, `GreedySplit` is `NonGreedySplit` with
the empty tokens removed; greedy tokens are non-empty and contain no `d`;
non-greedy keeps a token between any two delimiters, so it returns one token
more than there are delimiters, and joining them with `d` gives the input
back.  `a:::b:::c` gives `[a, b, c]` and `[a, "", "", b, "", "", c]`. -/
theorem GreedySplit_vs_NonGreedySplit (d : Char) (s : Str) :
    GreedySplit [d] s = (NonGreedySplit [d] s).filter (fun t => !t.isEmpty) ∧
    (∀ t ∈ GreedySplit [d] s, t ≠ [] ∧ d ∉ t) ∧
    (NonGreedySplit [d] s).length = s.count d + 1 ∧
    Join (NonGreedySplit [d] s) [d] = s ∧
    GreedySplit [':'] "a:::b:::c".toList = [['a'], ['b'], ['c']] ∧
    NonGreedySplit [':'] "a:::b:::c".toList = [['a'], [], [], ['b'], [], [], ['c']] := by
  refine ⟨GreedySplit_eq_filter d s, ?_, ?_, ?_, by decide, by decide⟩
  · intro t ht
    rw [GreedySplit_eq_filter, NonGreedySplit_eq_splitChar, List.mem_filter] at ht
    refine ⟨?_, splitChar_pieces d s t ht.1⟩
    intro e
    rw [e] at ht
    simp at ht
  · rw [NonGreedySplit_eq_splitChar, splitChar_length]
  · rw [NonGreedySplit_eq_splitChar, Join_splitChar]

/-! ### Writing one line of output -/

theorem byteLen_nil : byteLen [] = 0 := rfl

theorem byteLen_nonneg (s : Str) : 0 ≤ byteLen s := by
  unfold byteLen
  exact Int.natCast_nonneg _

theorem byteLen_append (a b : Str) : byteLen (a ++ b) = byteLen a + byteLen b := by
  simp [byteLen]

theorem byteLen_pos (s : Str) (h : s ≠ []) : 0 < byteLen s := by
  cases s with
  | nil => exact absurd rfl h
  | cons c cs =>
    have h1 : 0 < c.utf8Size := Char.utf8Size_pos c
    have h2 := byteLen_nonneg cs
    have h3 : byteLen (c :: cs) = (c.utf8Size : Int) + byteLen cs := by simp [byteLen]
    omega

theorem byteLen_cons (c : Char) (s : Str) : byteLen (c :: s) = byteLen [c] + byteLen s :=
  byteLen_append [c] s

theorem Fex.write_eq (f : Fex) (s : Str) :
    f.write s = ({ f with Stdout := f.Stdout ++ s }, byteLen s) := by
  unfold Fex.write
  by_cases h : s = []
  · subst h
    simp [byteLen_nil]
  · simp [h]

theorem Join_cons_eq (r : Str) (rs : List Str) :
    Join (r :: rs) [' '] = r ++ (rs.map (fun x => ' ' :: x)).flatten := by
  induction rs generalizing r with
  | nil => simp [Join]
  | cons x xs ih => rw [Join_cons_cons, ih x]; simp

theorem processLoop_pos (lib : GoLib) (line : Str) (ops : List Extractor) :
    ∀ (i : Int) (f : Fex) (w : Int), 0 < i →
      processLoop lib line ops i f w =
        ({ f with Stdout := f.Stdout ++
            ((ops.map (fun op => extractRef lib op line)).map (fun x => ' ' :: x)).flatten },
         .ok (w + byteLen
            ((ops.map (fun op => extractRef lib op line)).map (fun x => ' ' :: x)).flatten)) := by
  induction ops with
  | nil => intro i f w _; simp [processLoop, byteLen_nil]
  | cons op rest ih =>
    intro i f w hi
    rw [processLoop, Extractor.Extract_eq_extractRef]
    simp only [hi, if_true, Fex.write_eq]
    rw [ih (i + 1) _ _ (by omega)]
    simp only [List.map_cons, List.flatten_cons, List.append_assoc,
      List.singleton_append, List.cons_append]
    refine Prod.ext rfl ?_
    have hc := byteLen_cons ' ' (extractRef lib op line ++
      (List.map (fun x => ' ' :: x) (List.map (fun op => extractRef lib op line) rest)).flatten)
    rw [byteLen_append] at hc
    simp only [hc]
    congr 1
    omega

theorem processLoop_zero (lib : GoLib) (line : Str) (ops : List Extractor) (f : Fex) :
    processLoop lib line ops 0 f 0 =
      ({ f with Stdout := f.Stdout ++ Join (ops.map (fun op => extractRef lib op line)) [' '] },
       .ok (byteLen (Join (ops.map (fun op => extractRef lib op line)) [' ']))) := by
  cases ops with
  | nil => simp [processLoop, Join, byteLen_nil]
  | cons op rest =>
    have h0 : ¬ ((0 : Int) > 0) := by decide
    rw [processLoop, Extractor.Extract_eq_extractRef]
    simp only [h0, if_false, Fex.write_eq]
    rw [processLoop_pos lib line rest _ _ _ (by decide), List.map_cons, Join_cons_eq]
    simp only [List.append_assoc, byteLen_append]
    refine Prod.ext rfl ?_
    simp

/-- What `processLine` writes: the results joined by single spaces, and a
newline when that text is not empty. -/
theorem Fex.processLine_eq (lib : GoLib) (f : Fex) (line : Str) (ops : List Extractor) :
    f.processLine lib line ops =
      ({ f with Stdout := f.Stdout ++ lineText lib line ops ++
          (if lineText lib line ops = [] then [] else ['\n']) }, .ok ()) := by
  unfold Fex.processLine lineText trimLine
  simp only [processLoop_zero]
  generalize Join (ops.map (fun op =>
    extractRef lib op (TrimSuffix (TrimSuffix line ['\n']) ['\r']))) [' '] = T
  by_cases hT : T = []
  · subst hT
    simp [byteLen_nil]
  · have := byteLen_pos T hT
    simp [this, hT, Fex.write_eq]

theorem forall2_extractRef (lib : GoLib) (s : Str) (ops : List Extractor) :
    List.Forall₂ (fun op r => Extractor.Extract lib op s = .ok r) ops
      (ops.map (fun op => extractRef lib op s)) := by
  induction ops with
  | nil => exact List.Forall₂.nil
  | cons op rest ih => exact List.Forall₂.cons (Extractor.Extract_eq_extractRef lib op s) ih

theorem Join_space_eq_nil (rs : List Str) :
    Join rs [' '] = [] ↔ rs.length ≤ 1 ∧ ∀ r ∈ rs, r = [] := by
  cases rs with
  | nil => simp [Join]
  | cons r rest =>
    cases rest with
    | nil => simp [Join]
    | cons x xs => simp [Join_cons_cons]

theorem Join_space_all_empty (rs : List Str) (h : ∀ r ∈ rs, r = []) :
    Join rs [' '] = List.replicate (rs.length - 1) ' ' := by
  induction rs with
  | nil => rfl
  | cons r rest ih =>
    have hr : r = [] := h r (by simp)
    subst hr
    cases rest with
    | nil => rfl
    | cons x xs =>
      rw [Join_cons_cons, ih (fun y hy => h y (by simp [hy]))]
      simp [List.replicate_succ]

theorem extractRef_of_Extract (lib : GoLib) (op : Extractor) (s r : Str)
    (h : Extractor.Extract lib op s = .ok r) : extractRef lib op s = r := by
  rw [Extractor.Extract_eq_extractRef] at h
  exact Except.ok.inj h

theorem TrimSuffix_single (s : Str) (c : Char) : TrimSuffix s [c] = stripTrailing c s := by
  rcases eq_nil_or_snoc s with rfl | ⟨p, x, rfl⟩
  · rfl
  · by_cases hx : x = c
    · subst hx
      simp [TrimSuffix, stripTrailing, List.isSuffixOf]
    · have hx' : ¬ (c = x) := fun e => hx e.symm
      simp [TrimSuffix, stripTrailing, List.isSuffixOf, hx, hx']

/-- The two calls of `strings.TrimSuffix` in `processLine` drop a trailing
newline and then a trailing carriage return. -/
theorem TrimSuffix_eq_strippedLine (line : Str) :
    TrimSuffix (TrimSuffix line ['\n']) ['\r'] = strippedLine line := by
  rw [TrimSuffix_single, TrimSuffix_single, strippedLine]

/-- C14: when at least one extractor yields a non-empty string for the line
without its trailing newline and, after that, its trailing carriage return,
`processLine` writes to stdout exactly the results of the extractors on that
stripped line, joined by single spaces in argument order and followed by one
newline, and returns no error. -/
theorem Fex.processLine_writes_joined (lib : GoLib) (f : Fex) (line : Str)
    (ops : List Extractor)
    (h : ∃ op ∈ ops, ∃ r, Extractor.Extract lib op (strippedLine line) = .ok r ∧ r ≠ []) :
    ∃ results : List Str,
      List.Forall₂ (fun op r => Extractor.Extract lib op (strippedLine line) = .ok r)
        ops results ∧
      f.processLine lib line ops =
        ({ f with Stdout := f.Stdout ++ Join results [' '] ++ ['\n'] }, .ok ()) := by
  refine ⟨ops.map (fun op => extractRef lib op (strippedLine line)),
    forall2_extractRef lib _ ops, ?_⟩
  obtain ⟨op, hop, r, hr, hne⟩ := h
  have hT : lineText lib line ops ≠ [] := by
    intro e
    have := ((Join_space_eq_nil _).mp e).2 (extractRef lib op (trimLine line))
      (List.mem_map.mpr ⟨op, hop, rfl⟩)
    rw [trimLine, TrimSuffix_eq_strippedLine, extractRef_of_Extract lib op _ r hr] at this
    exact hne this
  rw [Fex.processLine_eq, if_neg hT, lineText, trimLine, TrimSuffix_eq_strippedLine]

/-- Witness for C14: the extractor `2` over the line `a b` ended by a carriage
return and a newline writes `b` and a newline, the line being stripped to
`a b` first; and the extractors `1` and `3` over the line `1 2 3 4 5` write
`1 3` and a newline. -/
theorem Fex.processLine_writes_joined_witness :
    CompileExtractor demoLib ['2'] = .ok [simpleSelector [' '] ['2']] ∧
    strippedLine "a b\r\n".toList = "a b".toList ∧
    (Fex.processLine demoLib ⟨[], [], [], [], []⟩ "a b\r\n".toList
      [[simpleSelector [' '] ['2']]]).1.Stdout = "b\n".toList ∧
    (∃ results : List Str,
      List.Forall₂ (fun op r => Extractor.Extract demoLib op
          (strippedLine "a b\r\n".toList) = .ok r)
        [[simpleSelector [' '] ['2']]] results ∧
      Fex.processLine demoLib ⟨[], [], [], [], []⟩ "a b\r\n".toList
          [[simpleSelector [' '] ['2']]] =
        ({ (⟨[], [], [], [], []⟩ : Fex) with Stdout := [] ++ Join results [' '] ++ ['\n'] },
          .ok ())) ∧
    CompileExtractor demoLib ['1'] = .ok [simpleSelector [' '] ['1']] ∧
    CompileExtractor demoLib ['3'] = .ok [simpleSelector [' '] ['3']] ∧
    (Fex.processLine demoLib ⟨[], [], [], [], []⟩ "1 2 3 4 5\n".toList
      [[simpleSelector [' '] ['1']], [simpleSelector [' '] ['3']]]).1.Stdout
      = "1 3\n".toList ∧
    ∃ results : List Str,
      List.Forall₂ (fun op r => Extractor.Extract demoLib op
          (strippedLine "1 2 3 4 5\n".toList) = .ok r)
        [[simpleSelector [' '] ['1']], [simpleSelector [' '] ['3']]] results ∧
      Fex.processLine demoLib ⟨[], [], [], [], []⟩ "1 2 3 4 5\n".toList
          [[simpleSelector [' '] ['1']], [simpleSelector [' '] ['3']]] =
        ({ (⟨[], [], [], [], []⟩ : Fex) with Stdout := [] ++ Join results [' '] ++ ['\n'] },
          .ok ()) :=
  ⟨rfl, by decide, by decide,
   Fex.processLine_writes_joined demoLib ⟨[], [], [], [], []⟩ "a b\r\n".toList
     [[simpleSelector [' '] ['2']]]
     ⟨[simpleSelector [' '] ['2']], by simp, ['b'], rfl, by decide⟩,
   rfl, rfl, by decide,
   Fex.processLine_writes_joined demoLib ⟨[], [], [], [], []⟩ "1 2 3 4 5\n".toList
     [[simpleSelector [' '] ['1']], [simpleSelector [' '] ['3']]]
     ⟨[simpleSelector [' '] ['1']], by simp, ['1'], rfl, by decide⟩⟩

/-- C15, as stated, fails: two extractors compiled from `9`, each yielding
the empty string for the line `a`, make `processLine` write a space and a
newline. -/
theorem Fex.processLine_all_empty_counterexample :
    CompileExtractor demoLib ['9'] = .ok [simpleSelector [' '] ['9']] ∧
    Extractor.Extract demoLib [simpleSelector [' '] ['9']] ['a'] = .ok [] ∧
    (Fex.processLine demoLib ⟨[], [], [], [], []⟩ ['a']
      [[simpleSelector [' '] ['9']], [simpleSelector [' '] ['9']]]).1.Stdout = [' ', '\n'] :=
  ⟨rfl, rfl, by decide⟩

/-- C15, amended: if every extractor yields the empty string for the line,
`processLine` writes nothing when there is at most one extractor, and the
`k - 1` separator spaces followed by a newline when there are `k ≥ 2`.  In
general the trailing newline is written exactly when something was written
before it: when some extractor produced non-empty output or there are two or
more extractors. -/
theorem Fex.processLine_all_empty (lib : GoLib) (f : Fex) (line : Str) (ops : List Extractor) :
    ((∀ op ∈ ops, Extractor.Extract lib op
        (TrimSuffix (TrimSuffix line ['\n']) ['\r']) = .ok []) →
      f.processLine lib line ops =
        ({ f with Stdout := f.Stdout ++
            (if ops.length ≤ 1 then [] else List.replicate (ops.length - 1) ' ' ++ ['\n']) },
          .ok ())) ∧
    ∃ results : List Str,
      List.Forall₂ (fun op r => Extractor.Extract lib op
        (TrimSuffix (TrimSuffix line ['\n']) ['\r']) = .ok r) ops results ∧
      f.processLine lib line ops =
        ({ f with Stdout := f.Stdout ++ Join results [' '] ++
            (if 2 ≤ ops.length ∨ ∃ r ∈ results, r ≠ [] then ['\n'] else []) }, .ok ()) := by
  have hlen : (ops.map (fun op => extractRef lib op (trimLine line))).length = ops.length :=
    List.length_map _ _
  constructor
  · intro hall
    have hempty : ∀ r ∈ ops.map (fun op => extractRef lib op (trimLine line)), r = [] := by
      intro r hr
      obtain ⟨op, hop, rfl⟩ := List.mem_map.mp hr
      exact extractRef_of_Extract lib op _ [] (hall op hop)
    have hT : lineText lib line ops = List.replicate (ops.length - 1) ' ' := by
      rw [lineText, Join_space_all_empty _ hempty, hlen]
    rw [Fex.processLine_eq, hT]
    by_cases h1 : ops.length ≤ 1
    · have h0 : ops.length - 1 = 0 := by omega
      simp [h1, h0]
    · have hne : List.replicate (ops.length - 1) ' ' ≠ [] := by
        intro e
        have := congrArg List.length e
        simp at this
        omega
      simp only [h1, if_false, hne, List.append_assoc]
  · refine ⟨ops.map (fun op => extractRef lib op (trimLine line)),
      forall2_extractRef lib _ ops, ?_⟩
    rw [Fex.processLine_eq]
    have hiff := Join_space_eq_nil (ops.map (fun op => extractRef lib op (trimLine line)))
    rw [hlen] at hiff
    by_cases hT : lineText lib line ops = []
    · have h2 := hiff.mp hT
      have hc : ¬ (2 ≤ ops.length ∨
          ∃ r ∈ ops.map (fun op => extractRef lib op (trimLine line)), r ≠ []) := by
        rintro (h | ⟨r, hr, hne⟩)
        · omega
        · exact hne (h2.2 r hr)
      rw [if_pos hT, if_neg hc]
      rfl
    · have hc : 2 ≤ ops.length ∨
          ∃ r ∈ ops.map (fun op => extractRef lib op (trimLine line)), r ≠ [] := by
        by_contra hcon
        push_neg at hcon
        exact hT (hiff.mpr ⟨by omega, hcon.2⟩)
      rw [if_neg hT, if_pos hc]
      rfl

/-- Witness for C15, amended: two extractors that yield nothing for the line `a`. -/
theorem Fex.processLine_all_empty_witness :
    Fex.processLine demoLib ⟨[], [], [], [], []⟩ ['a']
        [[simpleSelector [' '] ['9']], [simpleSelector [' '] ['9']]] =
      ({ (⟨[], [], [], [], []⟩ : Fex) with Stdout := [] ++
          (if [[simpleSelector [' '] ['9']], [simpleSelector [' '] ['9']]].length ≤ 1 then []
           else List.replicate
             ([[simpleSelector [' '] ['9']], [simpleSelector [' '] ['9']]].length - 1) ' '
             ++ ['\n']) }, .ok ()) :=
  (Fex.processLine_all_empty demoLib ⟨[], [], [], [], []⟩ ['a']
    [[simpleSelector [' '] ['9']], [simpleSelector [' '] ['9']]]).1
    (fun op hop => by
      simp only [List.mem_cons, List.mem_singleton, List.not_mem_nil, or_false, or_self] at hop
      subst hop
      rfl)

/-! ### Running the program -/

theorem compileArgs_first_error (lib : GoLib) (f : Fex) (pre : List Str) (a : Str)
    (post : List Str) (cause : Str)
    (hpre : ∀ p ∈ pre, ∃ ex, CompileExtractor lib p = .ok ex)
    (ha : CompileExtractor lib a = .error (.error cause)) :
    ∀ (i : Int) (ops : List Extractor),
      compileArgs lib f (pre ++ a :: post) i ops =
        .ok (.inl (f.errorf ("Error parsing extract ".toList ++
          fmtInt (i + pre.length + 1) ++ ": ".toList ++ Quote lib a ++ ": ".toList ++ cause))) := by
  induction pre with
  | nil =>
    intro i ops
    simp [compileArgs, ha]
  | cons p ps ih =>
    intro i ops
    obtain ⟨ex, hex⟩ := hpre p (by simp)
    rw [List.cons_append, compileArgs, hex]
    simp only
    rw [ih (fun q hq => hpre q (by simp [hq]))]
    have : i + 1 + (ps.length : Int) + 1 = i + ((p :: ps).length : Int) + 1 := by
      simp
      omega
    rw [this]

theorem lowerhex_ne_newline (n : Nat) : lowerhex n ≠ '\n' := by
  unfold lowerhex
  have h : n % 16 < 16 := Nat.mod_lt _ (by decide)
  generalize n % 16 = m at h
  interval_cases m <;> decide

theorem newline_not_mem_appendEscapedRune (lib : GoLib) (r q : Char) (hq : q ≠ '\n') :
    '\n' ∉ appendEscapedRune lib r q := by
  have hl : ∀ n, ¬ ('\n' = lowerhex n) := fun n e => lowerhex_ne_newline n e.symm
  unfold appendEscapedRune
  by_cases h1 : r = q ∨ r = '\\'
  · have hr : ¬ ('\n' = r) := by
      rcases h1 with h | h
      · rw [h]; exact fun e => hq e.symm
      · rw [h]; decide
    rw [if_pos h1]
    simp [hr]
  rw [if_neg h1]
  by_cases h2 : IsPrint lib r = true
  · have hr : ¬ ('\n' = r) := by
      rintro rfl
      revert h2
      simp [IsPrint]
    rw [if_pos h2]
    simp [hr]
  rw [if_neg h2]
  split_ifs <;> simp [hl]

theorem newline_not_mem_Quote (lib : GoLib) (s : Str) : '\n' ∉ Quote lib s := by
  unfold Quote
  simp only [List.mem_append, List.mem_singleton, List.mem_flatten, List.mem_map, not_or,
    not_exists, not_and]
  refine ⟨⟨by decide, ?_⟩, by decide⟩
  rintro l ⟨r, _, rfl⟩
  exact newline_not_mem_appendEscapedRune lib r '"' (by decide)

theorem fmtInt_natCast (n : Nat) : fmtInt (n : Int) = fmtUint n := by
  unfold fmtInt
  rw [if_neg (by omega), Int.natAbs_ofNat]

/-- C16, as stated, fails: the second argument is a regexp selector whose
pattern holds a newline; the message of `regexp.Compile` quotes the pattern as
it is, so the report `Run` writes to stderr is two lines long. -/
theorem Fex.Run_compile_error_counterexample :
    CompileExtractor parenLib ['1'] = .ok [simpleSelector [' '] ['1']] ∧
    CompileExtractor parenLib ['/', '(', '\n', '/'] =
      .error (.error "error parsing regexp: missing closing ): `(\n`".toList) ∧
    Fex.Run parenLib ⟨[], [], ['a'], [], []⟩ [['1'], ['/', '(', '\n', '/']] =
      .ok (1, ⟨[], [], ['a'], [],
        "Error parsing extract 2: \"/(\\n/\": error parsing regexp: missing closing ): `(\n`\n".toList⟩) ∧
    ("Error parsing extract 2: \"/(\\n/\": error parsing regexp: missing closing ): `(\n`\n".toList).count
      '\n' = 2 :=
  ⟨rfl, rfl, rfl, by decide⟩

/-- C16, amended: when the first element of `argv` is none of the flags `Run`
tests and the first argument that fails to compile is the one at position `k`,
`Run` returns status 1, leaves stdout and the input untouched, and writes to
stderr exactly `Error parsing extract k: <quoted argument>: <cause>` and a
newline, where `<cause>` is the error of `CompileExtractor`.  What is written
holds one newline more than the cause, so it is one line exactly when the cause
holds no newline.  The position is written as the decimal literal of `k`, and an
argument of printable ASCII runes other than the double quote and the backslash
is quoted by putting it between double quotes. -/
theorem Fex.Run_compile_error (lib : GoLib) (f : Fex) (pre : List Str) (a : Str)
    (post : List Str) (cause : Str)
    (hflag : ∀ arg0, (pre ++ a :: post).head? = some arg0 →
      arg0 ≠ "-h".toList ∧ arg0 ≠ "--help".toList ∧
      arg0 ≠ "-v".toList ∧ arg0 ≠ "--version".toList)
    (hpre : ∀ p ∈ pre, ∃ ex, CompileExtractor lib p = .ok ex)
    (ha : CompileExtractor lib a = .error (.error cause)) :
    Fex.Run lib f (pre ++ a :: post) =
      .ok (1, { f with Stderr := f.Stderr ++
        ("Error parsing extract ".toList ++ fmtInt ((pre.length : Int) + 1) ++ ": ".toList ++
          Quote lib a ++ ": ".toList ++ cause) ++ ['\n'] }) ∧
    (("Error parsing extract ".toList ++ fmtInt ((pre.length : Int) + 1) ++ ": ".toList ++
          Quote lib a ++ ": ".toList ++ cause) ++ ['\n']).count '\n' = cause.count '\n' + 1 ∧
    ('\n' ∉ cause →
      '\n' ∉ "Error parsing extract ".toList ++ fmtInt ((pre.length : Int) + 1) ++ ": ".toList ++
          Quote lib a ++ ": ".toList ++ cause) ∧
    ((∀ c ∈ fmtInt ((pre.length : Int) + 1), isAsciiDigit c = true) ∧
      decimalValue (fmtInt ((pre.length : Int) + 1)) = pre.length + 1) ∧
    ((∀ c ∈ a, (0x20 ≤ c.toNat ∧ c.toNat ≤ 0x7E) ∧ c ≠ '"' ∧ c ≠ '\\') →
      Quote lib a = '"' :: a ++ ['"']) := by
  have hhead : '\n' ∉ "Error parsing extract ".toList ++ fmtInt ((pre.length : Int) + 1) ++
      ": ".toList ++ Quote lib a ++ ": ".toList := by
    simp only [List.mem_append, not_or]
    exact ⟨⟨⟨⟨by decide, not_mem_fmtInt _ '\n' (by decide) (by decide)⟩, by decide⟩,
      newline_not_mem_Quote lib a⟩, by decide⟩
  have hk : fmtInt ((pre.length : Int) + 1) = fmtUint (pre.length + 1) := by
    rw [← fmtInt_natCast]
    rfl
  refine ⟨?_, ?_, ?_, ⟨?_, ?_⟩, Quote_plain lib a⟩
  · have hc := compileArgs_first_error lib f pre a post cause hpre ha 0 []
    rw [zero_add] at hc
    cases hargv : pre ++ a :: post with
    | nil => simp at hargv
    | cons arg0 rest =>
      obtain ⟨h1, h2, h3, h4⟩ := hflag arg0 (by rw [hargv]; rfl)
      rw [hargv] at hc
      simp only [Fex.Run, h1, h2, h3, h4, or_self, if_false, hc, Fex.errorf]
  · rw [List.count_append, List.count_append, List.count_eq_zero.mpr hhead]
    simp
  · intro hcause h
    rcases List.mem_append.mp h with h | h
    · exact hhead h
    · exact hcause h
  · rw [hk]
    exact fmtUint_digits _
  · rw [hk]
    exact decimalValue_fmtUint _

/-- Witness for C16: the arguments `1`, `x`, `y`, the second of which fails to
compile; and the argument of the test `BadAbsoluteRange`, with the line the
test expects on stderr. -/
theorem Fex.Run_compile_error_witness :
    Fex.Run demoLib ⟨[], [], ['a'], [], []⟩ [['1'], ['x'], ['y']] =
      .ok (1, ⟨[], [], ['a'], [],
        "Error parsing extract 2: \"x\": unexpected 'x' in selector\n".toList⟩) ∧
    Fex.Run demoLib ⟨[], [], ['a'], [], []⟩ ["\x7b1,3:1\x7d".toList] =
      .ok (1, ⟨[], [], ['a'], [],
        ("Error parsing extract 1: \"\x7b1,3:1\x7d\": cannot parse \"3:1\": " ++
          "start > end is invalid: 3 > 1\n").toList⟩) ∧
    ([] ++ ("Error parsing extract ".toList ++ fmtInt ((([['1']] : List Str).length : Int) + 1) ++
        ": ".toList ++ Quote demoLib ['x'] ++ ": ".toList ++
        "unexpected 'x' in selector".toList) ++ ['\n'] =
      "Error parsing extract 2: \"x\": unexpected 'x' in selector\n".toList) ∧
    (Fex.Run demoLib ⟨[], [], ['a'], [], []⟩ ([['1']] ++ ['x'] :: [['y']]) =
      .ok (1, { (⟨[], [], ['a'], [], []⟩ : Fex) with Stderr := [] ++
        ("Error parsing extract ".toList ++ fmtInt ((([['1']] : List Str).length : Int) + 1) ++
          ": ".toList ++ Quote demoLib ['x'] ++ ": ".toList ++
          "unexpected 'x' in selector".toList) ++ ['\n'] })) ∧
    (("Error parsing extract ".toList ++ fmtInt ((([['1']] : List Str).length : Int) + 1) ++
        ": ".toList ++ Quote demoLib ['x'] ++ ": ".toList ++
        "unexpected 'x' in selector".toList) ++ ['\n']).count '\n' =
      ("unexpected 'x' in selector".toList).count '\n' + 1 :=
  have h := Fex.Run_compile_error demoLib ⟨[], [], ['a'], [], []⟩ [['1']] ['x'] [['y']]
    "unexpected 'x' in selector".toList
    (fun arg0 h => by
      have : arg0 = ['1'] := by simpa using h.symm
      subst this
      decide)
    (fun p hp => by
      rw [List.mem_singleton.mp hp]
      exact ⟨_, rfl⟩)
    rfl
  ⟨rfl, rfl, by decide, h.1, h.2.1⟩

/-- C17: the flags `-h` and `--help` make `Run` return status 2, write the
usage text to stderr and nothing to stdout; the argument `-help` is not among
the flags `Run` tests: it is compiled as an extractor, which fails, and `Run`
returns status 1 with the report of a parse error on stderr. -/
theorem Fex.Run_help_flags (lib : GoLib) (f : Fex) (rest : List Str) :
    Fex.Run lib f ("-h".toList :: rest) = .ok (2, f.Usage) ∧
    Fex.Run lib f ("--help".toList :: rest) = .ok (2, f.Usage) ∧
    f.Usage.Stdout = f.Stdout ∧
    f.Usage.Stderr = f.Stderr ++ usageFormat f.Name ++ ['\n'] ∧
    Fex.Run lib f ("-help".toList :: rest) =
      .ok (1, { f with Stderr := f.Stderr ++
        "Error parsing extract 1: \"-help\": unexpected 'p' in selector".toList ++ ['\n'] }) :=
  ⟨rfl, rfl, rfl, rfl, rfl⟩

/-! ### The compiler reads only the runes up to the cursor -/

theorem runeAt_append_left (p post : List Char) (k : Int) (hk : k < p.length) :
    runeAt (p ++ post) k = runeAt p k := by
  unfold runeAt
  by_cases h0 : k < 0
  · simp [h0]
  · have hlt : k.toNat < p.length := by omega
    rw [if_neg h0, if_neg h0, List.getElem?_append_left hlt]

theorem slice_append_left (p post : List Char) (i j : Int) (hj : j ≤ p.length) :
    slice (p ++ post) i j = slice p i j := by
  unfold slice
  by_cases hbad : i < 0 ∨ j < 0 ∨ i > j
  · have h1 : i < 0 ∨ j < 0 ∨ i > ((p ++ post).length : Int) ∨ j > ((p ++ post).length : Int)
        ∨ i > j := by omega
    have h2 : i < 0 ∨ j < 0 ∨ i > (p.length : Int) ∨ j > (p.length : Int) ∨ i > j := by omega
    rw [if_pos h1, if_pos h2]
  · have h1 : ¬ (i < 0 ∨ j < 0 ∨ i > ((p ++ post).length : Int)
        ∨ j > ((p ++ post).length : Int) ∨ i > j) := by
      rw [List.length_append]
      push_cast
      omega
    have h2 : ¬ (i < 0 ∨ j < 0 ∨ i > (p.length : Int) ∨ j > (p.length : Int) ∨ i > j) := by
      omega
    rw [if_neg h1, if_neg h2, List.drop_append_of_le_length (by omega),
      List.take_append_of_le_length (by rw [List.length_drop]; omega)]

theorem findfLoop_append_left (p post : List Char) (f : Char → Bool) (k : Nat) (hk : k ≤ p.length) :
    findfLoop (p ++ post) f k = findfLoop p f k := by
  induction k with
  | zero => rfl
  | succ k ih =>
    rw [findfLoop, findfLoop, runeAt_append_left p post k (by omega), ih (by omega)]

theorem findfLoop_bounds (sr : List Char) (f : Char → Bool) (k : Nat) (q : Int)
    (hk : k ≤ sr.length) (h : findfLoop sr f k = .ok q) : -1 ≤ q ∧ q < k := by
  rcases findfLoop_spec sr f k hk with ⟨h1, _⟩ | ⟨a, c, b, h1, _, _, h4⟩
  · rw [h1] at h
    have := Except.ok.inj h
    omega
  · rw [h4] at h
    have hq := Except.ok.inj h
    have hlen := congrArg List.length h1
    rw [List.length_take, Nat.min_eq_left hk] at hlen
    simp at hlen
    omega

theorem runeAt_mem (sr : List Char) (k : Int) (c : Char) (h : runeAt sr k = .ok c) : c ∈ sr := by
  unfold runeAt at h
  split_ifs at h
  split at h
  · rename_i x hx
    have := Except.ok.inj h
    subst this
    exact List.getElem?_mem hx
  · cases h

theorem find_append_left (p post : List Char) (i : Int) (r : Char) (hi : i ≤ p.length) :
    find (p ++ post) i r = find p i r :=
  findfLoop_append_left p post _ _ (by omega)

theorem findf_append_left (p post : List Char) (i : Int) (f : Char → Bool) (hi : i ≤ p.length) :
    findf (p ++ post) i f = findf p i f :=
  findfLoop_append_left p post _ _ (by omega)

theorem find_bounds (sr : List Char) (i : Int) (r : Char) (q : Int) (h0 : 0 ≤ i)
    (hi : i ≤ sr.length) (h : find sr i r = .ok q) : -1 ≤ q ∧ q < i := by
  have := findfLoop_bounds sr _ _ q (by omega) h
  omega

theorem findf_bounds (sr : List Char) (i : Int) (f : Char → Bool) (q : Int) (h0 : 0 ≤ i)
    (hi : i ≤ sr.length) (h : findf sr i f = .ok q) : -1 ≤ q ∧ q < i := by
  have := findfLoop_bounds sr _ _ q (by omega) h
  omega

/-- Away from a slash, the selector read at the cursor depends only on the
runes up to the cursor. -/
theorem selectorAt_append_left (lib : GoLib) (p post : List Char) (i : Int) (h0 : 0 ≤ i)
    (hi : i < p.length) (hs : '/' ∉ p) :
    selectorAt lib (p ++ post) i = selectorAt lib p i := by
  unfold selectorAt
  rw [runeAt_append_left p post i hi]
  cases hr : runeAt p i with
  | error e => rfl
  | ok r =>
    have hrs : r ≠ '/' := fun e => hs (e ▸ runeAt_mem p i r hr)
    simp only [hrs, if_false]
    by_cases h1 : r = '}'
    · simp only [h1, if_true]
      rw [find_append_left p post i _ (by omega)]
      cases hf : find p i '{' with
      | error e => rfl
      | ok start =>
        simp only
        rw [slice_append_left p post _ i (by omega)]
    · simp only [h1, if_false]
      by_cases h2 : IsDigit lib r = true
      · simp only [h2, if_true]
        rw [findf_append_left p post i _ (by omega)]
        cases hf : findf p i (fun r => !IsDigit lib r) with
        | error e => rfl
        | ok start =>
          have hb := findf_bounds p i _ start h0 (by omega) hf
          simp only
          rw [runeAt_append_left p post start (by omega)]
          cases hm : (if start > -1 then (runeAt p start).map (fun c => c == '-')
              else .ok false) with
          | error e => rfl
          | ok minus =>
            simp only
            rw [slice_append_left p post _ (i + 1) (by omega)]
      · simp only [h2, Bool.false_eq_true, if_false]

/-- Away from a slash, reading a selector moves the cursor to the left. -/
theorem selectorAt_cursor (lib : GoLib) (p : List Char) (i : Int) (h0 : 0 ≤ i)
    (hi : i < p.length) (hs : '/' ∉ p) (t : splitFunc) (f : Filter) (i1 : Int)
    (h : selectorAt lib p i = .ok (t, f, i1)) : i1 < i := by
  unfold selectorAt at h
  cases hr : runeAt p i with
  | error e => rw [hr] at h; cases h
  | ok r =>
    have hrs : r ≠ '/' := fun e => hs (e ▸ runeAt_mem p i r hr)
    rw [hr] at h
    simp only [hrs, if_false] at h
    by_cases h1 : r = '}'
    · simp only [h1, if_true] at h
      cases hf : find p i '{' with
      | error e => rw [hf] at h; cases h
      | ok start =>
        have hb := find_bounds p i _ start h0 (by omega) hf
        rw [hf] at h
        simp only at h
        split_ifs at h
        split at h
        · cases h
        · split at h
          · cases h
          · have := Except.ok.inj h
            have := congrArg (fun x => x.2.2) this
            simp only at this
            omega
    · simp only [h1, if_false] at h
      by_cases h2 : IsDigit lib r = true
      · simp only [h2, if_true] at h
        cases hf : findf p i (fun r => !IsDigit lib r) with
        | error e => rw [hf] at h; cases h
        | ok start =>
          have hb := findf_bounds p i _ start h0 (by omega) hf
          rw [hf] at h
          simp only at h
          split at h
          · cases h
          · split at h
            · cases h
            · split at h
              · cases h
              · have := Except.ok.inj h
                have := congrArg (fun x => x.2.2) this
                simp only at this
                split_ifs at this <;> omega
      · simp only [h2, Bool.false_eq_true, if_false] at h
        cases h

theorem delimAt_append_left (p post : List Char) (i : Int) (hi : i < p.length) :
    delimAt (p ++ post) i = delimAt p i := by
  unfold delimAt
  rw [runeAt_append_left p post (i - 1) (by omega), runeAt_append_left p post i hi,
    slice_append_left p post i (i + 1) (by omega)]

theorem delimAt_cursor (sr : List Char) (i : Int) (sep : Str) (i2 : Int)
    (h : delimAt sr i = .ok (sep, i2)) : i2 ≤ i := by
  unfold delimAt at h
  split at h
  · cases h
  · split at h
    · cases h
    · split at h
      · have := congrArg (fun x => x.2) (Except.ok.inj h)
        simp only at this
        omega
      · split at h
        · cases h
        · have := congrArg (fun x => x.2) (Except.ok.inj h)
          simp only at this
          omega
  · split_ifs at h
    · split at h
      · cases h
      · have := congrArg (fun x => x.2) (Except.ok.inj h)
        simp only at this
        omega
    · have := congrArg (fun x => x.2) (Except.ok.inj h)
      simp only at this
      omega

theorem compileLoop_append_left (lib : GoLib) (p post : List Char) (hs : '/' ∉ p) (fuel : Nat) :
    ∀ (i : Int) (ex : List Selector), i < p.length →
      compileLoop lib (p ++ post) fuel i ex = compileLoop lib p fuel i ex := by
  induction fuel with
  | zero => intro i ex _; rfl
  | succ fuel ih =>
    intro i ex hi
    rw [compileLoop, compileLoop]
    by_cases h0 : i < 0
    · rw [if_pos h0, if_pos h0]
    · rw [if_neg h0, if_neg h0, selectorAt_append_left lib p post i (by omega) hi hs]
      cases hsel : selectorAt lib p i with
      | error e => rfl
      | ok res =>
        obtain ⟨t, f, i1⟩ := res
        have hc := selectorAt_cursor lib p i (by omega) hi hs t f i1 hsel
        simp only
        rw [delimAt_append_left p post i1 (by omega)]
        cases hdel : delimAt p i1 with
        | error e => rfl
        | ok res2 =>
          obtain ⟨sep, i2⟩ := res2
          have hc2 := delimAt_cursor p i1 sep i2 hdel
          simp only
          exact ih _ _ (by omega)

theorem compileLoop_acc (lib : GoLib) (sr : List Char) (ex0 : List Selector) (fuel : Nat) :
    ∀ (i : Int) (ex : List Selector),
      compileLoop lib sr fuel i (ex0 ++ ex) =
        match compileLoop lib sr fuel i ex with
        | .error e => .error e
        | .ok r => .ok (ex0 ++ r) := by
  induction fuel with
  | zero => intro i ex; rfl
  | succ fuel ih =>
    intro i ex
    rw [compileLoop, compileLoop]
    by_cases h0 : i < 0
    · rw [if_pos h0, if_pos h0]
    · rw [if_neg h0, if_neg h0]
      cases hsel : selectorAt lib sr i with
      | error e => rfl
      | ok res =>
        obtain ⟨t, f, i1⟩ := res
        simp only
        cases hdel : delimAt sr i1 with
        | error e => rfl
        | ok res2 =>
          obtain ⟨sep, i2⟩ := res2
          simp only
          rw [List.append_assoc]
          exact ih _ _

/-! ### Unmatched braces and unterminated regexps -/

theorem find_none (sr : List Char) (p post : List Char) (c : Char) (hsr : sr = p ++ post)
    (hc : c ∉ p) : find sr (p.length : Int) c = .ok (-1) := by
  subst hsr
  have h := findfLoop_skip (fun x => x == c) [] p post (fun x hx => by
    have : x ≠ c := fun e => hc (e ▸ hx)
    simp [this])
  simp only [List.nil_append, List.length_nil, zero_add] at h
  rw [find, Int.toNat_ofNat, h]
  rfl

/-- C11, as stated, fails: in `{1` the opening brace has no closing brace,
and the argument compiles, the brace being the delimiter of the selector `1`. -/
theorem CompileExtractor_unmatched_open_counterexample :
    CompileExtractor demoLib ['{', '1'] =
      .ok [{ delim := ['{'], tokenize := .greedy, filter := .fieldRange ⟨1, 1⟩ }] :=
  rfl

/-- C11, amended: an argument that ends in `}` with no `{` to its left is
rejected with the error `extractor has unmatched '}' at character n`; an
opening brace followed only by a decimal literal is that selector's delimiter. -/
theorem CompileExtractor_unmatched_brace (lib : GoLib) :
    (∀ pre : List Char, '{' ∉ pre →
      CompileExtractor lib (pre ++ ['}']) =
        .error (.error ("extractor has unmatched '\x7d' at character ".toList ++
          fmtInt ((pre.length : Int) + 1)))) ∧
    (∀ k : Str, isLiteral k →
      CompileExtractor lib ('{' :: k) = .ok [simpleSelector ['{'] k]) := by
  constructor
  · intro pre hpre
    have hr : runeAt (pre ++ ['}']) (pre.length : Int) = .ok '}' := runeAt_append pre '}' []
    have hf := find_none (pre ++ ['}']) pre ['}'] '{' rfl hpre
    have hsel : selectorAt lib (pre ++ ['}']) (pre.length : Int) =
        .error (.error ("extractor has unmatched '\x7d' at character ".toList ++
          fmtInt ((pre.length : Int) + 1))) := by
      unfold selectorAt
      simp only [hr, if_true, hf]
    have hi : (((pre ++ ['}']).length : Nat) : Int) - 1 = (pre.length : Int) := by simp
    unfold CompileExtractor
    simp only [hi]
    rw [compileLoop_error lib _ _ _ _ (by omega) _ hsel]
  · intro k hk
    have h := CompileExtractor_one_literal lib ['{'] k hk
      (fun p x e => by
        have : '{' = x := snoc_inj (a := []) e
        subst this
        exact ⟨by simp [IsDigit], by decide⟩) ['{'] 0
      (delimAt_plain [] '{' _ (fun p x e => by simp at e)) (by decide)
    exact h

/-- Witness for C11, amended: the arguments `1}` and `{12`. -/
theorem CompileExtractor_unmatched_brace_witness :
    CompileExtractor demoLib (['1'] ++ ['}']) =
      .error (.error ("extractor has unmatched '\x7d' at character ".toList ++
        fmtInt (((['1'] : List Char).length : Int) + 1))) ∧
    CompileExtractor demoLib ('{' :: ['1', '2']) = .ok [simpleSelector ['{'] ['1', '2']] :=
  ⟨(CompileExtractor_unmatched_brace demoLib).1 ['1'] (by decide),
   (CompileExtractor_unmatched_brace demoLib).2 ['1', '2'] ⟨by decide, by decide, by decide⟩⟩

/-- C20: for every text `p` without a slash that does not end in a backslash,
`p/` fails to compile exactly when `p` does, with the same error, and
otherwise compiles to the selectors of `p` followed by one greedy selector
whose delimiter is the slash and whose regexp is the empty pattern; `/` alone
compiles to that single selector. -/
theorem CompileExtractor_trailing_slash (lib : GoLib) (p : Str) (hs : '/' ∉ p)
    (hb : ∀ q x, p = q ++ [x] → x ≠ '\\') (hrx : lib.regexpCompile [] = none) :
    (CompileExtractor lib (p ++ ['/']) =
      match CompileExtractor lib p with
      | .error e => .error e
      | .ok ex => .ok (ex ++ [slashSelector])) ∧
    CompileExtractor lib ['/'] = .ok [slashSelector] := by
  have main : ∀ p : Str, '/' ∉ p → (∀ q x, p = q ++ [x] → x ≠ '\\') →
      CompileExtractor lib (p ++ ['/']) =
        match CompileExtractor lib p with
        | .error e => .error e
        | .ok ex => .ok (ex ++ [slashSelector]) := by
    intro p hs hb
    have hr : runeAt (p ++ ['/']) (p.length : Int) = .ok '/' := runeAt_append p '/' []
    have hf := find_none (p ++ ['/']) p ['/'] '/' rfl hs
    have hloop : regexpLoop (p ++ ['/']) ((p ++ ['/']).length + 1) (p.length : Int) (-1) []
        = .ok ((p.length : Int), []) := by
      rw [regexpLoop]
      simp
    have hsel : selectorAt lib (p ++ ['/']) (p.length : Int) =
        .ok (.greedy, .regexp { expr := [] }, (p.length : Int)) := by
      unfold selectorAt
      simp only [hr, Char.reduceEq, if_false, if_true, hf, hloop, reverseInPlace_eq_reverse,
        List.reverse_nil, Join, NewRegexpFilter, hrx]
    have hdel : delimAt (p ++ ['/']) (p.length : Int) = .ok (['/'], (p.length : Int)) :=
      delimAt_plain p '/' [] hb
    have hi : (((p ++ ['/']).length : Nat) : Int) - 1 = (p.length : Int) := by simp
    have hfuel : (p ++ ['/']).length + 1 = (p.length + 1) + 1 := by simp
    unfold CompileExtractor
    simp only [hi]
    have hstep : compileLoop lib (p ++ ['/']) ((p.length + 1) + 1) (p.length : Int) [] =
        compileLoop lib (p ++ ['/']) (p.length + 1) ((p.length : Int) - 1)
          ([] ++ [slashSelector]) :=
      compileLoop_step lib _ _ _ _ (by omega) _ _ _ _ _ hsel hdel
    have hacc := compileLoop_acc lib p [slashSelector] (p.length + 1) ((p.length : Int) - 1) []
    rw [List.append_nil] at hacc
    rw [hfuel, hstep, compileLoop_append_left lib p ['/'] hs _ _ _ (by omega), List.nil_append, hacc]
    cases compileLoop lib p (p.length + 1) ((p.length : Int) - 1) [] with
    | error e => rfl
    | ok r => simp [reverseInPlace_eq_reverse]
  refine ⟨main p hs hb, ?_⟩
  have h := main [] (by simp) (fun q x e => by simp at e)
  simpa [CompileExtractor, compileLoop, reverseInPlace_eq_reverse] using h

/-- Witness for C20: the argument `1/`. -/
theorem CompileExtractor_trailing_slash_witness :
    CompileExtractor demoLib (['1'] ++ ['/']) =
      (match CompileExtractor demoLib ['1'] with
       | .error e => .error e
       | .ok ex => .ok (ex ++ [slashSelector])) ∧
    CompileExtractor demoLib ['1'] = .ok [simpleSelector [' '] ['1']] :=
  ⟨(CompileExtractor_trailing_slash demoLib ['1'] (by decide)
      (fun q x e => by
        have : '1' = x := snoc_inj (a := []) e
        subst this
        decide)
      rfl).1, rfl⟩

/-! ### Escaped slashes and the first rune of the argument -/

/-- C19, as stated, fails: in `\/ab/` the slash at index 1 is preceded by a
backslash that is the argument's first rune, yet it terminates the regexp;
the pattern is `ab`, not `/ab`, and the backslash is the delimiter. -/
theorem CompileExtractor_leading_backslash_counterexample :
    CompileExtractor demoLib ['\\', '/', 'a', 'b', '/'] =
      .ok [{ delim := ['\\'], tokenize := .greedy, filter := .regexp { expr := ['a', 'b'] } }] :=
  rfl

/-- One iteration of the regexp loop on a slash preceded by a single
backslash that is not the first rune: the text between the slash and the
cursor is kept, the slash is added without its backslash, and the scan goes
on from the backslash. -/
theorem regexpLoop_escaped_step (pre : List Char) (x : Char) (mid post : List Char)
    (hx : x ≠ '\\') (chunks : List Str) (fuel : Nat) :
    regexpLoop (pre ++ x :: '\\' :: '/' :: (mid ++ post)) (fuel + 1)
        ((pre.length : Int) + 3 + mid.length) ((pre.length : Int) + 2) chunks =
      match find (pre ++ x :: '\\' :: '/' :: (mid ++ post)) ((pre.length : Int) + 1) '/' with
      | .error e => .error e
      | .ok start =>
        regexpLoop (pre ++ x :: '\\' :: '/' :: (mid ++ post)) fuel ((pre.length : Int) + 1) start
          ((if mid ≠ [] then chunks ++ [mid] else chunks) ++ [['/']]) := by
  generalize hsr : pre ++ x :: '\\' :: '/' :: (mid ++ post) = sr
  have F3 : slice sr ((pre.length : Int) + 2 + 1) ((pre.length : Int) + 3 + mid.length)
      = .ok mid := by
    have e1 : sr = (pre ++ [x, '\\', '/']) ++ mid ++ post := by simp [← hsr]
    have e2 : (pre.length : Int) + 2 + 1 = ((pre ++ [x, '\\', '/']).length : Int) := by
      simp
      omega
    have e3 : (pre.length : Int) + 3 + mid.length
        = ((pre ++ [x, '\\', '/']).length : Int) + mid.length := by
      simp
    rw [e1, e3, e2, slice_append]
  have F4 : runeAt sr ((pre.length : Int) + 2 - 1) = .ok '\\' := by
    have e1 : sr = (pre ++ [x]) ++ '\\' :: ('/' :: (mid ++ post)) := by simp [← hsr]
    have e2 : (pre.length : Int) + 2 - 1 = ((pre ++ [x]).length : Int) := by
      simp
      omega
    rw [e1, e2, runeAt_append]
  have F5 : findf sr ((pre.length : Int) + 2) (fun r => r != '\\') = .ok (pre.length : Int) := by
    have e1 : sr = (pre ++ [x]) ++ '\\' :: ('/' :: (mid ++ post)) := by simp [← hsr]
    have e2 : ((pre.length : Int) + 2).toNat = (pre ++ [x]).length + 1 := by
      simp
      omega
    rw [findf, e2, e1, findfLoop_skip_one _ _ _ _ (by simp)]
    have e3 : pre ++ [x] ++ '\\' :: '/' :: (mid ++ post)
        = pre ++ x :: ('\\' :: '/' :: (mid ++ post)) := by simp
    rw [e3, List.length_append, List.length_singleton, findfLoop_hit _ _ _ _ (by simp [hx])]
  have F6 : slice sr ((pre.length : Int) + 2 - Int.tdiv ((pre.length : Int) + 2
      - ((pre.length : Int) + 1) - 1) 2) ((pre.length : Int) + 2 + 1) = .ok ['/'] := by
    have e0 : (pre.length : Int) + 2 - ((pre.length : Int) + 1) - 1 = 0 := by omega
    have e1 : sr = (pre ++ [x, '\\']) ++ '/' :: (mid ++ post) := by simp [← hsr]
    have e2 : (pre.length : Int) + 2 = ((pre ++ [x, '\\']).length : Int) := by
      simp
    rw [e0, Int.zero_tdiv, sub_zero, e2, e1, slice_one]
  have c1 : ¬ ((pre.length : Int) + 2 = -1) := by omega
  have c2 : (pre.length : Int) + 2 > 1 := by omega
  have c3 : ¬ (Int.tmod ((pre.length : Int) + 2 - ((pre.length : Int) + 1)) 2 = 0) := by
    have : (pre.length : Int) + 2 - ((pre.length : Int) + 1) = 1 := by omega
    rw [this]
    decide
  rw [regexpLoop]
  simp only [c1, if_false, F3, c2, if_true, F4, Except.map, beq_self_eq_true, Bool.not_true,
    Bool.false_eq_true, F5, c3, F6]

/-- C19, amended: a slash reached by the scan that is preceded by a single
backslash is treated as escaped when the backslash is not the argument's
first rune: it is added to the regexp without its backslash and does not end
the regexp.  When the backslash is the first rune, the slash at index 1 ends
the regexp and the backslash is the delimiter: for every `b` without a slash
that is a valid pattern, backslash, slash, `b`, slash compiles to one selector
with delimiter backslash and regexp source `b`. -/
theorem CompileExtractor_leading_backslash (lib : GoLib) :
    (∀ (pre : List Char) (x : Char) (mid post : List Char) (chunks : List Str) (fuel : Nat),
      x ≠ '\\' →
      regexpLoop (pre ++ x :: '\\' :: '/' :: (mid ++ post)) (fuel + 1)
          ((pre.length : Int) + 3 + mid.length) ((pre.length : Int) + 2) chunks =
        match find (pre ++ x :: '\\' :: '/' :: (mid ++ post)) ((pre.length : Int) + 1) '/' with
        | .error e => .error e
        | .ok start =>
          regexpLoop (pre ++ x :: '\\' :: '/' :: (mid ++ post)) fuel ((pre.length : Int) + 1)
            start ((if mid ≠ [] then chunks ++ [mid] else chunks) ++ [['/']])) ∧
    (∀ b : Str, '/' ∉ b → lib.regexpCompile b = none →
      CompileExtractor lib ('\\' :: '/' :: (b ++ ['/'])) =
        .ok [{ delim := ['\\'], tokenize := .greedy, filter := .regexp { expr := b } }]) := by
  refine ⟨fun pre x mid post chunks fuel hx =>
    regexpLoop_escaped_step pre x mid post hx chunks fuel, ?_⟩
  intro b hb hrx
  generalize hsr : '\\' :: '/' :: (b ++ ['/']) = sr
  have hlen : sr.length = b.length + 3 := by simp [← hsr]
  have hr : runeAt sr ((b.length : Int) + 2) = .ok '/' := by
    have e1 : sr = ('\\' :: '/' :: b) ++ '/' :: [] := by simp [← hsr]
    have e2 : (b.length : Int) + 2 = (('\\' :: '/' :: b).length : Int) := by
      simp
      omega
    rw [e1, e2, runeAt_append]
  have hf : find sr ((b.length : Int) + 2) '/' = .ok 1 := by
    have e1 : sr = ['\\', '/'] ++ b ++ ['/'] := by simp [← hsr]
    have e2 : ((b.length : Int) + 2).toNat = ['\\', '/'].length + b.length := by
      simp
      omega
    rw [find, e2, e1, findfLoop_skip _ _ b _ (fun c hc => by
      have : c ≠ '/' := fun e => hb (e ▸ hc)
      simp [this])]
    exact findfLoop_hit _ ['\\'] '/' _ (by simp)
  have hs : slice sr ((1 : Int) + 1) ((b.length : Int) + 2) = .ok b := by
    have e1 : sr = ['\\', '/'] ++ b ++ ['/'] := by simp [← hsr]
    have e2 : (b.length : Int) + 2 = ((['\\', '/'] : List Char).length : Int) + b.length := by
      simp
      omega
    have e3 : (1 : Int) + 1 = ((['\\', '/'] : List Char).length : Int) := by simp
    rw [e1, e2, e3, slice_append]
  have hloop : regexpLoop sr (sr.length + 1) ((b.length : Int) + 2) 1 []
      = .ok (0, if b ≠ [] then [b] else []) := by
    have c1 : ¬ ((1 : Int) = -1) := by decide
    have c2 : ¬ ((1 : Int) > 1) := by decide
    rw [regexpLoop]
    simp only [c1, if_false, hs, c2, Bool.not_false, if_true, List.nil_append]
    rfl
  have hjoin : Join (reverseInPlace (if b ≠ [] then [b] else [])) [] = b := by
    rw [reverseInPlace_eq_reverse, Join_nil_sep]
    by_cases e : b = [] <;> simp [e]
  have hsel : selectorAt lib sr ((b.length : Int) + 2) =
      .ok (.greedy, .regexp { expr := b }, 0) := by
    unfold selectorAt
    simp only [hr, Char.reduceEq, if_false, if_true, hf, hloop, hjoin, NewRegexpFilter, hrx]
  have hdel : delimAt sr 0 = .ok (['\\'], 0) := by
    rw [← hsr]
    exact delimAt_plain [] '\\' _ (fun p x e => by simp at e)
  have hi : ((sr.length : Nat) : Int) - 1 = (b.length : Int) + 2 := by
    rw [hlen]
    push_cast
    omega
  unfold CompileExtractor
  simp only [hi]
  rw [hlen, compileLoop_step lib _ _ _ _ (by omega) _ _ _ _ _ hsel hdel,
    compileLoop_done lib _ _ _ _ (by decide)]
  simp only [List.nil_append, reverseInPlace_singleton]

/-- Witness for C19, amended: the argument `\/ab/`, and the escaped slash of
`/x\//`. -/
theorem CompileExtractor_leading_backslash_witness :
    CompileExtractor demoLib ('\\' :: '/' :: (['a', 'b'] ++ ['/'])) =
      .ok [{ delim := ['\\'], tokenize := .greedy, filter := .regexp { expr := ['a', 'b'] } }] ∧
    regexpLoop (['/'] ++ 'x' :: '\\' :: '/' :: ([] ++ ['/'])) (4 + 1)
        (((['/'] : List Char).length : Int) + 3 + (([] : List Char).length : Nat))
        (((['/'] : List Char).length : Int) + 2) [] =
      (match find (['/'] ++ 'x' :: '\\' :: '/' :: ([] ++ ['/']))
          (((['/'] : List Char).length : Int) + 1) '/' with
       | .error e => .error e
       | .ok start =>
         regexpLoop (['/'] ++ 'x' :: '\\' :: '/' :: ([] ++ ['/'])) 4
           (((['/'] : List Char).length : Int) + 1) start
           ((if ([] : List Char) ≠ [] then [] ++ [[]] else []) ++ [['/']])) :=
  ⟨(CompileExtractor_leading_backslash demoLib).2 ['a', 'b'] (by decide) rfl,
   (CompileExtractor_leading_backslash demoLib).1 ['/'] 'x' [] ['/'] [] 4 (by decide)⟩

/-- The range from the first through the last token selects every token. -/
theorem Select_first_through_last (fields : List Str) (zero : Str) :
    FieldRange.Select { Start := 1, End := -1 } fields zero = .ok fields := by
  rw [select_nonzero _ _ _ (by simp)]
  simp only [abs_eq]
  cases fields with
  | nil => simp
  | cons t ts =>
    have hn : (1 : Int) ≤ ((t :: ts).length : Nat) := by
      rw [List.length_cons]
      omega
    generalize hN : (((t :: ts).length : Nat) : Int) = n at hn
    have h1 : ¬ ((1 : Int) ≤ 0 ∨ (1 : Int) > n) := by omega
    have h2 : (min (max (n + 1 + (-1) : Int) 1) n + 1 - 1).toNat = (t :: ts).length := by
      omega
    have e1 : (if (1 : Int) ≥ 0 then (1 : Int) else n + 1 + 1) = 1 := if_pos (by decide)
    have e2 : (if (-1 : Int) ≥ 0 then (-1 : Int) else n + 1 + -1) = n + 1 + -1 :=
      if_neg (by decide)
    simp only [e1, e2, if_neg h1, h2]
    simp

/-- One non-greedy stage that selects the first through the last token gives
back its input. -/
theorem Extract_first_through_last (lib : GoLib) (d : Char) (s : Str) :
    Extractor.Extract lib
      [{ delim := [d], tokenize := .nonGreedy, filter := .group [{ Start := 1, End := -1 }] }] s
      = .ok s := by
  simp only [Extractor.Extract, extractLoop, Selector.Extract, splitFunc.call, Filter.Select,
    Group.Select, groupSelectLoop, NonGreedySplit_eq_splitChar, Select_first_through_last,
    List.nil_append, Join_splitChar]

/-- C21: for every delimiter rune `d` and every input `s`, the argument
`d{?1:}` compiles without error to exactly one selector, with delimiter `d`,
the non-greedy tokenizer and the single range from 1 to -1; extracting with it
returns `s` unchanged, because splitting `s` at `d` keeps the empty tokens, the
range selects every token, and joining the tokens with `d` restores `s`. -/
theorem CompileExtractor_identity_group (lib : GoLib) (d : Char) (s : Str) :
    CompileExtractor lib (d :: ['{', '?', '1', ':', '}']) =
      .ok [{ delim := [d], tokenize := .nonGreedy,
             filter := .group [{ Start := 1, End := -1 }] }] ∧
    Extractor.Extract lib
      [{ delim := [d], tokenize := .nonGreedy,
         filter := .group [{ Start := 1, End := -1 }] }] s = .ok s ∧
    FieldRange.Select { Start := 1, End := -1 } (NonGreedySplit [d] s) s
      = .ok (NonGreedySplit [d] s) ∧
    Join (NonGreedySplit [d] s) [d] = s := by
  refine ⟨?_, Extract_first_through_last lib d s, Select_first_through_last _ _, ?_⟩
  · have hdel : delimAt ([d] ++ '{' :: ['?', '1', ':'] ++ ['}']) ((([d] : List Char).length : Int) - 1)
        = .ok ([d], 0) := rfl
    have h := CompileExtractor_one_group lib [d] ['?', '1', ':'] (by decide) [d] 0 hdel
      (by decide)
    exact h
  · rw [NonGreedySplit_eq_splitChar, Join_splitChar]

/-! ### Totality of the compiler -/

theorem runeAt_ok (sr : List Char) (k : Int) (h0 : 0 ≤ k) (h1 : k < sr.length) :
    ∃ c, runeAt sr k = .ok c := by
  unfold runeAt
  rw [if_neg (by omega)]
  have hk : k.toNat < sr.length := by omega
  rw [List.getElem?_eq_getElem hk]
  exact ⟨_, rfl⟩

theorem slice_ok (sr : List Char) (i j : Int) (h0 : 0 ≤ i) (hij : i ≤ j)
    (hj : j ≤ sr.length) : ∃ s, slice sr i j = .ok s := by
  unfold slice
  rw [if_neg (by omega)]
  exact ⟨_, rfl⟩

theorem findfLoop_ok (sr : List Char) (f : Char → Bool) (k : Nat) (hk : k ≤ sr.length) :
    ∃ q : Int, findfLoop sr f k = .ok q ∧ -1 ≤ q ∧ q < k := by
  rcases findfLoop_spec sr f k hk with ⟨h1, _⟩ | ⟨a, c, b, _, _, _, h4⟩
  · exact ⟨_, h1, findfLoop_bounds sr f k _ hk h1⟩
  · exact ⟨_, h4, findfLoop_bounds sr f k _ hk h4⟩

theorem find_ok (sr : List Char) (i : Int) (r : Char) (h0 : 0 ≤ i) (hi : i ≤ sr.length) :
    ∃ q : Int, find sr i r = .ok q ∧ -1 ≤ q ∧ q < i := by
  obtain ⟨q, h, h1, h2⟩ := findfLoop_ok sr (fun c => c == r) i.toNat (by omega)
  exact ⟨q, h, h1, by omega⟩

theorem findf_ok (sr : List Char) (i : Int) (f : Char → Bool) (h0 : 0 ≤ i)
    (hi : i ≤ sr.length) : ∃ q : Int, findf sr i f = .ok q ∧ -1 ≤ q ∧ q < i := by
  obtain ⟨q, h, h1, h2⟩ := findfLoop_ok sr f i.toNat (by omega)
  exact ⟨q, h, h1, by omega⟩

/-- One iteration of the regexp loop, entered with `0 ≤ start < i`: no index
is out of range, and the loop is either left or continued with a strictly
smaller cursor, whatever the iteration bound. -/
theorem regexpLoop_iteration (sr : List Char) (i start : Int) (chunks : List Str)
    (h0 : 0 ≤ start) (h1 : start < i) (h2 : i ≤ sr.length) :
    (∃ i' chunks', (∀ fuel, regexpLoop sr (fuel + 1) i start chunks = .ok (i', chunks')) ∧
        -1 ≤ i' ∧ i' < i) ∨
    (∃ i' start' chunks',
        (∀ fuel, regexpLoop sr (fuel + 1) i start chunks = regexpLoop sr fuel i' start' chunks') ∧
        0 ≤ i' ∧ i' < i ∧ i' ≤ start ∧ -1 ≤ start' ∧ start' < i') := by
  have hne : ¬ (start = -1) := by omega
  obtain ⟨chunk, hchunk⟩ := slice_ok sr (start + 1) i (by omega) (by omega) h2
  by_cases hs : start > 1
  · obtain ⟨c, hc⟩ := runeAt_ok sr (start - 1) (by omega) (by omega)
    by_cases hesc : (c == '\\') = true
    · obtain ⟨q, hq, hq1, hq2⟩ := findf_ok sr start (fun r => r != '\\') (by omega) (by omega)
      by_cases hev : Int.tmod (start - (q + 1)) 2 = 0
      · refine Or.inl ⟨q + 1, if chunk ≠ [] then chunks ++ [chunk] else chunks, fun fuel => ?_,
          by omega, by omega⟩
        rw [regexpLoop, if_neg hne]
        simp only [hchunk, if_pos hs, hc, Except.map, hesc, hq, hev, if_true, Bool.not_true]
        rfl
      · have hodd : 1 ≤ start - (q + 1) := by
          by_contra hcon
          have : start - (q + 1) = 0 := by omega
          rw [this] at hev
          exact hev rfl
        have hdiv : Int.tdiv (start - (q + 1) - 1) 2 = (start - (q + 1) - 1) / 2 :=
          Int.tdiv_eq_ediv (by omega) (by omega)
        obtain ⟨esc, hescs⟩ := slice_ok sr (start - Int.tdiv (start - (q + 1) - 1) 2) (start + 1)
          (by rw [hdiv]; omega) (by rw [hdiv]; omega) (by omega)
        obtain ⟨s', hs', hs1, hs2⟩ := find_ok sr (q + 1) '/' (by omega) (by omega)
        refine Or.inr ⟨q + 1, s', (if chunk ≠ [] then chunks ++ [chunk] else chunks) ++ [esc],
          fun fuel => ?_, by omega, by omega, by omega, hs1, hs2⟩
        rw [regexpLoop, if_neg hne]
        simp only [hchunk, if_pos hs, hc, Except.map, hesc, hq, hev, if_false, Bool.not_true,
          hescs, hs']
        rfl
    · refine Or.inl ⟨start - 1, if chunk ≠ [] then chunks ++ [chunk] else chunks, fun fuel => ?_,
        by omega, by omega⟩
      have hesc' : (c == '\\') = false := by simpa using hesc
      rw [regexpLoop, if_neg hne]
      simp only [hchunk, if_pos hs, hc, Except.map, hesc', Bool.not_false, if_true]
  · refine Or.inl ⟨start - 1, if chunk ≠ [] then chunks ++ [chunk] else chunks, fun fuel => ?_,
      by omega, by omega⟩
    rw [regexpLoop, if_neg hne]
    simp only [hchunk, if_neg hs, Bool.not_false, if_true]

/-- With the invariant `-1 ≤ start < i` and an iteration bound above `start + 1`,
the regexp loop is left with a cursor at or below the one it was entered with. -/
theorem regexpLoop_ok (sr : List Char) :
    ∀ (fuel : Nat) (i start : Int) (chunks : List Str), -1 ≤ start → start < i →
      i ≤ sr.length → start + 2 ≤ fuel →
      ∃ i' chunks', regexpLoop sr fuel i start chunks = .ok (i', chunks') ∧ -1 ≤ i' ∧ i' ≤ i := by
  intro fuel
  induction fuel with
  | zero =>
    intro i start chunks h0 _ _ hf
    exfalso
    omega
  | succ fuel ih =>
    intro i start chunks h0 h1 h2 hf
    by_cases hs : start = -1
    · refine ⟨i, chunks, ?_, by omega, le_refl _⟩
      rw [regexpLoop, if_pos hs]
    · rcases regexpLoop_iteration sr i start chunks (by omega) h1 h2 with
        ⟨i', c', h, h3, h4⟩ | ⟨i', s', c', h, h3, h4, h5, h6, h7⟩
      · exact ⟨i', c', h fuel, h3, by omega⟩
      · obtain ⟨i'', c'', h8, h9, h10⟩ := ih i' s' c' h6 h7 (by omega) (by push_cast at hf; omega)
        exact ⟨i'', c'', by rw [h fuel, h8], h9, by omega⟩

theorem Atoi_error (lib : GoLib) (s : Str) (e : Failure) (h : Atoi lib s = .error e) :
    ∃ msg, e = .error msg := by
  unfold Atoi at h
  cases hp : ParseInt s with
  | ok v =>
    rw [hp] at h
    cases h
  | error e' =>
    rw [hp] at h
    exact ⟨_, (Except.error.inj h).symm⟩

theorem Atoi_default_error (lib : GoLib) (s : Str) (d : Int) (e : Failure)
    (h : (if s = [] then (Except.ok d : Except Failure Int) else Atoi lib s) = .error e) :
    ∃ msg, e = .error msg := by
  by_cases hs : s = []
  · rw [if_pos hs] at h
    cases h
  · rw [if_neg hs] at h
    exact Atoi_error lib s e h

theorem ParseFieldRange_error (lib : GoLib) (s : Str) (e : Failure)
    (h : ParseFieldRange lib s = .error e) : ∃ msg, e = .error msg := by
  unfold ParseFieldRange at h
  simp only at h
  by_cases h1 : IndexByte s ':' = -1
  · rw [if_pos h1] at h
    cases ha : Atoi lib s with
    | error e' =>
      rw [ha] at h
      exact Atoi_error lib s e (by rw [ha, Except.error.inj h])
    | ok v =>
      rw [ha] at h
      cases h
  · rw [if_neg h1] at h
    by_cases h2 : List.take (IndexByte s ':').toNat s = [] ∧
        List.drop ((IndexByte s ':').toNat + 1) s = []
    · rw [if_pos h2] at h
      cases h
    · rw [if_neg h2] at h
      generalize hA : (if List.take (IndexByte s ':').toNat s = [] then
          (Except.ok 1 : Except Failure Int)
        else Atoi lib (List.take (IndexByte s ':').toNat s)) = A at h
      generalize hB : (if List.drop ((IndexByte s ':').toNat + 1) s = [] then
          (Except.ok (-1) : Except Failure Int)
        else Atoi lib (List.drop ((IndexByte s ':').toNat + 1) s)) = B at h
      cases A with
      | error e' =>
        exact Atoi_default_error lib _ 1 e (by rw [hA, Except.error.inj h])
      | ok fStart =>
        cases B with
        | error e' =>
          exact Atoi_default_error lib _ (-1) e (by rw [hB, Except.error.inj h])
        | ok fEnd =>
          simp only at h
          split_ifs at h
          · exact ⟨_, (Except.error.inj h).symm⟩
          · exact ⟨_, (Except.error.inj h).symm⟩

theorem parseGroupLoop_error (lib : GoLib) (specs : List Str) (e : Failure)
    (h : parseGroupLoop lib specs = .error e) : ∃ msg, e = .error msg := by
  induction specs generalizing e with
  | nil => cases h
  | cons spec rest ih =>
    rw [parseGroupLoop] at h
    split at h
    · exact ⟨_, (Except.error.inj h).symm⟩
    · rename_i e' _ he
      obtain ⟨msg, hm⟩ := ParseFieldRange_error lib spec e' he
      exact ⟨msg, by rw [← Except.error.inj h, hm]⟩
    · split at h
      · rename_i e' he
        exact ih e (by rw [he, Except.error.inj h])
      · cases h

theorem ParseGroup_error (lib : GoLib) (s : Str) (e : Failure)
    (h : ParseGroup lib s = .error e) : ∃ msg, e = .error msg :=
  parseGroupLoop_error lib _ e h

theorem NewRegexpFilter_error (lib : GoLib) (s : Str) (e : Failure)
    (h : NewRegexpFilter lib s = .error e) : ∃ msg, e = .error msg := by
  unfold NewRegexpFilter at h
  split at h
  · exact ⟨_, (Except.error.inj h).symm⟩
  · cases h

/-- At a cursor inside the argument, the selector switch indexes nothing out of
range and does not exhaust the bound of the regexp loop: it returns a Go error,
or a selector and a cursor that is at most the one it started from. -/
theorem selectorAt_returns (lib : GoLib) (sr : List Char) (i : Int) (h0 : 0 ≤ i)
    (hi : i < sr.length) :
    (∃ msg, selectorAt lib sr i = .error (.error msg)) ∨
    (∃ t f i1, selectorAt lib sr i = .ok (t, f, i1) ∧ -1 ≤ i1 ∧ i1 ≤ i) := by
  obtain ⟨r, hr⟩ := runeAt_ok sr i h0 hi
  unfold selectorAt
  rw [hr]
  simp only
  by_cases h1 : r = '}'
  · rw [if_pos h1]
    obtain ⟨start, hst, hs1, hs2⟩ := find_ok sr i '{' h0 (by omega)
    rw [hst]
    simp only
    by_cases hm : start = -1
    · rw [if_pos hm]
      exact Or.inl ⟨_, rfl⟩
    · rw [if_neg hm]
      obtain ⟨sub, hsub⟩ := slice_ok sr (start + 1) i (by omega) (by omega) (by omega)
      rw [hsub]
      simp only
      cases hg : ParseGroup lib (if sub.head? = some '?' then sub.drop 1 else sub) with
      | error e =>
        obtain ⟨msg, hmsg⟩ := ParseGroup_error lib _ e hg
        exact Or.inl ⟨msg, by rw [hmsg]⟩
      | ok g => exact Or.inr ⟨_, _, start - 1, rfl, by omega, by omega⟩
  · rw [if_neg h1]
    by_cases h2 : r = '/'
    · rw [if_pos h2]
      obtain ⟨start, hst, hs1, hs2⟩ := find_ok sr i '/' h0 (by omega)
      rw [hst]
      simp only
      obtain ⟨i', chunks, hre, hr1, hr2⟩ := regexpLoop_ok sr (sr.length + 1) i start [] hs1 hs2
        (by omega) (by push_cast; omega)
      rw [hre]
      simp only
      cases hn : NewRegexpFilter lib (Join (reverseInPlace chunks) []) with
      | error e =>
        obtain ⟨msg, hmsg⟩ := NewRegexpFilter_error lib _ e hn
        exact Or.inl ⟨msg, by rw [hmsg]⟩
      | ok filter => exact Or.inr ⟨_, _, i', rfl, hr1, hr2⟩
    · rw [if_neg h2]
      by_cases h3 : IsDigit lib r = true
      · rw [if_pos h3]
        obtain ⟨start, hst, hs1, hs2⟩ := findf_ok sr i (fun r => !IsDigit lib r) h0 (by omega)
        rw [hst]
        simp only
        have hminus : ∃ minus, (if start > -1 then (runeAt sr start).map (fun c => c == '-')
            else .ok false) = Except.ok minus := by
          by_cases hgt : start > -1
          · obtain ⟨c, hc⟩ := runeAt_ok sr start (by omega) (by omega)
            exact ⟨c == '-', by rw [if_pos hgt, hc]; rfl⟩
          · exact ⟨false, by rw [if_neg hgt]⟩
        obtain ⟨minus, hmin⟩ := hminus
        rw [hmin]
        simp only
        have hb : -1 ≤ (if minus = true then start - 1 else start) ∧
            (if minus = true then start - 1 else start) ≤ i := by
          by_cases hmt : minus = true
          · have hgt : start > -1 := by
              by_contra hcon
              rw [if_neg hcon] at hmin
              have := Except.ok.inj hmin
              rw [hmt] at this
              cases this
            rw [if_pos hmt]
            omega
          · rw [if_neg hmt]
            omega
        generalize (if minus = true then start - 1 else start) = st at hb
        obtain ⟨digits, hd⟩ := slice_ok sr (st + 1) (i + 1) (by omega) (by omega) (by omega)
        rw [hd]
        simp only
        cases hp : ParseFieldRange lib digits with
        | error e =>
          obtain ⟨msg, hmsg⟩ := ParseFieldRange_error lib _ e hp
          exact Or.inl ⟨msg, by rw [hmsg]⟩
        | ok fr => exact Or.inr ⟨_, _, st, rfl, hb.1, hb.2⟩
      · rw [if_neg h3]
        exact Or.inl ⟨_, rfl⟩

/-- At a cursor from -1 up to the last rune, the separator part indexes nothing
out of range; the cursor it leaves is the same or one less. -/
theorem delimAt_returns (sr : List Char) (i : Int) (h0 : -1 ≤ i) (hi : i < sr.length) :
    ∃ sep i2, delimAt sr i = .ok (sep, i2) ∧ -1 ≤ i2 ∧ i2 ≤ i := by
  unfold delimAt
  by_cases hpos : i > 0
  · obtain ⟨c, hc⟩ := runeAt_ok sr (i - 1) (by omega) (by omega)
    rw [if_pos hpos, hc]
    by_cases hb : (c == '\\') = true
    · obtain ⟨x, hx⟩ := runeAt_ok sr i (by omega) hi
      obtain ⟨sep, hsep⟩ := slice_ok sr i (i + 1) (by omega) (by omega) (by omega)
      simp only [Except.map, hb, hx, hsep]
      cases escapeSep x with
      | some s => exact ⟨_, _, rfl, by omega, by omega⟩
      | none => exact ⟨_, _, rfl, by omega, by omega⟩
    · have hb' : (c == '\\') = false := by simpa using hb
      obtain ⟨sep, hsep⟩ := slice_ok sr i (i + 1) (by omega) (by omega) (by omega)
      simp only [Except.map, hb', hsep, if_pos (show i ≥ 0 by omega)]
      exact ⟨_, _, rfl, by omega, le_refl _⟩
  · rw [if_neg hpos]
    simp only
    by_cases hz : i ≥ 0
    · obtain ⟨sep, hsep⟩ := slice_ok sr i (i + 1) (by omega) (by omega) (by omega)
      rw [if_pos hz, hsep]
      exact ⟨_, _, rfl, by omega, le_refl _⟩
    · rw [if_neg hz]
      exact ⟨_, _, rfl, by omega, le_refl _⟩

/-- One iteration of the outer loop at a cursor inside the argument: it returns
a Go error, or appends one selector and continues from a strictly smaller
cursor, whatever the iteration bound and the selectors read so far. -/
theorem compileLoop_iteration (lib : GoLib) (sr : List Char) (i : Int)
    (h0 : 0 ≤ i) (hi : i < sr.length) :
    (∃ msg, ∀ fuel ex, compileLoop lib sr (fuel + 1) i ex = .error (.error msg)) ∨
    (∃ sel i', (∀ fuel ex, compileLoop lib sr (fuel + 1) i ex
          = compileLoop lib sr fuel i' (ex ++ [sel])) ∧
        -2 ≤ i' ∧ i' < i) := by
  rcases selectorAt_returns lib sr i h0 hi with ⟨msg, hsel⟩ | ⟨t, f, i1, hsel, h1, h2⟩
  · exact Or.inl ⟨msg, fun fuel ex => compileLoop_error lib sr fuel i ex h0 _ hsel⟩
  · obtain ⟨sep, i2, hdel, h3, h4⟩ := delimAt_returns sr i1 h1 (by omega)
    exact Or.inr ⟨_, i2 - 1,
      fun fuel ex => compileLoop_step lib sr fuel i ex h0 t f i1 sep i2 hsel hdel,
      by omega, by omega⟩

/-- With an iteration bound above `i + 1`, the outer loop started at the cursor
`i` returns selectors or a Go error. -/
theorem compileLoop_returns (lib : GoLib) (sr : List Char) :
    ∀ (fuel : Nat) (i : Int) (ex : List Selector), i < sr.length → i + 2 ≤ fuel → 1 ≤ fuel →
      (∃ ex', compileLoop lib sr fuel i ex = .ok ex') ∨
      (∃ msg, compileLoop lib sr fuel i ex = .error (.error msg)) := by
  intro fuel
  induction fuel with
  | zero =>
    intro i ex _ _ hf
    omega
  | succ fuel ih =>
    intro i ex hi hf _
    by_cases hneg : i < 0
    · exact Or.inl ⟨ex, compileLoop_done lib sr fuel i ex hneg⟩
    · rcases compileLoop_iteration lib sr i (by omega) hi with
        ⟨msg, h⟩ | ⟨sel, i', h, h1, h2⟩
      · exact Or.inr ⟨msg, h fuel ex⟩
      · rw [h fuel ex]
        exact ih i' (ex ++ [sel]) (by omega) (by push_cast at hf; omega)
          (by push_cast at hf; omega)

theorem runeAt_ok_bounds (sr : List Char) (k : Int) (c : Char) (h : runeAt sr k = .ok c) :
    0 ≤ k ∧ k < sr.length := by
  unfold runeAt at h
  by_cases hk : k < 0
  · rw [if_pos hk] at h
    cases h
  · by_cases hl : k.toNat < sr.length
    · omega
    · rw [if_neg hk, List.getElem?_eq_none (by omega)] at h
      cases h

theorem slice_ok_bounds (sr : List Char) (i j : Int) (s : Str) (h : slice sr i j = .ok s) :
    0 ≤ i ∧ i ≤ j ∧ j ≤ sr.length := by
  unfold slice at h
  by_cases hb : i < 0 ∨ j < 0 ∨ i > sr.length ∨ j > sr.length ∨ i > j
  · rw [if_pos hb] at h
    cases h
  · omega

/-- C22: `CompileExtractor` is total.  For every argument it returns an
extractor or a Go error: it never indexes out of range and never exhausts the
iteration bounds of the backward scan; the empty argument gives the empty
extractor.  Every iteration of the outer loop at a cursor inside the argument
returns a Go error or continues from a strictly smaller cursor, and every
iteration of the regexp loop, entered with `0 ≤ start < i`, leaves the loop or
continues with a strictly smaller cursor and the same invariant.  An index
expression or a slice that yields a value has its indices in bounds. -/
theorem CompileExtractor_total (lib : GoLib) (arg : Str) :
    ((∃ ex, CompileExtractor lib arg = .ok ex) ∨
      (∃ msg, CompileExtractor lib arg = .error (.error msg))) ∧
    CompileExtractor lib [] = .ok [] ∧
    (∀ i : Int, 0 ≤ i → i < arg.length →
      (∃ msg, ∀ fuel ex, compileLoop lib arg (fuel + 1) i ex = .error (.error msg)) ∨
      (∃ sel i', (∀ fuel ex, compileLoop lib arg (fuel + 1) i ex
            = compileLoop lib arg fuel i' (ex ++ [sel])) ∧
          -2 ≤ i' ∧ i' < i)) ∧
    (∀ (i start : Int) (chunks : List Str), 0 ≤ start → start < i → i ≤ arg.length →
      (∃ i' chunks', (∀ fuel, regexpLoop arg (fuel + 1) i start chunks = .ok (i', chunks')) ∧
          -1 ≤ i' ∧ i' < i) ∨
      (∃ i' start' chunks',
          (∀ fuel, regexpLoop arg (fuel + 1) i start chunks
            = regexpLoop arg fuel i' start' chunks') ∧
          0 ≤ i' ∧ i' < i ∧ i' ≤ start ∧ -1 ≤ start' ∧ start' < i')) ∧
    (∀ (k : Int) (c : Char), runeAt arg k = .ok c → 0 ≤ k ∧ k < arg.length) ∧
    (∀ (i j : Int) (s : Str), slice arg i j = .ok s → 0 ≤ i ∧ i ≤ j ∧ j ≤ arg.length) := by
  refine ⟨?_, rfl, fun i h0 hi => compileLoop_iteration lib arg i h0 hi,
    fun i start chunks h0 h1 h2 => regexpLoop_iteration arg i start chunks h0 h1 h2,
    runeAt_ok_bounds arg, slice_ok_bounds arg⟩
  unfold CompileExtractor
  simp only
  rcases compileLoop_returns lib arg (arg.length + 1) ((arg.length : Int) - 1) [] (by omega)
    (by push_cast; omega) (by omega) with ⟨ex, h⟩ | ⟨msg, h⟩
  · rw [h]
    exact Or.inl ⟨_, rfl⟩
  · rw [h]
    exact Or.inr ⟨_, rfl⟩

theorem CompileExtractor_total_witness :
    (∃ i' chunks', (∀ fuel, regexpLoop ['/', 'a', '/'] (fuel + 1) 2 0 [] = .ok (i', chunks')) ∧
        -1 ≤ i' ∧ i' < 2) ∨
    (∃ i' start' chunks',
        (∀ fuel, regexpLoop ['/', 'a', '/'] (fuel + 1) 2 0 []
          = regexpLoop ['/', 'a', '/'] fuel i' start' chunks') ∧
        0 ≤ i' ∧ i' < 2 ∧ i' ≤ 0 ∧ -1 ≤ start' ∧ start' < i') :=
  (CompileExtractor_total demoLib ['/', 'a', '/']).2.2.2.1 2 0 [] (by decide) (by decide)
    (by decide)

end Fex
